import Mathlib

/-!
# Verification of the SPC chart segmentation and signal-detection engine

This file is a shallow embedding, in Lean 4, of the statistical-process-control
engine of `spc.js` (functions `displayChart` (its segmentation part),
`getSignals`, `createProcess`, `calculateSignals`, `summaryStatistics`,
`incrementSignal`, `clearSignal`, `addSignalToTracker` and the rule catalog
`SignalEnum`), together with theorems settling the specification's claims
about it.

Modelling conventions:
* Timestamps are natural numbers; the series is a `List DataPoint` ordered by
  the caller (the source sorts it before processing).  Exclusion sets
  (`datesToExclude`) are lists of timestamps with membership lookup, mirroring
  the JS object used as a set.
* Values, means and variances are exact rationals.  The source stores the
  sample standard deviation `sd = sqrt(variance)` (a float) and the rules
  compare `v > mean + k*sd`.  Square roots are irrational, so the embedding
  carries the variance `sd2 = sd^2` and evaluates each threshold comparison in
  the exactly equivalent squared form `v > mean ∧ (v-mean)^2 > k^2*sd2`
  (equivalent because `sd ≥ 0`); the equivalence with the source's formula is
  proved in the development (see the claim C5 theorem).
* `undefined` results of `d3.mean` / `d3.deviation` (empty input, fewer than
  two points) are modelled by `Option`; a JS comparison against
  `undefined`/`NaN` is false, which the rule predicates reproduce by returning
  `false` whenever a needed statistic is `none`.
* JS mutation of the shared `processes` array (including the aliasing between
  the local `process` variable and `processes[pIndex]`) is modelled by
  threading the process list through every function and reading the current
  process back from the list after any update.
* The two unbounded loops (the `while` loop of `calculateSignals` and its tail
  recursion over the growing process list) are modelled with fuel returning
  `Option`; sufficiency of the supplied fuel is proved (claim C9), so on every
  run considered the model never returns `none`.
* Array accesses `data[j]` performed by the source only happen at indices
  `startIndex ≤ j ≤ endIndex` that the loops keep inside the series; the total
  function `getPoint` supplies a dummy point out of bounds, which no reachable
  execution consults.
-/

/-! ## The rule catalog (`SignalEnum`) -/

/-- The eight control-chart rules, in the JS object insertion order of
`SignalEnum` (the order `for..in` iterates them). -/
inductive RuleId where
  | EIGHT_OVER_MEAN
  | EIGHT_UNDER_MEAN
  | TWO_OVER_TWO
  | TWO_UNDER_TWO
  | THREE_OVER_ONE_FIVE
  | THREE_UNDER_ONE_FIVE
  | ONE_OVER_THREE
  | ONE_UNDER_THREE
deriving DecidableEq, Repr, Fintype

/-- The `length` field of each `SignalEnum` entry: the run length the rule
requires. -/
def ruleLength : RuleId → Nat
  | .EIGHT_OVER_MEAN => 8
  | .EIGHT_UNDER_MEAN => 8
  | .TWO_OVER_TWO => 2
  | .TWO_UNDER_TWO => 2
  | .THREE_OVER_ONE_FIVE => 3
  | .THREE_UNDER_ONE_FIVE => 3
  | .ONE_OVER_THREE => 1
  | .ONE_UNDER_THREE => 1

/-- The `index` field of each `SignalEnum` entry (the severity rank of the
spec's table). -/
def ruleSeverity : RuleId → Nat
  | .EIGHT_OVER_MEAN => 4
  | .EIGHT_UNDER_MEAN => 3
  | .TWO_OVER_TWO => 6
  | .TWO_UNDER_TWO => 1
  | .THREE_OVER_ONE_FIVE => 5
  | .THREE_UNDER_ONE_FIVE => 2
  | .ONE_OVER_THREE => 7
  | .ONE_UNDER_THREE => 0

/-- The catalog in `for..in` iteration order (JS object insertion order of
`SignalEnum`). -/
def signalOrder : List RuleId :=
  [.EIGHT_OVER_MEAN, .EIGHT_UNDER_MEAN, .TWO_OVER_TWO, .TWO_UNDER_TWO,
   .THREE_OVER_ONE_FIVE, .THREE_UNDER_ONE_FIVE, .ONE_OVER_THREE, .ONE_UNDER_THREE]

/-- `value > mean + k·sd`, in squared form: `ksq` is `k^2`, `s2` is `sd^2`.
Equivalent to the source's float comparison because `sd ≥ 0`. -/
def overSig (v m s2 ksq : ℚ) : Bool :=
  decide (m < v) && decide (ksq * s2 < (v - m) ^ 2)

/-- `value < mean - k·sd`, in squared form (see `overSig`). -/
def underSig (v m s2 ksq : ℚ) : Bool :=
  decide (v < m) && decide (ksq * s2 < (m - v) ^ 2)

/-- The `rule` predicate of each `SignalEnum` entry, applied to
`(value, mean, sd)`; `none` models an `undefined` statistic, against which
every JS comparison is false.  The two 8-run rules compare directly against
the mean and ignore `sd`, exactly as in the source. -/
def ruleHolds : RuleId → ℚ → Option ℚ → Option ℚ → Bool
  | .EIGHT_OVER_MEAN, v, some m, _ => decide (m < v)
  | .EIGHT_UNDER_MEAN, v, some m, _ => decide (v < m)
  | .TWO_OVER_TWO, v, some m, some s2 => overSig v m s2 4
  | .TWO_UNDER_TWO, v, some m, some s2 => underSig v m s2 4
  | .THREE_OVER_ONE_FIVE, v, some m, some s2 => overSig v m s2 (9/4)
  | .THREE_UNDER_ONE_FIVE, v, some m, some s2 => underSig v m s2 (9/4)
  | .ONE_OVER_THREE, v, some m, some s2 => overSig v m s2 9
  | .ONE_UNDER_THREE, v, some m, some s2 => underSig v m s2 9
  | _, _, _, _ => false

/-! ## Data model -/

/-- One input point: a (unique, orderable) timestamp and a numeric value. -/
structure DataPoint where
  t : Nat
  v : ℚ
deriving DecidableEq, Repr

/-- A process segment, as built and mutated by the engine.  `startIndex` and
`endIndex` are inclusive positions into the series, `cap = -1` means "no cap".
`mean`/`sd2` hold the segment statistics of the last recomputation (`sd2` is
the variance, see the header); `signals` is the timestamp → rule map. -/
structure Process where
  startIndex : Int
  endIndex : Int
  cap : Int
  mean : Option ℚ := none
  sd2 : Option ℚ := none
  signals : List (Nat × RuleId) := []
deriving DecidableEq, Repr

/-- The per-scan run trackers: rule id → the current unbroken run of
timestamps satisfying that rule. -/
abbrev Tracker := RuleId → List Nat

def emptyTracker : Tracker := fun _ => []

def pushTracker (tr : Tracker) (sig : RuleId) (id : Nat) : Tracker :=
  fun r => if r = sig then tr sig ++ [id] else tr r

/-- `signals[d]` lookup on the timestamp → rule map. -/
def lookupSig : List (Nat × RuleId) → Nat → Option RuleId
  | [], _ => none
  | (t, r) :: rest, d => if t = d then some r else lookupSig rest d

/-- `signals[d] = id` JS object assignment: replace in place if the key
exists, append otherwise. -/
def setSig : List (Nat × RuleId) → Nat → RuleId → List (Nat × RuleId)
  | [], d, r => [(d, r)]
  | (t, r') :: rest, d, r =>
      if t = d then (d, r) :: rest else (t, r') :: setSig rest d r

/-! ## List and statistics helpers -/

/-- In-place update of the element at position `k` (the JS mutation
`arr[k].f = …`); out-of-range indices leave the list unchanged. -/
def modifyAt (f : Process → Process) : List Process → Nat → List Process
  | [], _ => []
  | p :: rest, 0 => f p :: rest
  | p :: rest, k + 1 => p :: modifyAt f rest k

/-- JS `Array.prototype.slice(s, e)` on a list (negative indices count from
the end, bounds are clamped). -/
def jsSlice (data : List DataPoint) (s e : Int) : List DataPoint :=
  (data.take ((if e < 0 then max ((data.length : Int) + e) 0
      else min e (data.length : Int)).toNat)).drop
    ((if s < 0 then max ((data.length : Int) + s) 0
      else min s (data.length : Int)).toNat)

/-- `data[j]`.  Every reachable access of the engine satisfies
`0 ≤ j < data.length`; the dummy point is never consulted on those runs. -/
def getPoint (data : List DataPoint) (j : Int) : DataPoint :=
  (data.get? j.toNat).getD ⟨0, 0⟩

/-- The integers `s, s+1, …, e-1` (ascending, `e` exclusive). -/
def intRange (s e : Int) : List Int :=
  (List.range (e - s).toNat).map (fun k : Nat => s + (k : Int))

/-- The integers `e, e-1, …, s` (descending, both inclusive): the index order
of the reverse scanning loop of `calculateSignals`. -/
def scanIndices (e s : Int) : List Int :=
  (List.range (e - s + 1).toNat).map (fun k : Nat => e - (k : Int))

/-- `d3.mean` over numeric values: `undefined` (`none`) on empty input. -/
def d3mean (l : List ℚ) : Option ℚ :=
  if l.isEmpty then none else some (l.sum / (l.length : ℚ))

/-- `d3.variance` (`d3.deviation` squared): the unbiased sample variance,
`undefined` (`none`) on fewer than two values. -/
def d3variance (l : List ℚ) : Option ℚ :=
  if l.length < 2 then none
  else some (((l.map (fun x => (x - l.sum / (l.length : ℚ)) ^ 2)).sum) / ((l.length : ℚ) - 1))

/-- `summaryStatistics(data, datesToExclude, start, end)`: mean and variance
over the inclusive index range `[start, end]`.  As in the source: with an
empty exclusion set the range is sliced directly; otherwise the loop filters
the excluded points, and if the loop body never runs the initial
`{mean: 0, sd: 0}` is returned unchanged. -/
def summaryStatistics (data : List DataPoint) (excl : List Nat) (start end_ : Int) :
    Option ℚ × Option ℚ :=
  if excl.isEmpty then
    (d3mean ((jsSlice data start (end_ + 1)).map (·.v)),
     d3variance ((jsSlice data start (end_ + 1)).map (·.v)))
  else
    if (intRange start (end_ + 1)).isEmpty then (some 0, some 0)
    else
      (d3mean (((((intRange start (end_ + 1)).map (getPoint data))).filter
          (fun d => !(decide (d.t ∈ excl)))).map (·.v)),
       d3variance (((((intRange start (end_ + 1)).map (getPoint data))).filter
          (fun d => !(decide (d.t ∈ excl)))).map (·.v)))

/-! ## Process creation and the signal scan -/

/-- The process freshly pushed by `createProcess(processes, index, cap)`:
its end is provisionally `index + 8` (the length of the break-triggering
8-run rule), clipped to the cap. -/
def newProc (index cap : Int) : Process :=
  { startIndex := index,
    endIndex := if cap > -1 ∧ index + (ruleLength .EIGHT_OVER_MEAN : Int) > cap then cap
      else index + (ruleLength .EIGHT_OVER_MEAN : Int),
    cap := cap }

/-- `createProcess(processes, index, cap)`: push the new process, then cap
the previous process's end to `index - 1`. -/
def createProcess (ps : List Process) (index : Int) (cap : Int := -1) : List Process :=
  if (ps ++ [newProc index cap]).length > 1 then
    modifyAt (fun q => { q with endIndex := index - 1 }) (ps ++ [newProc index cap])
      ((ps ++ [newProc index cap]).length - 2)
  else ps ++ [newProc index cap]

/-- `incrementSignal`: push the timestamp onto the rule's run; if the rule is
one of the two 8-run rules, the run just reached length 8, automatic
detection is on and the timestamp precedes `autoDetectUntil`, create a new
process at `index` and report the break. -/
def incrementSignal (tr : Tracker) (sig : RuleId) (id : Nat) (ps : List Process)
    (index : Int) (auto : Bool) (untl : Nat) : Tracker × List Process × Bool :=
  if (sig = RuleId.EIGHT_OVER_MEAN ∨ sig = RuleId.EIGHT_UNDER_MEAN) ∧
      (pushTracker tr sig id sig).length = ruleLength .EIGHT_OVER_MEAN ∧
      auto = true ∧ id < untl then
    (pushTracker tr sig id, createProcess ps index, true)
  else
    (pushTracker tr sig id, ps, false)

/-- The body of `addSignalToTracker`'s `forEach`: record timestamp `d` as
`sig` unless it is already classified by a rule of run length `≤` the new
one. -/
def trySetSig (sig : RuleId) (sigs : List (Nat × RuleId)) (d : Nat) : List (Nat × RuleId) :=
  match lookupSig sigs d with
  | some ex => if ruleLength sig < ruleLength ex then setSig sigs d sig else sigs
  | none => setSig sigs d sig

/-- `addSignalToTracker`: if the rule's current run meets its required
length, record every timestamp of the run (shorter-run rules overwrite
longer-run ones). -/
def addSignalToTracker (sigs : List (Nat × RuleId)) (tr : Tracker) (sig : RuleId) :
    List (Nat × RuleId) :=
  if (tr sig).length ≥ ruleLength sig then (tr sig).foldl (trySetSig sig) sigs else sigs

/-- `clearSignal`: flush the rule's run into the signal map (if long enough)
and reset its tracker. -/
def clearSignal (sigs : List (Nat × RuleId)) (tr : Tracker) (sig : RuleId) :
    List (Nat × RuleId) × Tracker :=
  (addSignalToTracker sigs tr sig, fun r => if r = sig then [] else tr r)

/-- The final flush of `calculateSignals`: `addSignalToTracker` for every rule
in catalog order. -/
def flushTracker (sigs : List (Nat × RuleId)) (tr : Tracker) : List (Nat × RuleId) :=
  signalOrder.foldl (fun s r => addSignalToTracker s tr r) sigs

/-- The automatic-detection flag handed to `incrementSignal`: forced off when
the scanned index is the segment's own start
(`j == process.startIndex ? false : autoDetectProcess`). -/
def breakFlag (j startIndex : Int) (auto : Bool) : Bool :=
  if j = startIndex then false else auto

/-- The inner `for (let i in SignalEnum)` loop of `calculateSignals` for one
data point `(t, v)` at index `j`: match → `incrementSignal` (with automatic
detection forced off when `j` is the segment start), mismatch →
`clearSignal`; stop as soon as a break is found. -/
def scanRules (v : ℚ) (m s2 : Option ℚ) (t : Nat) (j startIndex : Int)
    (auto : Bool) (untl : Nat) :
    List RuleId → List (Nat × RuleId) → Tracker → List Process →
    List (Nat × RuleId) × Tracker × List Process × Bool
  | [], sigs, tr, ps => (sigs, tr, ps, false)
  | r :: rest, sigs, tr, ps =>
    if ruleHolds r v m s2 then
      match incrementSignal tr r t ps j (breakFlag j startIndex auto) untl with
      | (tr1, ps1, true) => (sigs, tr1, ps1, true)
      | (tr1, ps1, false) => scanRules v m s2 t j startIndex auto untl rest sigs tr1 ps1
    else
      match clearSignal sigs tr r with
      | (sigs1, tr1) => scanRules v m s2 t j startIndex auto untl rest sigs1 tr1 ps

/-- The reverse scanning loop (`for j = endIndex down to startIndex`):
excluded points are skipped entirely; scanning stops as soon as a break is
found. -/
def scanLoop (data : List DataPoint) (excl : List Nat) (m s2 : Option ℚ)
    (startIndex : Int) (auto : Bool) (untl : Nat) :
    List Int → List (Nat × RuleId) → Tracker → List Process →
    List (Nat × RuleId) × Tracker × List Process × Bool
  | [], sigs, tr, ps => (sigs, tr, ps, false)
  | j :: js, sigs, tr, ps =>
    if (getPoint data j).t ∈ excl then
      scanLoop data excl m s2 startIndex auto untl js sigs tr ps
    else
      match scanRules (getPoint data j).v m s2 (getPoint data j).t j startIndex auto untl
          signalOrder sigs tr ps with
      | (sigs1, tr1, ps1, true) => (sigs1, tr1, ps1, true)
      | (sigs1, tr1, ps1, false) => scanLoop data excl m s2 startIndex auto untl js sigs1 tr1 ps1

/-- Read a field of `processes[k]` back from the list (the JS local `process`
aliases the array slot, so a break that capped `processes[len-2]` is visible
here exactly when that slot is `k`). -/
def procStart (ps : List Process) (k : Nat) : Int :=
  ((ps.get? k).map (·.startIndex)).getD 0

def procEnd (ps : List Process) (k : Nat) : Int :=
  ((ps.get? k).map (·.endIndex)).getD 0

/-- Absorb one more point into `processes[k]`: advance its end to `e`, reset
its signal map, and store the freshly computed statistics. -/
def growAt (stats : Option ℚ × Option ℚ) (e : Int) (ps : List Process) (k : Nat) :
    List Process :=
  modifyAt (fun q => { q with mean := stats.1, sd2 := stats.2 })
    (modifyAt (fun q => { q with endIndex := e, signals := [] }) ps k) k

/-- Store a scan's signal map into `processes[k]`. -/
def setSignalsAt (sigs : List (Nat × RuleId)) (ps : List Process) (k : Nat) :
    List Process :=
  modifyAt (fun q => { q with signals := sigs }) ps k

/-- Store recomputed statistics into `processes[k]`. -/
def setStatsAt (stats : Option ℚ × Option ℚ) (ps : List Process) (k : Nat) :
    List Process :=
  modifyAt (fun q => { q with mean := stats.1, sd2 := stats.2 }) ps k

/-- One iteration of the `while` body of `calculateSignals` on
`processes[k] = p`: absorb the next point, recompute statistics, scan in
reverse; on a break, recompute the statistics of the now-shorter finalized
segment (reading the bounds back from the list, as the aliased JS `process`
object does). -/
def signalStep (data : List DataPoint) (excl : List Nat) (auto : Bool) (untl : Nat)
    (ps : List Process) (k : Nat) (p : Process) : List Process × Tracker × Bool :=
  match scanLoop data excl
      (summaryStatistics data excl p.startIndex (p.endIndex + 1)).1
      (summaryStatistics data excl p.startIndex (p.endIndex + 1)).2
      p.startIndex auto untl (scanIndices (p.endIndex + 1) p.startIndex) [] emptyTracker
      (growAt (summaryStatistics data excl p.startIndex (p.endIndex + 1))
        (p.endIndex + 1) ps k) with
  | (sigs, tr2, ps3, found) =>
    if found then
      (setStatsAt
        (summaryStatistics data excl (procStart (setSignalsAt sigs ps3 k) k)
          (procEnd (setSignalsAt sigs ps3 k) k))
        (setSignalsAt sigs ps3 k) k, tr2, true)
    else (setSignalsAt sigs ps3 k, tr2, false)

/-- One process's growth loop (the `while` of `calculateSignals`): while no
break was found, the end has not reached the series end and the cap (if any)
is not reached, run `signalStep`.  Fuel-exhaustion returns `none`; the fuel
passed by `calculateSignals` is proved sufficient. -/
def signalLoop (data : List DataPoint) (excl : List Nat) (auto : Bool) (untl : Nat) :
    Nat → List Process → Nat → Tracker → Option (List Process × Tracker × Bool)
  | 0, _, _, _ => none
  | fuel + 1, ps, k, tr =>
    match ps.get? k with
    | none => some (ps, tr, false)
    | some p =>
      if p.endIndex < (data.length : Int) - 1 ∧ (p.cap = -1 ∨ p.endIndex < p.cap) then
        match signalStep data excl auto untl ps k p with
        | (ps1, tr1, true) => some (ps1, tr1, true)
        | (ps1, tr1, false) => signalLoop data excl auto untl fuel ps1 k tr1
      else some (ps, tr, false)

/-- The entry adjustment of `calculateSignals`: reset the signal map and clip
the end to the series (`data.length - 2`) or step it back by one. -/
def adjustProcess (len : Int) (q : Process) : Process :=
  { q with
    signals := ([] : List (Nat × RuleId)),
    endIndex := if q.endIndex ≥ len then len - 2 else q.endIndex - 1 }

/-- The final flush applied to `processes[k]` after the growth loop. -/
def flushAt (ps : List Process) (k : Nat) (tr : Tracker) : List Process :=
  modifyAt (fun q => { q with signals := flushTracker q.signals tr }) ps k

/-- `calculateSignals(data, processes, pIndex, …)`: reset the current
process's signal map, clip or step back its end, run the growth loop, flush
the remaining runs, and recurse on the next process while a break was found
or processes remain.  Fuel-exhaustion returns `none`; the fuel passed by the
entry points is proved sufficient. -/
def calculateSignals (data : List DataPoint) (excl : List Nat) (auto : Bool) (untl : Nat) :
    Nat → List Process → Nat → Option (List Process)
  | 0, _, _ => none
  | fuel + 1, ps, k =>
    match ps.get? k with
    | none => some ps
    | some _ =>
      match signalLoop data excl auto untl (data.length + 2)
          (modifyAt (adjustProcess (data.length : Int)) ps k) k emptyTracker with
      | none => none
      | some (ps1, tr, found) =>
        if found = true ∨ k < (flushAt ps1 k tr).length - 1 then
          calculateSignals data excl auto untl fuel (flushAt ps1 k tr) (k + 1)
        else some (flushAt ps1 k tr)

/-! ## Entry points -/

/-- The segmentation part of `getSignals(data, properties)`: always starts
from the single process `createProcess(processes, 0)`, whatever the caller's
`manualProcesses` or `autoDetectProcess` say, then runs `calculateSignals`. -/
def getSignals (data : List DataPoint) (excl : List Nat) (auto : Bool) (untl : Nat) :
    Option (List Process) :=
  calculateSignals data excl auto untl (data.length + 2) (createProcess [] 0) 0

/-- The manual-breakpoint branch of `displayChart`'s process construction:
one process per breakpoint interval, the last one capped to the series end. -/
def buildManual (len : Int) : List Process → Int → List Int → List Process
  | ps, _, [] => ps
  | ps, prev, [p] => createProcess (createProcess ps prev (p - 1)) p (len - 1)
  | ps, prev, p :: rest => buildManual len (createProcess ps prev (p - 1)) p rest

/-- `displayChart`'s initial process list: a single process when there are no
manual breakpoints or automatic detection is on, else one per breakpoint
interval. -/
def initialProcesses (len : Nat) (manual : List Int) (auto : Bool) : List Process :=
  if manual.length = 0 ∨ auto = true then createProcess [] 0
  else buildManual (len : Int) [] 0 manual

/-- The segmentation part of `displayChart`: build the initial process list
and run `calculateSignals` over it. -/
def displayChart (data : List DataPoint) (excl : List Nat) (manual : List Int)
    (auto : Bool) (untl : Nat) : Option (List Process) :=
  calculateSignals data excl auto untl (data.length + manual.length + 2)
    (initialProcesses data.length manual auto) 0

/-! ## Spec-side definitions and concrete inputs -/

/-- The arithmetic mean, as the spec states it. -/
def sampleMean (l : List ℚ) : ℚ := l.sum / (l.length : ℚ)

/-- The unbiased sample variance (denominator `n - 1`), as the spec states
it; the engine's `sd` is its square root. -/
def sampleVar (l : List ℚ) : ℚ :=
  ((l.map (fun x => (x - sampleMean l) ^ 2)).sum) / ((l.length : ℚ) - 1)

/-- The values of the non-excluded points whose position lies in the
inclusive range `[s, e]` — the population the spec says the statistics are
taken over. -/
def rangeValues (data : List DataPoint) (excl : List Nat) (s e : Int) : List ℚ :=
  (((data.drop s.toNat).take (e + 1 - s).toNat).filter
    (fun d => !(decide (d.t ∈ excl)))).map (·.v)

/-- `signalIsBelow(sig)` of the source: whether a rule fires below the mean,
probed by evaluating its predicate at `(value, mean, sd) = (0, 1, 0)`. -/
def signalIsBelow (sig : RuleId) : Bool := ruleHolds sig 0 (some 1) (some 0)

/-- Boundary projection of a process list, used to state concrete runs
compactly. -/
def procBounds (ps : List Process) : List (Int × Int) :=
  ps.map (fun p => (p.startIndex, p.endIndex))

/-- Boundary-and-cap projection of a process list. -/
def procShape (ps : List Process) : List (Int × Int × Int) :=
  ps.map (fun p => (p.startIndex, p.endIndex, p.cap))

/-- Concrete series for claim C3: eight points at 20, five at 10, three at 0;
over the whole range the mean is 105/8 and the variance 755/12, so points
8..15 form an 8-run under the mean while points 13..15 also lie more than
1.5 standard deviations below it. -/
def c3data : List DataPoint :=
  [⟨0, 20⟩, ⟨1, 20⟩, ⟨2, 20⟩, ⟨3, 20⟩, ⟨4, 20⟩, ⟨5, 20⟩, ⟨6, 20⟩, ⟨7, 20⟩,
   ⟨8, 10⟩, ⟨9, 10⟩, ⟨10, 10⟩, ⟨11, 10⟩, ⟨12, 10⟩, ⟨13, 0⟩, ⟨14, 0⟩, ⟨15, 0⟩]

/-- The claim C4 scenario with a uniform elevation: points 1–8 at the
constant `c`, points 9–16 at `c + d`. -/
def c4data (c d : ℚ) : List DataPoint :=
  [⟨0, c⟩, ⟨1, c⟩, ⟨2, c⟩, ⟨3, c⟩, ⟨4, c⟩, ⟨5, c⟩, ⟨6, c⟩, ⟨7, c⟩,
   ⟨8, c + d⟩, ⟨9, c + d⟩, ⟨10, c + d⟩, ⟨11, c + d⟩, ⟨12, c + d⟩,
   ⟨13, c + d⟩, ⟨14, c + d⟩, ⟨15, c + d⟩]

/-- A series fitting claim C4's description (points 9–16 strictly above the
constant 0) whose elevations are not uniform: point 9 barely above, the rest
far above. -/
def c4bad : List DataPoint :=
  [⟨0, 0⟩, ⟨1, 0⟩, ⟨2, 0⟩, ⟨3, 0⟩, ⟨4, 0⟩, ⟨5, 0⟩, ⟨6, 0⟩, ⟨7, 0⟩,
   ⟨8, 1⟩, ⟨9, 1000⟩, ⟨10, 1000⟩, ⟨11, 1000⟩, ⟨12, 1000⟩, ⟨13, 1000⟩,
   ⟨14, 1000⟩, ⟨15, 1000⟩]

/-- A three-point series used to probe out-of-bounds manual breakpoints
(claim C8). -/
def c8data : List DataPoint := [⟨0, 0⟩, ⟨1, 0⟩, ⟨2, 0⟩]

/-- Adjacent processes are contiguous: each next process starts one past the
previous one's end. -/
def Contiguous (ps : List Process) : Prop :=
  List.Chain' (fun a b => b.startIndex = a.endIndex + 1) ps

/-- The partition invariant of the spec: a non-empty, ordered, contiguous
process list starting at index 0, ending at the last series index, each
process non-empty. -/
def PartitionOk (ps : List Process) (len : Nat) : Prop :=
  ps ≠ [] ∧ (∀ p ∈ ps.head?, p.startIndex = 0) ∧ Contiguous ps ∧
  (∀ p ∈ ps.getLast?, p.endIndex = (len : Int) - 1) ∧
  (∀ p ∈ ps, p.startIndex ≤ p.endIndex)

/-- Manual breakpoints as the `displayChart` click handler maintains them:
strictly ascending and strictly inside the series. -/
def ValidManual (bs : List Int) (len : Nat) : Prop :=
  List.Chain' (· < ·) bs ∧ ∀ b ∈ bs, 1 ≤ b ∧ b ≤ (len : Int) - 1

/-- The process list `buildManual` accumulates from the breakpoints `bs`
placed after `prev`: every breakpoint `b` closes the currently open segment at
`b - 1` (which is also that segment's creation cap), and the last breakpoint
opens the final, series-capped segment. -/
def manualChain (len : Int) : Int → List Int → List Process
  | _, [] => []
  | prev, [b] => [{ newProc prev (b - 1) with endIndex := b - 1 }, newProc b (len - 1)]
  | prev, b :: rest =>
    { newProc prev (b - 1) with endIndex := b - 1 } :: manualChain len b rest

/-- No timestamp of the signal map lies in the exclusion set. -/
def CleanSigs (excl : List Nat) (sigs : List (Nat × RuleId)) : Prop :=
  ∀ e ∈ sigs, e.1 ∉ excl

/-- No run tracker holds an excluded timestamp. -/
def CleanTracker (excl : List Nat) (tr : Tracker) : Prop :=
  ∀ r : RuleId, ∀ t ∈ tr r, t ∉ excl

/-- Every process's signal map is clean of excluded timestamps. -/
def CleanProcs (excl : List Nat) (ps : List Process) : Prop :=
  ∀ p ∈ ps, CleanSigs excl p.signals

/-- Pointwise affine rescaling of a series' values (timestamps unchanged). -/
def mapData (c d : ℚ) (data : List DataPoint) : List DataPoint :=
  data.map (fun p => ⟨p.t, c + d * p.v⟩)

/-- How an affine rescaling of the values acts on a statistics pair: the
mean is rescaled affinely, the variance by the square of the factor. -/
def mapStats (c d : ℚ) (st : Option ℚ × Option ℚ) : Option ℚ × Option ℚ :=
  (st.1.map (fun m => c + d * m), st.2.map (fun s2 => d ^ 2 * s2))

/-- How an affine rescaling of the values acts on a process: boundaries and
signals unchanged, statistics rescaled. -/
def mapProc (c d : ℚ) (p : Process) : Process :=
  { p with mean := p.mean.map (fun m => c + d * m),
           sd2 := p.sd2.map (fun s2 => d ^ 2 * s2) }

/-! ## Claim C5: the rule catalog -/

/-- For `sd, k ≥ 0`, the squared comparison used by the embedding agrees with
the source's `value > mean + k·sd`. -/
lemma overSig_eq (v m s k : ℚ) (hs : 0 ≤ s) (hk : 0 ≤ k) :
    overSig v m (s ^ 2) (k ^ 2) = true ↔ m + k * s < v := by
  unfold overSig
  rw [Bool.and_eq_true, decide_eq_true_eq, decide_eq_true_eq]
  constructor
  · rintro ⟨h1, h2⟩
    nlinarith [mul_nonneg hk hs]
  · intro h
    have hks : 0 ≤ k * s := mul_nonneg hk hs
    exact ⟨by linarith, by nlinarith⟩

/-- For `sd, k ≥ 0`, the squared comparison used by the embedding agrees with
the source's `value < mean - k·sd`. -/
lemma underSig_eq (v m s k : ℚ) (hs : 0 ≤ s) (hk : 0 ≤ k) :
    underSig v m (s ^ 2) (k ^ 2) = true ↔ v < m - k * s := by
  unfold underSig
  rw [Bool.and_eq_true, decide_eq_true_eq, decide_eq_true_eq]
  constructor
  · rintro ⟨h1, h2⟩
    nlinarith [mul_nonneg hk hs]
  · intro h
    have hks : 0 ≤ k * s := mul_nonneg hk hs
    exact ⟨by linarith, by nlinarith⟩

/-- C5: each of the eight catalog rules has exactly the tabulated run length,
severity rank, direction and threshold: the "over k σ" predicates hold iff
`v > m + k*s`, the "under k σ" ones iff `v < m - k*s` (for the actual
standard deviation `s ≥ 0`, the embedding carrying `s^2`), and the two 8-run
rules compare directly against the mean. -/
theorem C5_rule_catalog :
    (ruleLength .ONE_UNDER_THREE = 1 ∧ ruleLength .TWO_UNDER_TWO = 2 ∧
     ruleLength .THREE_UNDER_ONE_FIVE = 3 ∧ ruleLength .EIGHT_UNDER_MEAN = 8 ∧
     ruleLength .EIGHT_OVER_MEAN = 8 ∧ ruleLength .THREE_OVER_ONE_FIVE = 3 ∧
     ruleLength .TWO_OVER_TWO = 2 ∧ ruleLength .ONE_OVER_THREE = 1) ∧
    (ruleSeverity .ONE_UNDER_THREE = 0 ∧ ruleSeverity .TWO_UNDER_TWO = 1 ∧
     ruleSeverity .THREE_UNDER_ONE_FIVE = 2 ∧ ruleSeverity .EIGHT_UNDER_MEAN = 3 ∧
     ruleSeverity .EIGHT_OVER_MEAN = 4 ∧ ruleSeverity .THREE_OVER_ONE_FIVE = 5 ∧
     ruleSeverity .TWO_OVER_TWO = 6 ∧ ruleSeverity .ONE_OVER_THREE = 7) ∧
    (∀ v m s2 : ℚ,
      (ruleHolds .EIGHT_OVER_MEAN v (some m) (some s2) = true ↔ m < v) ∧
      (ruleHolds .EIGHT_UNDER_MEAN v (some m) (some s2) = true ↔ v < m)) ∧
    (∀ v m s : ℚ, 0 ≤ s →
      (ruleHolds .ONE_OVER_THREE v (some m) (some (s ^ 2)) = true ↔ m + 3 * s < v) ∧
      (ruleHolds .TWO_OVER_TWO v (some m) (some (s ^ 2)) = true ↔ m + 2 * s < v) ∧
      (ruleHolds .THREE_OVER_ONE_FIVE v (some m) (some (s ^ 2)) = true ↔ m + (3/2) * s < v) ∧
      (ruleHolds .ONE_UNDER_THREE v (some m) (some (s ^ 2)) = true ↔ v < m - 3 * s) ∧
      (ruleHolds .TWO_UNDER_TWO v (some m) (some (s ^ 2)) = true ↔ v < m - 2 * s) ∧
      (ruleHolds .THREE_UNDER_ONE_FIVE v (some m) (some (s ^ 2)) = true ↔ v < m - (3/2) * s)) := by
  refine ⟨⟨rfl, rfl, rfl, rfl, rfl, rfl, rfl, rfl⟩,
    ⟨rfl, rfl, rfl, rfl, rfl, rfl, rfl, rfl⟩, ?_, ?_⟩
  · intro v m s2
    constructor <;> simp [ruleHolds]
  · intro v m s hs
    have h4 : (4 : ℚ) = 2 ^ 2 := by norm_num
    have h94 : (9/4 : ℚ) = (3/2) ^ 2 := by norm_num
    have h9 : (9 : ℚ) = 3 ^ 2 := by norm_num
    refine ⟨?_, ?_, ?_, ?_, ?_, ?_⟩
    · show overSig v m (s ^ 2) 9 = true ↔ _
      rw [h9]; exact overSig_eq v m s 3 hs (by norm_num)
    · show overSig v m (s ^ 2) 4 = true ↔ _
      rw [h4]; exact overSig_eq v m s 2 hs (by norm_num)
    · show overSig v m (s ^ 2) (9/4) = true ↔ _
      rw [h94]; exact overSig_eq v m s (3/2) hs (by norm_num)
    · show underSig v m (s ^ 2) 9 = true ↔ _
      rw [h9]; exact underSig_eq v m s 3 hs (by norm_num)
    · show underSig v m (s ^ 2) 4 = true ↔ _
      rw [h4]; exact underSig_eq v m s 2 hs (by norm_num)
    · show underSig v m (s ^ 2) (9/4) = true ↔ _
      rw [h94]; exact underSig_eq v m s (3/2) hs (by norm_num)

/-- Witness for C5 at the concrete triple `v = 10, m = 0, s = 1`. -/
theorem C5_rule_catalog_witness :
    (0 : ℚ) ≤ 1 ∧
      (ruleHolds .TWO_OVER_TWO 10 (some 0) (some ((1 : ℚ) ^ 2)) = true ↔ (0 : ℚ) + 2 * 1 < 10) :=
  ⟨by norm_num, (C5_rule_catalog.2.2.2 10 0 1 (by norm_num)).2.1⟩

/-! ## Claim C6: `summaryStatistics` -/

lemma take_drop_swap (l : List DataPoint) (E S : Nat) :
    (l.take E).drop S = (l.drop S).take (E - S) := by
  rcases Nat.le_total S E with h | h
  · rw [List.take_drop, Nat.add_sub_cancel' h]
  · rw [Nat.sub_eq_zero_of_le h, List.take_zero]
    apply List.drop_eq_nil_of_le
    exact le_trans (List.length_take_le _ _) h

lemma jsSlice_eq (data : List DataPoint) (s e : Int) (h0 : 0 ≤ s) (he : 0 ≤ e)
    (heL : e ≤ (data.length : Int)) :
    jsSlice data s e = (data.drop s.toNat).take (e - s).toNat := by
  unfold jsSlice
  rw [if_neg (by omega), if_neg (by omega), min_eq_left heL, take_drop_swap]
  rcases le_or_lt s (data.length : Int) with h | h
  · rw [min_eq_left h]
    congr 1
    omega
  · rw [min_eq_right (le_of_lt h)]
    have d1 : data.drop ((data.length : Int)).toNat = [] := List.drop_eq_nil_of_le (by omega)
    have d2 : data.drop s.toNat = [] := List.drop_eq_nil_of_le (by omega)
    rw [d1, d2, List.take_nil, List.take_nil]

lemma intRange_cons (s e : Int) (h : s < e) :
    intRange s e = s :: intRange (s + 1) e := by
  unfold intRange
  have hn : (e - s).toNat = (e - (s + 1)).toNat + 1 := by omega
  rw [hn, List.range_succ_eq_map, List.map_cons, List.map_map]
  congr 1
  · norm_num
  · apply List.map_congr_left
    intro k _
    show s + ((Nat.succ k : Nat) : Int) = s + 1 + (k : Int)
    push_cast
    ring

lemma intRange_map_getPoint_aux (data : List DataPoint) :
    ∀ (n : Nat) (s : Int), 0 ≤ s → s + (n : Int) ≤ (data.length : Int) →
      (intRange s (s + (n : Int))).map (getPoint data) = (data.drop s.toNat).take n := by
  intro n
  induction n with
  | zero =>
    intro s h0 hL
    have h2 : intRange s (s + (0 : Nat)) = [] := by
      unfold intRange
      have : ((s + ((0 : Nat) : Int)) - s).toNat = 0 := by omega
      rw [this]
      rfl
    rw [h2, List.take_zero, List.map_nil]
  | succ n ih =>
    intro s h0 hL
    have hlt : s < s + ((n + 1 : Nat) : Int) := by omega
    rw [intRange_cons s _ hlt, List.map_cons]
    have hb : s.toNat < data.length := by omega
    have hdrop : data.drop s.toNat = data.get ⟨s.toNat, hb⟩ :: data.drop (s.toNat + 1) := by
      rw [List.drop_eq_getElem_cons hb]
      rfl
    have hgp : getPoint data s = data.get ⟨s.toNat, hb⟩ := by
      unfold getPoint
      rw [List.get?_eq_get hb]
      rfl
    rw [hdrop, List.take_succ_cons, hgp]
    have hse : s + ((n + 1 : Nat) : Int) = (s + 1) + (n : Int) := by omega
    have hsn : (s + 1).toNat = s.toNat + 1 := by omega
    have := ih (s + 1) (by omega) (by omega)
    rw [hsn] at this
    rw [hse, this]

lemma intRange_map_getPoint (data : List DataPoint) (s e : Int) (h0 : 0 ≤ s)
    (heL : e ≤ (data.length : Int)) :
    (intRange s e).map (getPoint data) = (data.drop s.toNat).take (e - s).toNat := by
  rcases le_or_lt e s with h | h
  · have h1 : (e - s).toNat = 0 := by omega
    have h2 : intRange s e = [] := by
      unfold intRange
      rw [h1]
      rfl
    rw [h1, h2, List.take_zero, List.map_nil]
  · have haux := intRange_map_getPoint_aux data (e - s).toNat s h0 (by omega)
    rw [show s + (((e - s).toNat : Nat) : Int) = e by omega] at haux
    exact haux

lemma filter_excl_nil (l : List DataPoint) :
    l.filter (fun d => !(decide (d.t ∈ ([] : List Nat)))) = l := by
  apply List.filter_eq_self.mpr
  intro a _
  simp

lemma d3mean_eq (l : List ℚ) (h : l ≠ []) : d3mean l = some (sampleMean l) := by
  unfold d3mean sampleMean
  rw [if_neg (by simpa using h)]

lemma d3variance_eq (l : List ℚ) (h : 2 ≤ l.length) : d3variance l = some (sampleVar l) := by
  unfold d3variance sampleVar sampleMean
  rw [if_neg (by omega)]

/-- On an in-bounds non-empty inclusive range, both branches of
`summaryStatistics` compute the `d3` statistics of exactly the non-excluded
values of the range. -/
lemma summaryStatistics_rangeValues (data : List DataPoint) (excl : List Nat)
    (start end_ : Int) (h0 : 0 ≤ start) (hL : end_ < (data.length : Int))
    (hse : start ≤ end_) :
    summaryStatistics data excl start end_ =
      (d3mean (rangeValues data excl start end_),
       d3variance (rangeValues data excl start end_)) := by
  have hbase : jsSlice data start (end_ + 1) =
      (data.drop start.toNat).take (end_ + 1 - start).toNat :=
    jsSlice_eq data start (end_ + 1) h0 (by omega) (by omega)
  have hmap : (intRange start (end_ + 1)).map (getPoint data) =
      (data.drop start.toNat).take (end_ + 1 - start).toNat :=
    intRange_map_getPoint data start (end_ + 1) h0 (by omega)
  unfold summaryStatistics
  by_cases hexcl : excl.isEmpty
  · have hnil : excl = [] := by
      cases excl with
      | nil => rfl
      | cons a l => simp [List.isEmpty] at hexcl
    rw [if_pos hexcl, hnil]
    unfold rangeValues
    rw [hbase, filter_excl_nil]
  · have hrne : ¬(intRange start (end_ + 1)).isEmpty := by
      have hlen : (intRange start (end_ + 1)).length = (end_ + 1 - start).toNat := by
        unfold intRange
        simp
      intro hie
      rw [List.isEmpty_iff] at hie
      rw [hie] at hlen
      simp at hlen
      omega
    rw [if_neg hexcl, if_neg hrne]
    unfold rangeValues
    rw [hmap]

/-- C6: over any inclusive in-bounds index range, `summaryStatistics` returns
the arithmetic mean and the unbiased (denominator `n-1`) sample variance of
exactly the non-excluded points of the range when at least two remain, and an
unusable (`none`, modelling `undefined`) pair when every point of a non-empty
range is excluded.  (The embedding is a pure function, so the absence of side
effects on the series is structural.) -/
theorem C6_summary_statistics (data : List DataPoint) (excl : List Nat) (start end_ : Int)
    (h0 : 0 ≤ start) (hL : end_ < (data.length : Int)) :
    (2 ≤ (rangeValues data excl start end_).length →
      summaryStatistics data excl start end_ =
        (some (sampleMean (rangeValues data excl start end_)),
         some (sampleVar (rangeValues data excl start end_)))) ∧
    (start ≤ end_ → rangeValues data excl start end_ = [] →
      summaryStatistics data excl start end_ = (none, none)) := by
  constructor
  · intro h2
    have hse : start ≤ end_ := by
      by_contra hc
      have hz : (end_ + 1 - start).toNat = 0 := by omega
      have : rangeValues data excl start end_ = [] := by
        unfold rangeValues
        rw [hz, List.take_zero]
        rfl
      rw [this] at h2
      simp at h2
    rw [summaryStatistics_rangeValues data excl start end_ h0 hL hse,
      d3mean_eq _ (by intro hn; rw [hn] at h2; simp at h2), d3variance_eq _ h2]
  · intro hse hnil
    rw [summaryStatistics_rangeValues data excl start end_ h0 hL hse, hnil]
    rfl

/-- Witness for C6 on the series `[(0,1), (1,2), (2,3)]` with no exclusions
over the full range, and on the same series with every point excluded. -/
theorem C6_summary_statistics_witness :
    summaryStatistics [⟨0, 1⟩, ⟨1, 2⟩, ⟨2, 3⟩] [] 0 2 =
      (some (sampleMean (rangeValues [⟨0, 1⟩, ⟨1, 2⟩, ⟨2, 3⟩] [] 0 2)),
       some (sampleVar (rangeValues [⟨0, 1⟩, ⟨1, 2⟩, ⟨2, 3⟩] [] 0 2))) ∧
    summaryStatistics [⟨0, 1⟩, ⟨1, 2⟩, ⟨2, 3⟩] [0, 1, 2] 0 2 = (none, none) :=
  ⟨(C6_summary_statistics [⟨0, 1⟩, ⟨1, 2⟩, ⟨2, 3⟩] [] 0 2 (by norm_num) (by norm_num)).1
      (by decide),
   (C6_summary_statistics [⟨0, 1⟩, ⟨1, 2⟩, ⟨2, 3⟩] [0, 1, 2] 0 2 (by norm_num)
      (by norm_num)).2 (by norm_num) (by decide)⟩

/-! ## Claim C3: classification tie-breaking -/

lemma lookupSig_setSig_self (sigs : List (Nat × RuleId)) (d : Nat) (r : RuleId) :
    lookupSig (setSig sigs d r) d = some r := by
  induction sigs with
  | nil => simp [setSig, lookupSig]
  | cons a rest ih =>
    obtain ⟨t, r'⟩ := a
    by_cases h : t = d
    · simp [setSig, h, lookupSig]
    · simp [setSig, h, lookupSig, ih]

lemma lookupSig_setSig_ne (sigs : List (Nat × RuleId)) (d d' : Nat) (r : RuleId)
    (h : d' ≠ d) : lookupSig (setSig sigs d r) d' = lookupSig sigs d' := by
  induction sigs with
  | nil => simp [setSig, lookupSig, Ne.symm h]
  | cons a rest ih =>
    obtain ⟨t, r'⟩ := a
    by_cases ht : t = d
    · subst ht
      simp [setSig, lookupSig, Ne.symm h]
    · by_cases ht' : t = d'
      · simp [setSig, ht, lookupSig, ht', h]
      · simp [setSig, ht, lookupSig, ht', ih]

lemma lookupSig_trySetSig_ne (r : RuleId) (sigs : List (Nat × RuleId)) (d t : Nat)
    (h : t ≠ d) : lookupSig (trySetSig r sigs d) t = lookupSig sigs t := by
  unfold trySetSig
  cases hx : lookupSig sigs d with
  | none => exact lookupSig_setSig_ne sigs d t r h
  | some ex =>
    by_cases hl : ruleLength r < ruleLength ex
    · simpa [hl] using lookupSig_setSig_ne sigs d t r h
    · simp [hl]

/-- What one `forEach` pass of `addSignalToTracker` over a run does to the
classification of a timestamp: if the timestamp is in the run, the new rule
is recorded exactly when the slot is empty or holds a rule of strictly larger
run length; otherwise the slot is untouched. -/
lemma foldl_trySetSig_lookup (r : RuleId) (l : List Nat) (sigs : List (Nat × RuleId))
    (t : Nat) :
    lookupSig (l.foldl (trySetSig r) sigs) t =
      if t ∈ l then
        (match lookupSig sigs t with
         | none => some r
         | some ex => if ruleLength r < ruleLength ex then some r else some ex)
      else lookupSig sigs t := by
  induction l generalizing sigs with
  | nil => simp
  | cons d l ih =>
    rw [List.foldl_cons, ih]
    by_cases hd : t = d
    · subst hd
      have hmem : t ∈ t :: l := List.mem_cons_self t l
      rw [if_pos hmem]
      cases hsig : lookupSig sigs t with
      | none =>
        have hset : lookupSig (trySetSig r sigs t) t = some r := by
          unfold trySetSig
          simp only [hsig]
          exact lookupSig_setSig_self sigs t r
        by_cases hmem' : t ∈ l
        · rw [if_pos hmem', hset]
          simp [lt_irrefl]
        · rw [if_neg hmem', hset]
      | some ex =>
        by_cases hl : ruleLength r < ruleLength ex
        · have hset : lookupSig (trySetSig r sigs t) t = some r := by
            unfold trySetSig
            simp only [hsig, if_pos hl]
            exact lookupSig_setSig_self sigs t r
          by_cases hmem' : t ∈ l
          · rw [if_pos hmem', hset]
            simp [lt_irrefl, hl]
          · rw [if_neg hmem', hset]
            simp [hl]
        · have hset : lookupSig (trySetSig r sigs t) t = some ex := by
            unfold trySetSig
            simp only [hsig, if_neg hl]
          by_cases hmem' : t ∈ l
          · rw [if_pos hmem', hset]
          · rw [if_neg hmem', hset]
            simp [hl]
    · have hne : lookupSig (trySetSig r sigs d) t = lookupSig sigs t :=
        lookupSig_trySetSig_ne r sigs d t hd
      rw [hne]
      by_cases hmem' : t ∈ l
      · rw [if_pos hmem', if_pos (List.mem_cons_of_mem d hmem')]
      · rw [if_neg hmem', if_neg (by simp [hd, hmem'])]

set_option maxRecDepth 10000 in
/-- C3 is false on the code: on `c3data` (no exclusions, no automatic
detection) the final classification of timestamp 15 is
`THREE_UNDER_ONE_FIVE` (severity 2), although the completed
`EIGHT_UNDER_MEAN` run of points 8..15 (severity 3) also contains it — every
one of those points satisfies the 8-under predicate at the recorded final
statistics `mean = 105/8`, `variance = 755/12`.  The highest-severity met
rule is therefore not the recorded one. -/
theorem C3_counterexample :
    ((getSignals c3data [] false 99).map (fun ps =>
        ps.map (fun p => (lookupSig p.signals 15, lookupSig p.signals 12, p.mean, p.sd2))) =
      some [(some RuleId.THREE_UNDER_ONE_FIVE, some RuleId.EIGHT_UNDER_MEAN,
        some ((105 : ℚ)/8), some ((755 : ℚ)/12))]) ∧
    (((List.range 16).drop 8).all (fun j =>
      ruleHolds .EIGHT_UNDER_MEAN (getPoint c3data (j : Int)).v
        (some ((105 : ℚ)/8)) (some ((755 : ℚ)/12))) = true) ∧
    ruleSeverity .THREE_UNDER_ONE_FIVE < ruleSeverity .EIGHT_UNDER_MEAN := by
  refine ⟨?_, ?_, ?_⟩ <;> with_unfolding_all decide

/-- C3 amended: when a rule's completed run is recorded
(`addSignalToTracker`), a timestamp of the run is (re)classified exactly when
its slot is empty or holds a rule of strictly greater run length — the
shortest completed run wins, not the highest severity rank.  Within the
"over" rules shorter length coincides with higher severity (so the claim's
particular 8-run-versus-higher-severity-short-run case does hold there),
but within the "under" rules shorter length is lower severity, which is how
the counterexample arises. -/
theorem C3_amended_classification :
    (∀ (sigs : List (Nat × RuleId)) (tr : Tracker) (r : RuleId) (t : Nat),
      (ruleLength r ≤ (tr r).length → t ∈ tr r →
        lookupSig (addSignalToTracker sigs tr r) t =
          (match lookupSig sigs t with
           | none => some r
           | some ex => if ruleLength r < ruleLength ex then some r else some ex)) ∧
      ((tr r).length < ruleLength r ∨ t ∉ tr r →
        lookupSig (addSignalToTracker sigs tr r) t = lookupSig sigs t)) ∧
    (∀ r r' : RuleId, signalIsBelow r = false → signalIsBelow r' = false →
      (ruleLength r < ruleLength r' ↔ ruleSeverity r' < ruleSeverity r)) ∧
    (∀ r r' : RuleId, signalIsBelow r = true → signalIsBelow r' = true →
      (ruleLength r < ruleLength r' ↔ ruleSeverity r < ruleSeverity r')) := by
  refine ⟨?_, ?_, ?_⟩
  · intro sigs tr r t
    constructor
    · intro hlen hmem
      unfold addSignalToTracker
      rw [if_pos hlen, foldl_trySetSig_lookup, if_pos hmem]
    · intro h
      unfold addSignalToTracker
      rcases h with h | h
      · rw [if_neg (by omega)]
      · by_cases hlen : ruleLength r ≤ (tr r).length
        · rw [if_pos hlen, foldl_trySetSig_lookup, if_neg h]
        · rw [if_neg hlen]
  · intro r r'
    revert r r'
    with_unfolding_all decide
  · intro r r'
    revert r r'
    with_unfolding_all decide

/-- Witness for the amended C3 on a concrete completed two-element run. -/
theorem C3_amended_classification_witness :
    lookupSig (addSignalToTracker [] (fun _ => [5, 6]) .TWO_UNDER_TWO) 5 =
      (match lookupSig [] 5 with
       | none => some RuleId.TWO_UNDER_TWO
       | some ex => if ruleLength .TWO_UNDER_TWO < ruleLength ex then
           some RuleId.TWO_UNDER_TWO else some ex) :=
  (C3_amended_classification.1 [] (fun _ => [5, 6]) .TWO_UNDER_TWO 5).1
    (by decide) (by decide)

/-! ## Claim C4: the 16-point auto-break scenario -/

set_option maxRecDepth 10000 in
/-- C4 is false as stated: `c4bad` fits the claim's description (16 points,
points 1–8 equal to the constant 0, points 9–16 strictly above it, automatic
detection on until the last timestamp, no exclusions), yet the engine breaks
at index 1, producing processes `[0,0]` and `[1,15]` — not a first process
ending at index 7 with the second starting at index 8. -/
theorem C4_counterexample :
    (getSignals c4bad [] true 15).map procBounds = some [(0, 0), (1, 15)] := by
  with_unfolding_all decide

/-! ## Claim C8: degenerate manual breakpoints -/

set_option maxRecDepth 10000 in
/-- C8 is false as stated: with the out-of-bounds manual breakpoint 100 on a
3-point series (automatic detection off), the segmenter neither clamps nor
ignores it — it completes with two processes, the second being the
degenerate `(100, 2, 2)` whose startIndex lies outside the series, not a
single process covering the series. -/
theorem C8_counterexample :
    (displayChart c8data [] [100] false 99).map procShape =
      some [(0, 2, 99), (100, 2, 2)] := by
  with_unfolding_all decide

/-! ## Structural lemmas about the process list -/

@[simp] lemma modifyAt_length (f : Process → Process) (ps : List Process) (k : Nat) :
    (modifyAt f ps k).length = ps.length := by
  induction ps generalizing k with
  | nil => rfl
  | cons p rest ih =>
    cases k with
    | zero => rfl
    | succ k => simp [modifyAt, ih]

lemma get?_modifyAt_self (f : Process → Process) (ps : List Process) (k : Nat) :
    (modifyAt f ps k).get? k = (ps.get? k).map f := by
  induction ps generalizing k with
  | nil => rfl
  | cons p rest ih =>
    cases k with
    | zero => rfl
    | succ k => simpa [modifyAt] using ih k

lemma get?_modifyAt_ne (f : Process → Process) (ps : List Process) (k i : Nat)
    (h : i ≠ k) : (modifyAt f ps k).get? i = ps.get? i := by
  induction ps generalizing k i with
  | nil => rfl
  | cons p rest ih =>
    cases k with
    | zero =>
      cases i with
      | zero => exact absurd rfl h
      | succ i => rfl
    | succ k =>
      cases i with
      | zero => rfl
      | succ i => simpa [modifyAt] using ih k i (by omega)

lemma modifyAt_append_left (f : Process → Process) (ps qs : List Process) (k : Nat)
    (h : k < ps.length) : modifyAt f (ps ++ qs) k = modifyAt f ps k ++ qs := by
  induction ps generalizing k with
  | nil => simp at h
  | cons p rest ih =>
    cases k with
    | zero => rfl
    | succ k => simp [modifyAt, ih k (by simpa using h)]

lemma take_modifyAt (f : Process → Process) (ps : List Process) (k i : Nat)
    (h : i ≤ k) : (modifyAt f ps k).take i = ps.take i := by
  induction ps generalizing k i with
  | nil => rfl
  | cons p rest ih =>
    cases k with
    | zero =>
      have : i = 0 := by omega
      simp [this]
    | succ k =>
      cases i with
      | zero => simp
      | succ i => simp [modifyAt, ih k i (by omega)]

lemma createProcess_nil (i c : Int) : createProcess [] i c = [newProc i c] := by
  unfold createProcess
  simp [modifyAt]

lemma createProcess_cons (ps : List Process) (i c : Int) (h : ps ≠ []) :
    createProcess ps i c =
      modifyAt (fun q => { q with endIndex := i - 1 }) ps (ps.length - 1) ++ [newProc i c] := by
  have hpos : 0 < ps.length := List.length_pos.mpr h
  unfold createProcess
  rw [if_pos (by simp; omega)]
  have h2 : (ps ++ [newProc i c]).length - 2 = ps.length - 1 := by simp
  rw [h2, modifyAt_append_left _ _ _ _ (by omega)]

@[simp] lemma createProcess_length (ps : List Process) (i c : Int) :
    (createProcess ps i c).length = ps.length + 1 := by
  cases hps : ps with
  | nil => rw [createProcess_nil]; rfl
  | cons p rest =>
    rw [← hps, createProcess_cons ps i c (by rw [hps]; exact List.cons_ne_nil p rest)]
    simp

/-! ## Characterizing the scan -/

lemma incrementSignal_found_iff (tr : Tracker) (sig : RuleId) (id : Nat)
    (ps : List Process) (idx : Int) (auto : Bool) (untl : Nat) :
    (incrementSignal tr sig id ps idx auto untl).2.2 = true ↔
      ((sig = RuleId.EIGHT_OVER_MEAN ∨ sig = RuleId.EIGHT_UNDER_MEAN) ∧
        (pushTracker tr sig id sig).length = ruleLength .EIGHT_OVER_MEAN ∧
        auto = true ∧ id < untl) := by
  unfold incrementSignal
  split <;> simp_all

lemma incrementSignal_ps_false (tr : Tracker) (sig : RuleId) (id : Nat)
    (ps : List Process) (idx : Int) (auto : Bool) (untl : Nat)
    (h : (incrementSignal tr sig id ps idx auto untl).2.2 = false) :
    (incrementSignal tr sig id ps idx auto untl).2.1 = ps := by
  unfold incrementSignal at h ⊢
  by_cases hc : (sig = RuleId.EIGHT_OVER_MEAN ∨ sig = RuleId.EIGHT_UNDER_MEAN) ∧
      (pushTracker tr sig id sig).length = ruleLength RuleId.EIGHT_OVER_MEAN ∧
      auto = true ∧ id < untl
  · rw [if_pos hc] at h; simp at h
  · rw [if_neg hc]

lemma incrementSignal_ps_true (tr : Tracker) (sig : RuleId) (id : Nat)
    (ps : List Process) (idx : Int) (auto : Bool) (untl : Nat)
    (h : (incrementSignal tr sig id ps idx auto untl).2.2 = true) :
    (incrementSignal tr sig id ps idx auto untl).2.1 = createProcess ps idx := by
  unfold incrementSignal at h ⊢
  by_cases hc : (sig = RuleId.EIGHT_OVER_MEAN ∨ sig = RuleId.EIGHT_UNDER_MEAN) ∧
      (pushTracker tr sig id sig).length = ruleLength RuleId.EIGHT_OVER_MEAN ∧
      auto = true ∧ id < untl
  · rw [if_pos hc]
  · rw [if_neg hc] at h; simp at h

lemma scanRules_ps_false (v : ℚ) (m s2 : Option ℚ) (t : Nat) (j s : Int)
    (a : Bool) (u : Nat) :
    ∀ (rs : List RuleId) (sigs : List (Nat × RuleId)) (tr : Tracker) (ps : List Process),
      (scanRules v m s2 t j s a u rs sigs tr ps).2.2.2 = false →
      (scanRules v m s2 t j s a u rs sigs tr ps).2.2.1 = ps := by
  intro rs
  induction rs with
  | nil => intro sigs tr ps _; rfl
  | cons r rest ih =>
    intro sigs tr ps h
    unfold scanRules at h ⊢
    by_cases hr : ruleHolds r v m s2
    · rw [if_pos hr] at h ⊢
      rcases hinc : incrementSignal tr r t ps j (breakFlag j s a) u
        with ⟨tr1, ps1, found⟩
      rw [hinc] at h
      cases found with
      | true => simp at h
      | false =>
        have hps1 : ps1 = ps := by
          have h22 : (incrementSignal tr r t ps j (breakFlag j s a) u).2.2 = false := by
            rw [hinc]
          have := incrementSignal_ps_false tr r t ps j (breakFlag j s a) u h22
          rw [hinc] at this
          exact this
        subst hps1
        exact ih sigs tr1 ps1 h
    · rw [if_neg hr] at h ⊢
      exact ih _ _ _ h

lemma scanRules_break (v : ℚ) (m s2 : Option ℚ) (t : Nat) (j s : Int)
    (a : Bool) (u : Nat) :
    ∀ (rs : List RuleId) (sigs : List (Nat × RuleId)) (tr : Tracker) (ps : List Process),
      (scanRules v m s2 t j s a u rs sigs tr ps).2.2.2 = true →
      (scanRules v m s2 t j s a u rs sigs tr ps).2.2.1 = createProcess ps j ∧
        j ≠ s ∧ a = true ∧ t < u := by
  intro rs
  induction rs with
  | nil => intro sigs tr ps h; simp [scanRules] at h
  | cons r rest ih =>
    intro sigs tr ps h
    unfold scanRules at h ⊢
    by_cases hr : ruleHolds r v m s2
    · rw [if_pos hr] at h ⊢
      rcases hinc : incrementSignal tr r t ps j (breakFlag j s a) u
        with ⟨tr1, ps1, found⟩
      rw [hinc] at h
      cases found with
      | true =>
        have h22 : (incrementSignal tr r t ps j (breakFlag j s a) u).2.2 = true := by
          rw [hinc]
        have hiff := (incrementSignal_found_iff tr r t ps j (breakFlag j s a) u).mp h22
        have hps1 : ps1 = createProcess ps j := by
          have := incrementSignal_ps_true tr r t ps j (breakFlag j s a) u h22
          rw [hinc] at this
          exact this
        obtain ⟨-, -, hflag, hu⟩ := hiff
        unfold breakFlag at hflag
        by_cases hjs : j = s
        · rw [if_pos hjs] at hflag; exact absurd hflag (by simp)
        · rw [if_neg hjs] at hflag
          exact ⟨hps1, hjs, hflag, hu⟩
      | false =>
        have hps1 : ps1 = ps := by
          have h22 : (incrementSignal tr r t ps j (breakFlag j s a) u).2.2 = false := by
            rw [hinc]
          have := incrementSignal_ps_false tr r t ps j (breakFlag j s a) u h22
          rw [hinc] at this
          exact this
        subst hps1
        exact ih sigs tr1 ps1 h
    · rw [if_neg hr] at h ⊢
      exact ih _ _ _ h

lemma scanLoop_ps_false (data : List DataPoint) (excl : List Nat) (m s2 : Option ℚ)
    (s : Int) (a : Bool) (u : Nat) :
    ∀ (js : List Int) (sigs : List (Nat × RuleId)) (tr : Tracker) (ps : List Process),
      (scanLoop data excl m s2 s a u js sigs tr ps).2.2.2 = false →
      (scanLoop data excl m s2 s a u js sigs tr ps).2.2.1 = ps := by
  intro js
  induction js with
  | nil => intro sigs tr ps _; rfl
  | cons j js ih =>
    intro sigs tr ps h
    unfold scanLoop at h ⊢
    by_cases hx : (getPoint data j).t ∈ excl
    · rw [if_pos hx] at h ⊢
      exact ih _ _ _ h
    · rw [if_neg hx] at h ⊢
      rcases hsr : scanRules (getPoint data j).v m s2 (getPoint data j).t j s a u
          signalOrder sigs tr ps with ⟨sigs1, tr1, ps1, found⟩
      rw [hsr] at h
      cases found with
      | true => simp at h
      | false =>
        have hps1 : ps1 = ps := by
          have h22 : (scanRules (getPoint data j).v m s2 (getPoint data j).t j s a u
              signalOrder sigs tr ps).2.2.2 = false := by rw [hsr]
          have := scanRules_ps_false (getPoint data j).v m s2 (getPoint data j).t j s a u
            signalOrder sigs tr ps h22
          rw [hsr] at this
          exact this
        subst hps1
        exact ih _ _ _ h

lemma scanIndices_mem (e s j : Int) (h : j ∈ scanIndices e s) : s ≤ j ∧ j ≤ e := by
  unfold scanIndices at h
  simp only [List.mem_map, List.mem_range] at h
  obtain ⟨k, hk, rfl⟩ := h
  omega

lemma scanLoop_break (data : List DataPoint) (excl : List Nat) (m s2 : Option ℚ)
    (s : Int) (a : Bool) (u : Nat) :
    ∀ (js : List Int) (sigs : List (Nat × RuleId)) (tr : Tracker) (ps : List Process),
      (scanLoop data excl m s2 s a u js sigs tr ps).2.2.2 = true →
      ∃ j ∈ js, (scanLoop data excl m s2 s a u js sigs tr ps).2.2.1 = createProcess ps j ∧
        j ≠ s ∧ a = true ∧ (getPoint data j).t ∉ excl ∧ (getPoint data j).t < u := by
  intro js
  induction js with
  | nil => intro sigs tr ps h; simp [scanLoop] at h
  | cons j js ih =>
    intro sigs tr ps h
    unfold scanLoop at h ⊢
    by_cases hx : (getPoint data j).t ∈ excl
    · rw [if_pos hx] at h ⊢
      obtain ⟨j', hj', hrest⟩ := ih _ _ _ h
      exact ⟨j', List.mem_cons_of_mem j hj', hrest⟩
    · rw [if_neg hx] at h ⊢
      rcases hsr : scanRules (getPoint data j).v m s2 (getPoint data j).t j s a u
          signalOrder sigs tr ps with ⟨sigs1, tr1, ps1, found⟩
      rw [hsr] at h
      cases found with
      | true =>
        have hbr := scanRules_break (getPoint data j).v m s2 (getPoint data j).t j s a u
          signalOrder sigs tr ps (by rw [hsr])
        rw [hsr] at hbr
        obtain ⟨hps1, hjs, ha, hu⟩ := hbr
        exact ⟨j, List.mem_cons_self j js, hps1, hjs, ha, hx, hu⟩
      | false =>
        have hps1 : ps1 = ps := by
          have := scanRules_ps_false (getPoint data j).v m s2 (getPoint data j).t j s a u
            signalOrder sigs tr ps (by rw [hsr])
          rw [hsr] at this
          exact this
        subst hps1
        obtain ⟨j', hj', hrest⟩ := ih _ _ _ h
        exact ⟨j', List.mem_cons_of_mem j hj', hrest⟩

/-! ## Characterizing one growth step -/

@[simp] lemma growAt_length (stats : Option ℚ × Option ℚ) (e : Int) (ps : List Process)
    (k : Nat) : (growAt stats e ps k).length = ps.length := by
  simp [growAt]

@[simp] lemma setSignalsAt_length (sigs : List (Nat × RuleId)) (ps : List Process)
    (k : Nat) : (setSignalsAt sigs ps k).length = ps.length := by
  simp [setSignalsAt]

@[simp] lemma setStatsAt_length (stats : Option ℚ × Option ℚ) (ps : List Process)
    (k : Nat) : (setStatsAt stats ps k).length = ps.length := by
  simp [setStatsAt]

@[simp] lemma flushAt_length (ps : List Process) (k : Nat) (tr : Tracker) :
    (flushAt ps k tr).length = ps.length := by
  simp [flushAt]

lemma modifyAt_modifyAt (f g : Process → Process) (ps : List Process) (k : Nat) :
    modifyAt f (modifyAt g ps k) k = modifyAt (fun q => f (g q)) ps k := by
  induction ps generalizing k with
  | nil => rfl
  | cons p rest ih =>
    cases k with
    | zero => rfl
    | succ k => simp [modifyAt, ih]

lemma signalStep_false_shape (data : List DataPoint) (excl : List Nat) (a : Bool)
    (u : Nat) (ps : List Process) (k : Nat) (p : Process)
    (h : (signalStep data excl a u ps k p).2.2 = false) :
    ∃ M S G, (signalStep data excl a u ps k p).1 =
      modifyAt (fun q => ⟨q.startIndex, p.endIndex + 1, q.cap, M, S, G⟩) ps k := by
  unfold signalStep at h ⊢
  rcases hscan : scanLoop data excl
      (summaryStatistics data excl p.startIndex (p.endIndex + 1)).1
      (summaryStatistics data excl p.startIndex (p.endIndex + 1)).2
      p.startIndex a u (scanIndices (p.endIndex + 1) p.startIndex) [] emptyTracker
      (growAt (summaryStatistics data excl p.startIndex (p.endIndex + 1))
        (p.endIndex + 1) ps k) with ⟨sigs, tr2, ps3, found⟩
  rw [hscan] at h
  cases found with
  | true => simp at h
  | false =>
    have hps3 : ps3 = growAt (summaryStatistics data excl p.startIndex (p.endIndex + 1))
        (p.endIndex + 1) ps k := by
      have h22 : (scanLoop data excl
          (summaryStatistics data excl p.startIndex (p.endIndex + 1)).1
          (summaryStatistics data excl p.startIndex (p.endIndex + 1)).2
          p.startIndex a u (scanIndices (p.endIndex + 1) p.startIndex) [] emptyTracker
          (growAt (summaryStatistics data excl p.startIndex (p.endIndex + 1))
            (p.endIndex + 1) ps k)).2.2.2 = false := by rw [hscan]
      have := scanLoop_ps_false data excl _ _ p.startIndex a u _ [] emptyTracker _ h22
      rw [hscan] at this
      exact this
    subst hps3
    refine ⟨(summaryStatistics data excl p.startIndex (p.endIndex + 1)).1,
      (summaryStatistics data excl p.startIndex (p.endIndex + 1)).2, sigs, ?_⟩
    show setSignalsAt sigs _ k = _
    simp only [setSignalsAt, growAt, modifyAt_modifyAt]

lemma signalStep_true_shape (data : List DataPoint) (excl : List Nat) (a : Bool)
    (u : Nat) (ps : List Process) (k : Nat) (p : Process)
    (hk : k = ps.length - 1) (hne : ps ≠ [])
    (h : (signalStep data excl a u ps k p).2.2 = true) :
    ∃ j M S G, p.startIndex + 1 ≤ j ∧ j ≤ p.endIndex + 1 ∧ a = true ∧
      (getPoint data j).t ∉ excl ∧ (getPoint data j).t < u ∧
      (signalStep data excl a u ps k p).1 =
        modifyAt (fun q => ⟨q.startIndex, j - 1, q.cap, M, S, G⟩) ps k ++
          [newProc j (-1)] := by
  have hpos : 0 < ps.length := List.length_pos.mpr hne
  unfold signalStep at h ⊢
  rcases hscan : scanLoop data excl
      (summaryStatistics data excl p.startIndex (p.endIndex + 1)).1
      (summaryStatistics data excl p.startIndex (p.endIndex + 1)).2
      p.startIndex a u (scanIndices (p.endIndex + 1) p.startIndex) [] emptyTracker
      (growAt (summaryStatistics data excl p.startIndex (p.endIndex + 1))
        (p.endIndex + 1) ps k) with ⟨sigs, tr2, ps3, found⟩
  rw [hscan] at h
  cases found with
  | false => simp at h
  | true =>
    have h22 : (scanLoop data excl
        (summaryStatistics data excl p.startIndex (p.endIndex + 1)).1
        (summaryStatistics data excl p.startIndex (p.endIndex + 1)).2
        p.startIndex a u (scanIndices (p.endIndex + 1) p.startIndex) [] emptyTracker
        (growAt (summaryStatistics data excl p.startIndex (p.endIndex + 1))
          (p.endIndex + 1) ps k)).2.2.2 = true := by rw [hscan]
    obtain ⟨j, hjmem, hps3, hjs, ha, hexcl, hu⟩ := scanLoop_break data excl _ _
      p.startIndex a u _ [] emptyTracker _ h22
    rw [hscan] at hps3
    obtain ⟨hj1, hj2⟩ := scanIndices_mem _ _ _ hjmem
    have hglen : (growAt (summaryStatistics data excl p.startIndex (p.endIndex + 1))
        (p.endIndex + 1) ps k).length = ps.length := by simp
    have hgne : growAt (summaryStatistics data excl p.startIndex (p.endIndex + 1))
        (p.endIndex + 1) ps k ≠ [] := by
      intro hnil
      rw [hnil] at hglen
      simp at hglen
      omega
    rw [createProcess_cons _ j (-1) hgne, hglen] at hps3
    subst hps3
    have hkk : ps.length - 1 = k := hk.symm
    rw [hkk]
    dsimp only
    simp only [setStatsAt, setSignalsAt]
    rw [modifyAt_append_left _ _ _ _ (by simp; omega),
      modifyAt_append_left _ _ _ _ (by simp; omega)]
    simp only [growAt, modifyAt_modifyAt]
    exact ⟨j, _, _, sigs, by omega, hj2, ha, hexcl, hu, rfl⟩

/-! ## Characterizing the growth loop -/

/-- The end index at which the growth loop stops when no break occurs. -/
lemma signalLoop_false_shape (data : List DataPoint) (excl : List Nat) (a : Bool) (u : Nat) :
    ∀ (fuel : Nat) (ps : List Process) (k : Nat) (tr : Tracker) (p : Process)
      (ps' : List Process) (tr' : Tracker),
      ps.get? k = some p →
      p.endIndex ≤ (data.length : Int) - 2 →
      (p.cap = -1 ∨ (0 ≤ p.cap ∧ p.endIndex < p.cap)) →
      signalLoop data excl a u fuel ps k tr = some (ps', tr', false) →
      ∃ M S G, ps' = modifyAt (fun q => ⟨q.startIndex,
        (if p.cap = -1 then (data.length : Int) - 1 else min ((data.length : Int) - 1) p.cap),
        q.cap, M, S, G⟩) ps k := by
  intro fuel
  induction fuel with
  | zero =>
    intro ps k tr p ps' tr' _ _ _ h
    simp [signalLoop] at h
  | succ fuel ih =>
    intro ps k tr p ps' tr' hget hLe hcap h
    have hguard : p.endIndex < (data.length : Int) - 1 ∧
        (p.cap = -1 ∨ p.endIndex < p.cap) := by
      constructor
      · omega
      · rcases hcap with h1 | ⟨h1, h2⟩
        · exact Or.inl h1
        · exact Or.inr h2
    unfold signalLoop at h
    rw [hget] at h
    dsimp only at h
    rw [if_pos hguard] at h
    rcases hstep : signalStep data excl a u ps k p with ⟨ps1, tr1, found⟩
    rw [hstep] at h
    cases found with
    | true => simp at h
    | false =>
      have hstep22 : (signalStep data excl a u ps k p).2.2 = false := by rw [hstep]
      obtain ⟨M1, S1, G1, hform⟩ := signalStep_false_shape data excl a u ps k p hstep22
      rw [hstep] at hform
      dsimp only at hform
      subst hform
      have hget1 : (modifyAt (fun q => (⟨q.startIndex, p.endIndex + 1, q.cap, M1, S1, G1⟩ :
          Process)) ps k).get? k =
          some ⟨p.startIndex, p.endIndex + 1, p.cap, M1, S1, G1⟩ := by
        rw [get?_modifyAt_self, hget]
        rfl
      set T : Int := if p.cap = -1 then (data.length : Int) - 1
        else min ((data.length : Int) - 1) p.cap with hT
      have hlt : p.endIndex < T := by
        rcases hcap with h1 | ⟨h1, h2⟩ <;> simp [hT, h1] <;> omega
      by_cases hend : p.endIndex + 1 < T
      · have hLe1 : p.endIndex + 1 ≤ (data.length : Int) - 2 := by
          rcases hcap with h1 | ⟨h1, h2⟩ <;> simp [hT, h1] at hend <;> omega
        have hcap1 : p.cap = -1 ∨ (0 ≤ p.cap ∧ p.endIndex + 1 < p.cap) := by
          rcases hcap with h1 | ⟨h1, h2⟩
          · exact Or.inl h1
          · refine Or.inr ⟨h1, ?_⟩
            simp [hT, show ¬(p.cap = -1) by omega] at hend
            omega
        obtain ⟨M, S, G, hfin⟩ := ih _ k tr1 ⟨p.startIndex, p.endIndex + 1, p.cap, M1, S1, G1⟩
          ps' tr' hget1 hLe1 hcap1 h
        refine ⟨M, S, G, ?_⟩
        rw [hfin, modifyAt_modifyAt]
      · have hendT : p.endIndex + 1 = T := by omega
        have hguard1 : ¬(p.endIndex + 1 < (data.length : Int) - 1 ∧
            (p.cap = -1 ∨ p.endIndex + 1 < p.cap)) := by
          rcases hcap with h1 | ⟨h1, h2⟩
          · simp [hT, h1] at hendT
            omega
          · simp [hT, show ¬(p.cap = -1) by omega] at hendT
            rcases le_or_lt ((data.length : Int) - 1) p.cap with hmm | hmm
            · rw [min_eq_left hmm] at hendT
              intro hc
              omega
            · rw [min_eq_right (le_of_lt hmm)] at hendT
              intro hc
              rcases hc.2 with hc2 | hc2 <;> omega
        cases fuel with
        | zero => simp [signalLoop] at h
        | succ fuel2 =>
          unfold signalLoop at h
          rw [hget1] at h
          dsimp only at h
          rw [if_neg hguard1] at h
          simp only [Option.some_inj, Prod.mk.injEq] at h
          obtain ⟨hps', -, -⟩ := h
          refine ⟨M1, S1, G1, ?_⟩
          rw [← hps', hendT]

/-- The shape of the process list when the growth loop stops on a break. -/
lemma signalLoop_true_shape (data : List DataPoint) (excl : List Nat) (a : Bool) (u : Nat) :
    ∀ (fuel : Nat) (ps : List Process) (k : Nat) (tr : Tracker) (p : Process)
      (ps' : List Process) (tr' : Tracker),
      ps.get? k = some p → k = ps.length - 1 → ps ≠ [] →
      signalLoop data excl a u fuel ps k tr = some (ps', tr', true) →
      ∃ j M S G, p.startIndex + 1 ≤ j ∧ j ≤ (data.length : Int) - 1 ∧ a = true ∧
        (getPoint data j).t ∉ excl ∧ (getPoint data j).t < u ∧
        ps' = modifyAt (fun q => ⟨q.startIndex, j - 1, q.cap, M, S, G⟩) ps k ++
          [newProc j (-1)] := by
  intro fuel
  induction fuel with
  | zero =>
    intro ps k tr p ps' tr' _ _ _ h
    simp [signalLoop] at h
  | succ fuel ih =>
    intro ps k tr p ps' tr' hget hk hne h
    unfold signalLoop at h
    rw [hget] at h
    dsimp only at h
    by_cases hguard : p.endIndex < (data.length : Int) - 1 ∧ (p.cap = -1 ∨ p.endIndex < p.cap)
    · rw [if_pos hguard] at h
      rcases hstep : signalStep data excl a u ps k p with ⟨ps1, tr1, found⟩
      rw [hstep] at h
      cases found with
      | true =>
        have hstep22 : (signalStep data excl a u ps k p).2.2 = true := by rw [hstep]
        obtain ⟨j, M, S, G, hj1, hj2, ha, hexcl, hu, hform⟩ :=
          signalStep_true_shape data excl a u ps k p hk hne hstep22
        rw [hstep] at hform
        dsimp only at hform
        simp only [Option.some_inj, Prod.mk.injEq] at h
        obtain ⟨hps', -, -⟩ := h
        exact ⟨j, M, S, G, hj1, by omega, ha, hexcl, hu, by rw [← hps', hform]⟩
      | false =>
        have hstep22 : (signalStep data excl a u ps k p).2.2 = false := by rw [hstep]
        obtain ⟨M1, S1, G1, hform⟩ := signalStep_false_shape data excl a u ps k p hstep22
        rw [hstep] at hform
        dsimp only at hform
        subst hform
        have hget1 : (modifyAt (fun q => (⟨q.startIndex, p.endIndex + 1, q.cap, M1, S1, G1⟩ :
            Process)) ps k).get? k =
            some ⟨p.startIndex, p.endIndex + 1, p.cap, M1, S1, G1⟩ := by
          rw [get?_modifyAt_self, hget]
          rfl
        have hk1 : k = (modifyAt (fun q => (⟨q.startIndex, p.endIndex + 1, q.cap, M1, S1,
            G1⟩ : Process)) ps k).length - 1 := by
          rw [modifyAt_length]
          exact hk
        have hne1 : modifyAt (fun q => (⟨q.startIndex, p.endIndex + 1, q.cap, M1, S1, G1⟩ :
            Process)) ps k ≠ [] := by
          intro hnil
          have := congrArg List.length hnil
          rw [modifyAt_length] at this
          simp at this
          rw [this] at hget
          simp at hget
        obtain ⟨j, M, S, G, hj1, hj2, ha, hexcl, hu, hfin⟩ := ih _ k tr1 _ ps' tr'
          hget1 hk1 hne1 h
        refine ⟨j, M, S, G, by simpa using hj1, hj2, ha, hexcl, hu, ?_⟩
        rw [hfin, modifyAt_modifyAt]
    · rw [if_neg hguard] at h
      simp at h

/-- The growth loop cannot exhaust the fuel `calculateSignals` hands it. -/
lemma signalLoop_total (data : List DataPoint) (excl : List Nat) (a : Bool) (u : Nat) :
    ∀ (fuel : Nat) (ps : List Process) (k : Nat) (tr : Tracker) (p : Process),
      ps.get? k = some p →
      ((data.length : Int) - 1 - p.endIndex).toNat < fuel →
      signalLoop data excl a u fuel ps k tr ≠ none := by
  intro fuel
  induction fuel with
  | zero =>
    intro ps k tr p _ hlt
    omega
  | succ fuel ih =>
    intro ps k tr p hget hlt
    unfold signalLoop
    rw [hget]
    dsimp only
    by_cases hguard : p.endIndex < (data.length : Int) - 1 ∧ (p.cap = -1 ∨ p.endIndex < p.cap)
    · rw [if_pos hguard]
      rcases hstep : signalStep data excl a u ps k p with ⟨ps1, tr1, found⟩
      cases found with
      | true => simp
      | false =>
        have hstep22 : (signalStep data excl a u ps k p).2.2 = false := by rw [hstep]
        obtain ⟨M1, S1, G1, hform⟩ := signalStep_false_shape data excl a u ps k p hstep22
        rw [hstep] at hform
        dsimp only at hform
        subst hform
        have hget1 : (modifyAt (fun q => (⟨q.startIndex, p.endIndex + 1, q.cap, M1, S1, G1⟩ :
            Process)) ps k).get? k =
            some ⟨p.startIndex, p.endIndex + 1, p.cap, M1, S1, G1⟩ := by
          rw [get?_modifyAt_self, hget]
          rfl
        exact ih _ k tr1 _ hget1 (by simp; omega)
    · rw [if_neg hguard]
      simp

/-! ## The driver in automatic mode -/

lemma modifyAt_eq_take (f : Process → Process) (ps : List Process) (k : Nat) (p : Process)
    (hget : ps.get? k = some p) :
    modifyAt f ps k = ps.take k ++ f p :: ps.drop (k + 1) := by
  induction ps generalizing k with
  | nil => simp [List.get?] at hget
  | cons q rest ih =>
    cases k with
    | zero =>
      simp only [List.get?] at hget
      injection hget with hq
      subst hq
      rfl
    | succ k =>
      simp only [List.get?] at hget
      simp [modifyAt, ih k hget]

lemma drop_last_nil (ps : List Process) (k : Nat) (hk : k = ps.length - 1)
    (hne : ps ≠ []) : ps.drop (k + 1) = [] := by
  apply List.drop_eq_nil_of_le
  have := List.length_pos.mpr hne
  omega

lemma getLast?_cons_ne (q : Process) (l : List Process) (h : l ≠ []) :
    (q :: l).getLast? = l.getLast? := by
  cases l with
  | nil => exact absurd rfl h
  | cons a l' => simp [List.getLast?_cons_cons]

/-- Running the driver from the last process in no-cap (automatic-detection
shape) position: the result replaces that process and everything it appended
by a contiguous tail reaching the series end. -/
lemma calc_auto_main (data : List DataPoint) (excl : List Nat) (a : Bool) (u : Nat) :
    ∀ (fuel : Nat) (ps : List Process) (k : Nat) (p : Process),
      ps.get? k = some p → k = ps.length - 1 → ps ≠ [] →
      p.cap = -1 → -1 ≤ p.endIndex → 0 ≤ p.startIndex →
      p.startIndex ≤ (data.length : Int) - 1 →
      ((data.length : Int) - p.startIndex).toNat < fuel →
      ∃ tail, calculateSignals data excl a u fuel ps k = some (ps.take k ++ tail) ∧
        tail ≠ [] ∧
        (∀ q ∈ tail.head?, q.startIndex = p.startIndex) ∧
        Contiguous tail ∧
        (∀ q ∈ tail.getLast?, q.endIndex = (data.length : Int) - 1) ∧
        (∀ q ∈ tail, p.startIndex ≤ q.startIndex ∧ q.startIndex ≤ q.endIndex ∧
          q.endIndex ≤ (data.length : Int) - 1) := by
  intro fuel
  induction fuel with
  | zero =>
    intro ps k p _ _ _ _ _ _ _ hf
    omega
  | succ fuel ih =>
    intro ps k p hget hk hne hcap hend hs0 hsL hf
    have hL1 : 1 ≤ (data.length : Int) := by omega
    unfold calculateSignals
    rw [hget]
    dsimp only
    have hget0 : (modifyAt (adjustProcess (data.length : Int)) ps k).get? k =
        some (adjustProcess (data.length : Int) p) := by
      rw [get?_modifyAt_self, hget]
      rfl
    have he0 : (adjustProcess (data.length : Int) p).endIndex ≤ (data.length : Int) - 2 := by
      unfold adjustProcess
      dsimp only
      split <;> omega
    have he0' : -2 ≤ (adjustProcess (data.length : Int) p).endIndex := by
      unfold adjustProcess
      dsimp only
      split <;> omega
    have hcap0 : (adjustProcess (data.length : Int) p).cap = -1 := hcap
    have hs0' : (adjustProcess (data.length : Int) p).startIndex = p.startIndex := rfl
    rcases hsl : signalLoop data excl a u (data.length + 2)
        (modifyAt (adjustProcess (data.length : Int)) ps k) k emptyTracker with _ | ⟨ps1, tr, found⟩
    · exact absurd hsl (signalLoop_total data excl a u _ _ k emptyTracker _ hget0 (by omega))
    · cases found with
      | false =>
        obtain ⟨M, S, G, hform⟩ := signalLoop_false_shape data excl a u _ _ k emptyTracker
          _ ps1 tr hget0 he0 (Or.inl hcap0) hsl
        rw [if_pos hcap0] at hform
        subst hform
        dsimp only
        have hlen2 : (flushAt (modifyAt (fun q => (⟨q.startIndex, (data.length : Int) - 1,
            q.cap, M, S, G⟩ : Process)) (modifyAt (adjustProcess (data.length : Int)) ps k) k)
            k tr).length = ps.length := by
          simp
        rw [if_neg (by
          rw [hlen2]
          simp only [Bool.false_eq_true, false_or]
          omega)]
        simp only [flushAt, modifyAt_modifyAt]
        rw [modifyAt_eq_take _ ps k p hget, drop_last_nil ps k hk hne]
        refine ⟨[_], rfl, by simp, ?_, ?_, ?_, ?_⟩
        · intro q hq
          simp at hq
          subst hq
          exact rfl
        · exact List.chain'_singleton _
        · intro q hq
          simp at hq
          subst hq
          rfl
        · intro q hq
          simp at hq
          subst hq
          refine ⟨le_refl _, by simpa using hsL, by simp⟩
      | true =>
        have hk0 : k = (modifyAt (adjustProcess (data.length : Int)) ps k).length - 1 := by
          rw [modifyAt_length]
          exact hk
        have hne0 : modifyAt (adjustProcess (data.length : Int)) ps k ≠ [] := by
          intro hnil
          have := congrArg List.length hnil
          rw [modifyAt_length] at this
          simp at this
          rw [this] at hget
          simp at hget
        obtain ⟨j, M, S, G, hj1, hj2, ha, hexcl, hu, hform⟩ := signalLoop_true_shape
          data excl a u _ _ k emptyTracker _ ps1 tr hget0 hk0 hne0 hsl
        rw [hs0'] at hj1
        subst hform
        dsimp only
        simp only [modifyAt_modifyAt]
        have hpos : 0 < ps.length := List.length_pos.mpr hne
        have hklt : k < ps.length := by omega
        have hmlen : (modifyAt (fun q => (⟨q.startIndex, j - 1, q.cap, M, S, G⟩ : Process))
            (modifyAt (adjustProcess (data.length : Int)) ps k) k).length = ps.length := by
          simp
        rw [if_pos (by
          rw [flushAt_length]
          right
          simp only [List.length_append, List.length_singleton, modifyAt_length]
          omega)]
        set F : Process → Process := fun q =>
          (⟨(adjustProcess (data.length : Int) q).startIndex, j - 1,
            (adjustProcess (data.length : Int) q).cap, M, S, G⟩ : Process) with hF
        have hflush : flushAt (modifyAt F ps k ++ [newProc j (-1)]) k tr =
            modifyAt (fun q => { F q with
              signals := flushTracker (F q).signals tr }) ps k ++ [newProc j (-1)] := by
          unfold flushAt
          rw [modifyAt_append_left _ _ _ _ (by rw [modifyAt_length]; omega),
            modifyAt_modifyAt]
        rw [hflush]
        set F2 : Process → Process := fun q =>
          { F q with signals := flushTracker (F q).signals tr } with hF2
        have hlen3 : (modifyAt F2 ps k).length = ps.length := by simp
        have hget2 : (modifyAt F2 ps k ++ [newProc j (-1)]).get? (k + 1) =
            some (newProc j (-1)) := by
          have : k + 1 = (modifyAt F2 ps k).length := by omega
          rw [this, List.get?_concat_length]
        have hnew_end : (newProc j (-1)).endIndex = j + 8 := by
          unfold newProc
          rw [if_neg (by norm_num)]
          norm_num [ruleLength]
        have hnew_start : (newProc j (-1)).startIndex = j := rfl
        have hnew_cap : (newProc j (-1)).cap = -1 := rfl
        obtain ⟨tail', hrun, htne, hthead, htchain, htlast, htbounds⟩ := ih
          (modifyAt F2 ps k ++ [newProc j (-1)]) (k + 1) (newProc j (-1)) hget2
          (by simp; omega) (by simp) hnew_cap (by rw [hnew_end]; omega)
          (by rw [hnew_start]; omega) (by rw [hnew_start]; omega)
          (by rw [hnew_start]; omega)
        rw [hrun]
        have htake : (modifyAt F2 ps k ++ [newProc j (-1)]).take (k + 1) =
            modifyAt F2 ps k := by
          have : k + 1 = (modifyAt F2 ps k).length := by omega
          rw [this, List.take_left]
        rw [htake]
        rw [modifyAt_eq_take F2 ps k p hget, drop_last_nil ps k hk hne]
        refine ⟨F2 p :: tail', by simp, by simp, ?_, ?_, ?_, ?_⟩
        · intro q hq
          simp only [List.head?_cons, Option.mem_def, Option.some_inj] at hq
          subst hq
          rfl
        · unfold Contiguous
          rw [List.chain'_cons']
          constructor
          · intro b hb
            have := hthead b hb
            rw [this, hnew_start]
            show j = (F2 p).endIndex + 1
            have : (F2 p).endIndex = j - 1 := rfl
            omega
          · exact htchain
        · rw [getLast?_cons_ne _ _ htne]
          exact htlast
        · intro q hq
          rcases List.mem_cons.mp hq with hq | hq
          · subst hq
            refine ⟨le_refl _, ?_, ?_⟩
            · show p.startIndex ≤ j - 1
              omega
            · show j - 1 ≤ (data.length : Int) - 1
              omega
          · obtain ⟨h1, h2, h3⟩ := htbounds q hq
            rw [hnew_start] at h1
            exact ⟨by omega, h2, h3⟩

/-! ## The manual-breakpoint process list -/

lemma modifyAt_concat (f : Process → Process) (xs : List Process) (y : Process) :
    modifyAt f (xs ++ [y]) xs.length = xs ++ [f y] := by
  induction xs with
  | nil => rfl
  | cons x rest ih => simp [modifyAt, ih]

lemma buildManual_acc (len : Int) :
    ∀ (bs : List Int) (ps : List Process) (prev : Int), bs ≠ [] → ps ≠ [] →
      buildManual len ps prev bs =
        modifyAt (fun q => { q with endIndex := prev - 1 }) ps (ps.length - 1) ++
          manualChain len prev bs := by
  intro bs
  induction bs with
  | nil => intro ps prev h _; exact absurd rfl h
  | cons b rest ih =>
    intro ps prev _ hps
    cases rest with
    | nil =>
      show createProcess (createProcess ps prev (b - 1)) b (len - 1) = _
      rw [createProcess_cons ps prev (b - 1) hps]
      rw [createProcess_cons _ b (len - 1) (by simp)]
      have hidx : (modifyAt (fun q => { q with endIndex := prev - 1 }) ps (ps.length - 1) ++
          [newProc prev (b - 1)]).length - 1 =
          (modifyAt (fun q => { q with endIndex := prev - 1 }) ps (ps.length - 1)).length := by
        simp
      rw [hidx, modifyAt_concat]
      simp [manualChain]
    | cons b2 rest2 =>
      show buildManual len (createProcess ps prev (b - 1)) b (b2 :: rest2) = _
      rw [ih (createProcess ps prev (b - 1)) b (by simp) (by
        intro hnil
        have := congrArg List.length hnil
        simp at this)]
      rw [createProcess_cons ps prev (b - 1) hps]
      have hidx : (modifyAt (fun q => { q with endIndex := prev - 1 }) ps (ps.length - 1) ++
          [newProc prev (b - 1)]).length - 1 =
          (modifyAt (fun q => { q with endIndex := prev - 1 }) ps (ps.length - 1)).length := by
        simp
      rw [hidx, modifyAt_concat]
      simp [manualChain]

lemma buildManual_from_nil (len : Int) (bs : List Int) (prev : Int) (h : bs ≠ []) :
    buildManual len [] prev bs = manualChain len prev bs := by
  cases bs with
  | nil => exact absurd rfl h
  | cons b rest =>
    cases rest with
    | nil =>
      show createProcess (createProcess [] prev (b - 1)) b (len - 1) = _
      rw [createProcess_nil, createProcess_cons _ b (len - 1) (by simp)]
      simp [modifyAt, manualChain]
    | cons b2 rest2 =>
      show buildManual len (createProcess [] prev (b - 1)) b (b2 :: rest2) = _
      rw [createProcess_nil,
        buildManual_acc len (b2 :: rest2) [newProc prev (b - 1)] b (by simp) (by simp)]
      simp [modifyAt, manualChain]

lemma manualChain_ne_nil (len : Int) (bs : List Int) (prev : Int) (h : bs ≠ []) :
    manualChain len prev bs ≠ [] := by
  cases bs with
  | nil => exact absurd rfl h
  | cons b rest =>
    cases rest with
    | nil => simp [manualChain]
    | cons b2 r2 => simp [manualChain]

lemma manualChain_length (len : Int) :
    ∀ (bs : List Int) (prev : Int), bs ≠ [] →
      (manualChain len prev bs).length = bs.length + 1 := by
  intro bs
  induction bs with
  | nil => intro prev h; exact absurd rfl h
  | cons b rest ih =>
    intro prev _
    cases rest with
    | nil => simp [manualChain]
    | cons b2 r2 =>
      simp only [manualChain, List.length_cons]
      rw [ih b (by simp)]
      simp

lemma manualChain_shape (len : Int) :
    ∀ (bs : List Int) (prev : Int), bs ≠ [] →
      List.Chain' (· < ·) (prev :: bs) →
      (∀ b ∈ bs, 1 ≤ b ∧ b ≤ len - 1) →
      0 ≤ prev →
      (∀ q ∈ (manualChain len prev bs).head?, q.startIndex = prev) ∧
      List.Chain' (fun a b => b.startIndex = a.cap + 1) (manualChain len prev bs) ∧
      (∀ q ∈ (manualChain len prev bs).getLast?, q.cap = len - 1) ∧
      (∀ q ∈ manualChain len prev bs,
        0 ≤ q.startIndex ∧ q.startIndex ≤ q.cap ∧ q.cap ≤ len - 1 ∧
        q.endIndex ≤ q.cap ∧ -1 ≤ q.endIndex) := by
  intro bs
  induction bs with
  | nil => intro prev h _ _ _; exact absurd rfl h
  | cons b rest ih =>
    intro prev _ hchain hbs hprev
    have hpb : prev < b := (List.chain'_cons.mp hchain).1
    have hb := hbs b (by simp)
    have hrl : ((ruleLength RuleId.EIGHT_OVER_MEAN : Nat) : Int) = 8 := by
      norm_num [ruleLength]
    cases rest with
    | nil =>
      have hE : (newProc b (len - 1)).endIndex =
          if len - 1 > -1 ∧ b + ((ruleLength RuleId.EIGHT_OVER_MEAN : Nat) : Int) > len - 1
          then len - 1
          else b + ((ruleLength RuleId.EIGHT_OVER_MEAN : Nat) : Int) := rfl
      rw [hrl] at hE
      refine ⟨?_, ?_, ?_, ?_⟩
      · intro q hq
        simp only [manualChain, List.head?_cons, Option.mem_def, Option.some_inj] at hq
        subst hq
        rfl
      · show List.Chain' _ [_, _]
        rw [List.chain'_cons]
        refine ⟨?_, List.chain'_singleton _⟩
        show b = b - 1 + 1
        omega
      · intro q hq
        simp only [manualChain, List.getLast?_cons_cons, List.getLast?_singleton,
          Option.mem_def, Option.some_inj] at hq
        subst hq
        rfl
      · intro q hq
        simp only [manualChain, List.mem_cons, List.mem_singleton,
          List.not_mem_nil, or_false] at hq
        rcases hq with hq | hq
        · subst hq
          refine ⟨hprev, ?_, ?_, ?_, ?_⟩
          · show prev ≤ b - 1
            omega
          · show (b : Int) - 1 ≤ len - 1
            omega
          · show (b : Int) - 1 ≤ b - 1
            omega
          · show (-1 : Int) ≤ b - 1
            omega
        · subst hq
          refine ⟨by show (0 : Int) ≤ b; omega, by exact hb.2, le_refl _, ?_, ?_⟩
          · show (newProc b (len - 1)).endIndex ≤ len - 1
            rw [hE]
            split <;> omega
          · rw [hE]
            split <;> omega
    | cons b2 r2 =>
      have hchain' : List.Chain' (· < ·) (b :: b2 :: r2) := (List.chain'_cons.mp hchain).2
      obtain ⟨ihHead, ihChain, ihLast, ihMem⟩ :=
        ih b (by simp) hchain' (fun x hx => hbs x (List.mem_cons_of_mem _ hx)) (by omega)
      refine ⟨?_, ?_, ?_, ?_⟩
      · intro q hq
        simp only [manualChain, List.head?_cons, Option.mem_def, Option.some_inj] at hq
        subst hq
        rfl
      · simp only [manualChain]
        rw [List.chain'_cons']
        refine ⟨?_, ihChain⟩
        intro q hq
        have hqs := ihHead q hq
        show q.startIndex = b - 1 + 1
        omega
      · intro q hq
        simp only [manualChain] at hq
        rw [getLast?_cons_ne _ _ (manualChain_ne_nil len (b2 :: r2) b (by simp))] at hq
        exact ihLast q hq
      · intro q hq
        simp only [manualChain, List.mem_cons] at hq
        rcases hq with hq | hq
        · subst hq
          refine ⟨hprev, ?_, ?_, ?_, ?_⟩
          · show prev ≤ b - 1
            omega
          · show (b : Int) - 1 ≤ len - 1
            omega
          · show (b : Int) - 1 ≤ b - 1
            omega
          · show (-1 : Int) ≤ b - 1
            omega
        · exact ihMem q hq

/-- A process whose end already equals its cap satisfies the growth-loop
invariant: after the entry adjustment the end sits strictly below the cap. -/
lemma inv_of_end_eq_cap (len : Int) (q : Process) (h1 : -1 ≤ q.cap)
    (h2 : q.endIndex = q.cap) :
    -1 ≤ q.endIndex ∧ (q.cap = -1 ∨ (0 ≤ q.cap ∧
      (adjustProcess len q).endIndex < q.cap)) := by
  have hadj : (adjustProcess len q).endIndex =
      if q.endIndex ≥ len then len - 2 else q.endIndex - 1 := rfl
  refine ⟨by omega, ?_⟩
  by_cases hc : q.cap = -1
  · exact Or.inl hc
  · refine Or.inr ⟨by omega, ?_⟩
    rw [hadj]
    split <;> omega

/-- The last manual process, capped to the series end, satisfies the
growth-loop invariant. -/
lemma inv_newProc_capped (len b : Int) (hb : 0 ≤ b) (hlen : 0 ≤ len) :
    -1 ≤ (newProc b (len - 1)).endIndex ∧ ((newProc b (len - 1)).cap = -1 ∨
      (0 ≤ (newProc b (len - 1)).cap ∧
        (adjustProcess len (newProc b (len - 1))).endIndex < (newProc b (len - 1)).cap)) := by
  have hcap : (newProc b (len - 1)).cap = len - 1 := rfl
  have hE : (newProc b (len - 1)).endIndex =
      if len - 1 > -1 ∧ b + ((ruleLength RuleId.EIGHT_OVER_MEAN : Nat) : Int) > len - 1
      then len - 1
      else b + ((ruleLength RuleId.EIGHT_OVER_MEAN : Nat) : Int) := rfl
  have hrl : ((ruleLength RuleId.EIGHT_OVER_MEAN : Nat) : Int) = 8 := by
    norm_num [ruleLength]
  rw [hrl] at hE
  have hadj : (adjustProcess len (newProc b (len - 1))).endIndex =
      if (newProc b (len - 1)).endIndex ≥ len then len - 2
      else (newProc b (len - 1)).endIndex - 1 := rfl
  constructor
  · rw [hE]
    split <;> omega
  · rw [hcap]
    by_cases hc : len - 1 = -1
    · exact Or.inl hc
    · refine Or.inr ⟨by omega, ?_⟩
      by_cases hC : len - 1 > -1 ∧ b + 8 > len - 1
      · rw [hE, if_pos hC] at hadj
        rw [hadj]
        split <;> omega
      · rw [hE, if_neg hC] at hadj
        rw [hadj]
        split <;> omega

/-- Every manual process satisfies the growth-loop invariant, for any
list of nonnegative breakpoints (sorted or not, in range or not). -/
lemma manualChain_inv (len : Int) (hlen : 0 ≤ len) :
    ∀ (bs : List Int) (prev : Int), (∀ b ∈ bs, 0 ≤ b) →
      ∀ q ∈ manualChain len prev bs,
        -1 ≤ q.endIndex ∧ (q.cap = -1 ∨ (0 ≤ q.cap ∧
          (adjustProcess len q).endIndex < q.cap)) := by
  intro bs
  induction bs with
  | nil => intro prev _ q hq; simp [manualChain] at hq
  | cons b rest ih =>
    intro prev hbs q hq
    have hb : (0 : Int) ≤ b := hbs b (by simp)
    cases rest with
    | nil =>
      simp only [manualChain, List.mem_cons, List.mem_singleton,
        List.not_mem_nil, or_false] at hq
      rcases hq with hq | hq
      · subst hq
        apply inv_of_end_eq_cap
        · show (-1 : Int) ≤ b - 1
          omega
        · rfl
      · subst hq
        exact inv_newProc_capped len b hb hlen
    | cons b2 r2 =>
      simp only [manualChain, List.mem_cons] at hq
      rcases hq with hq | hq
      · subst hq
        apply inv_of_end_eq_cap
        · show (-1 : Int) ≤ b - 1
          omega
        · rfl
      · exact ih b (fun x hx => hbs x (by simp [hx])) q hq

/-! ## The driver in manual mode -/

/-- With automatic detection off, one growth step never reports a break. -/
lemma signalStep_noauto (data : List DataPoint) (excl : List Nat) (u : Nat)
    (ps : List Process) (k : Nat) (p : Process) :
    (signalStep data excl false u ps k p).2.2 = false := by
  unfold signalStep
  rcases hscan : scanLoop data excl
      (summaryStatistics data excl p.startIndex (p.endIndex + 1)).1
      (summaryStatistics data excl p.startIndex (p.endIndex + 1)).2
      p.startIndex false u (scanIndices (p.endIndex + 1) p.startIndex) [] emptyTracker
      (growAt (summaryStatistics data excl p.startIndex (p.endIndex + 1))
        (p.endIndex + 1) ps k) with ⟨sigs, tr2, ps3, found⟩
  cases found with
  | true =>
    obtain ⟨j, -, -, -, ha, -, -⟩ := scanLoop_break data excl
      (summaryStatistics data excl p.startIndex (p.endIndex + 1)).1
      (summaryStatistics data excl p.startIndex (p.endIndex + 1)).2
      p.startIndex false u (scanIndices (p.endIndex + 1) p.startIndex) [] emptyTracker
      (growAt (summaryStatistics data excl p.startIndex (p.endIndex + 1))
        (p.endIndex + 1) ps k) (by rw [hscan])
    simp at ha
  | false =>
    simp

/-- With automatic detection off, the growth loop never reports a break. -/
lemma signalLoop_noauto (data : List DataPoint) (excl : List Nat) (u : Nat) :
    ∀ (fuel : Nat) (ps : List Process) (k : Nat) (tr : Tracker)
      (ps' : List Process) (tr' : Tracker) (f : Bool),
      signalLoop data excl false u fuel ps k tr = some (ps', tr', f) → f = false := by
  intro fuel
  induction fuel with
  | zero => intro ps k tr ps' tr' f h; simp [signalLoop] at h
  | succ fuel ih =>
    intro ps k tr ps' tr' f h
    unfold signalLoop at h
    rcases hget : ps.get? k with _ | p
    · rw [hget] at h
      dsimp only at h
      simp only [Option.some_inj, Prod.mk.injEq] at h
      obtain ⟨-, -, hf⟩ := h
      exact hf.symm
    · rw [hget] at h
      dsimp only at h
      by_cases hguard : p.endIndex < (data.length : Int) - 1 ∧
          (p.cap = -1 ∨ p.endIndex < p.cap)
      · rw [if_pos hguard] at h
        rcases hstep : signalStep data excl false u ps k p with ⟨ps1, tr1, found⟩
        rw [hstep] at h
        cases found with
        | true =>
          have := signalStep_noauto data excl u ps k p
          rw [hstep] at this
          simp at this
        | false => exact ih ps1 k tr1 ps' tr' f h
      · rw [if_neg hguard] at h
        simp only [Option.some_inj, Prod.mk.injEq] at h
        obtain ⟨-, -, hf⟩ := h
        exact hf.symm

/-- Running the driver with automatic detection off: the process list keeps
its length (no process is ever created), starts and caps are preserved, and
each process's final end is the last series index clipped to its cap. -/
lemma calc_manual_main (data : List DataPoint) (excl : List Nat) (u : Nat) :
    ∀ (fuel : Nat) (ps : List Process) (k : Nat),
      (∀ i p, k ≤ i → ps.get? i = some p → -1 ≤ p.endIndex ∧
        (p.cap = -1 ∨ (0 ≤ p.cap ∧
          (adjustProcess (data.length : Int) p).endIndex < p.cap))) →
      ps.length - k < fuel →
      ∃ ps', calculateSignals data excl false u fuel ps k = some ps' ∧
        ps'.length = ps.length ∧
        (∀ i, i < k → ps'.get? i = ps.get? i) ∧
        (∀ i p, k ≤ i → ps.get? i = some p → ∃ M S G,
          ps'.get? i = some ⟨p.startIndex,
            (if p.cap = -1 then (data.length : Int) - 1
             else min ((data.length : Int) - 1) p.cap), p.cap, M, S, G⟩) := by
  intro fuel
  induction fuel with
  | zero => intro ps k _ hf; omega
  | succ fuel ih =>
    intro ps k hinv hf
    unfold calculateSignals
    rcases hget : ps.get? k with _ | p
    · dsimp only
      refine ⟨ps, rfl, rfl, fun i _ => rfl, ?_⟩
      intro i p hki hgi
      have hnone : ps.get? i = none := by
        have hlen : ps.length ≤ k := List.get?_eq_none.mp hget
        exact List.get?_eq_none.mpr (by omega)
      rw [hgi] at hnone
      exact absurd hnone (by simp)
    · dsimp only
      obtain ⟨hend, hcap⟩ := hinv k p (le_refl k) hget
      have hget0 : (modifyAt (adjustProcess (data.length : Int)) ps k).get? k =
          some (adjustProcess (data.length : Int) p) := by
        rw [get?_modifyAt_self, hget]
        rfl
      have he0 : (adjustProcess (data.length : Int) p).endIndex ≤
          (data.length : Int) - 2 := by
        unfold adjustProcess
        dsimp only
        split <;> omega
      have he0' : -2 ≤ (adjustProcess (data.length : Int) p).endIndex := by
        unfold adjustProcess
        dsimp only
        split <;> omega
      have hcapeq : (adjustProcess (data.length : Int) p).cap = p.cap := rfl
      rcases hsl : signalLoop data excl false u (data.length + 2)
          (modifyAt (adjustProcess (data.length : Int)) ps k) k emptyTracker
        with _ | ⟨ps1, tr, found⟩
      · exact absurd hsl (signalLoop_total data excl false u _ _ k emptyTracker _ hget0
          (by omega))
      · have hfnd : found = false :=
          signalLoop_noauto data excl u _ _ k emptyTracker ps1 tr found hsl
        subst hfnd
        have hcap0 : (adjustProcess (data.length : Int) p).cap = -1 ∨
            (0 ≤ (adjustProcess (data.length : Int) p).cap ∧
              (adjustProcess (data.length : Int) p).endIndex <
                (adjustProcess (data.length : Int) p).cap) := by
          rw [hcapeq]
          exact hcap
        obtain ⟨M, S, G, hform⟩ := signalLoop_false_shape data excl false u _ _ k
          emptyTracker _ ps1 tr hget0 he0 hcap0 hsl
        rw [hcapeq] at hform
        subst hform
        dsimp only
        have hflush : flushAt (modifyAt (fun q => (⟨q.startIndex,
            (if p.cap = -1 then (data.length : Int) - 1
             else min ((data.length : Int) - 1) p.cap), q.cap, M, S, G⟩ : Process))
            (modifyAt (adjustProcess (data.length : Int)) ps k) k) k tr =
            modifyAt (fun q => (⟨(adjustProcess (data.length : Int) q).startIndex,
              (if p.cap = -1 then (data.length : Int) - 1
               else min ((data.length : Int) - 1) p.cap),
              (adjustProcess (data.length : Int) q).cap, M, S,
              flushTracker G tr⟩ : Process)) ps k := by
          unfold flushAt
          rw [modifyAt_modifyAt, modifyAt_modifyAt]
        by_cases hklt : k < ps.length - 1
        · rw [if_pos (Or.inr (by
            simp only [flushAt_length, modifyAt_length]
            omega))]
          rw [hflush]
          obtain ⟨ps', hrun, hlen, hpre, hsuf⟩ := ih
            (modifyAt (fun q => (⟨(adjustProcess (data.length : Int) q).startIndex,
              (if p.cap = -1 then (data.length : Int) - 1
               else min ((data.length : Int) - 1) p.cap),
              (adjustProcess (data.length : Int) q).cap, M, S,
              flushTracker G tr⟩ : Process)) ps k) (k + 1)
            (by
              intro i p' hki hgi
              rw [get?_modifyAt_ne _ _ _ _ (by omega)] at hgi
              exact hinv i p' (by omega) hgi)
            (by
              simp only [modifyAt_length]
              omega)
          refine ⟨ps', hrun, ?_, ?_, ?_⟩
          · rw [hlen]
            simp
          · intro i hik
            rw [hpre i (by omega), get?_modifyAt_ne _ _ _ _ (by omega)]
          · intro i p' hki hgi
            by_cases hik : i = k
            · rw [hik, hget] at hgi
              injection hgi with hpp
              subst hpp
              refine ⟨M, S, flushTracker G tr, ?_⟩
              rw [hik, hpre k (by omega), get?_modifyAt_self, hget]
              rfl
            · exact hsuf i p' (by omega)
                (by rw [get?_modifyAt_ne _ _ _ _ (by omega)]; exact hgi)
        · rw [if_neg (by
            simp only [flushAt_length, modifyAt_length, Bool.false_eq_true, false_or]
            omega)]
          rw [hflush]
          refine ⟨_, rfl, by simp, ?_, ?_⟩
          · intro i hik
            exact get?_modifyAt_ne _ _ _ _ (by omega)
          · intro i p' hki hgi
            have hilt : i < ps.length := by
              by_contra hcon
              rw [List.get?_eq_none.mpr (by omega)] at hgi
              exact absurd hgi (by simp)
            have hik : i = k := by omega
            subst hik
            rw [hget] at hgi
            injection hgi with hpp
            subst hpp
            refine ⟨M, S, flushTracker G tr, ?_⟩
            rw [get?_modifyAt_self, hget]
            rfl

/-! ## Assembling the partition invariant -/

lemma head?_get?_zero (l : List Process) : l.head? = l.get? 0 := by
  cases l <;> rfl

lemma getLast?_get?_len (l : List Process) : l.getLast? = l.get? (l.length - 1) := by
  induction l with
  | nil => rfl
  | cons a t ih =>
    cases t with
    | nil => rfl
    | cons b t2 =>
      rw [getLast?_cons_ne a (b :: t2) (by simp), ih]
      simp

/-- A list whose entries are the pointwise "run to the cap" image of a
well-formed manual chain is a partition of the series. -/
lemma partition_of_pointwise (len : Nat) (chain ps' : List Process)
    (hlen : ps'.length = chain.length)
    (hne : chain ≠ [])
    (hsuf : ∀ i p, chain.get? i = some p → ∃ M S G,
      ps'.get? i = some ⟨p.startIndex,
        (if p.cap = -1 then (len : Int) - 1 else min ((len : Int) - 1) p.cap),
        p.cap, M, S, G⟩)
    (hHead : ∀ q ∈ chain.head?, q.startIndex = 0)
    (hChain : List.Chain' (fun a b => b.startIndex = a.cap + 1) chain)
    (hLast : ∀ q ∈ chain.getLast?, q.cap = (len : Int) - 1)
    (hMem : ∀ q ∈ chain, 0 ≤ q.startIndex ∧ q.startIndex ≤ q.cap ∧
      q.cap ≤ (len : Int) - 1) :
    PartitionOk ps' len := by
  have hpos : 0 < chain.length := List.length_pos.mpr hne
  have hT : ∀ p ∈ chain,
      (if p.cap = -1 then (len : Int) - 1 else min ((len : Int) - 1) p.cap) = p.cap := by
    intro p hp
    obtain ⟨h0, h1, h2⟩ := hMem p hp
    rw [if_neg (by omega), min_eq_right h2]
  have key : ∀ i p, chain.get? i = some p → ∃ M S G,
      ps'.get? i = some ⟨p.startIndex, p.cap, p.cap, M, S, G⟩ := by
    intro i p hgp
    obtain ⟨M, S, G, h⟩ := hsuf i p hgp
    rw [hT p (List.get?_mem hgp)] at h
    exact ⟨M, S, G, h⟩
  refine ⟨?_, ?_, ?_, ?_, ?_⟩
  · intro h
    rw [h] at hlen
    simp at hlen
    omega
  · intro q hq
    rw [Option.mem_def, head?_get?_zero] at hq
    rcases hg0 : chain.get? 0 with _ | q0
    · rw [List.get?_eq_none] at hg0
      omega
    obtain ⟨M, S, G, h⟩ := key 0 q0 hg0
    rw [h] at hq
    injection hq with hq
    have hq0 : q0.startIndex = 0 :=
      hHead q0 (by rw [Option.mem_def, head?_get?_zero]; exact hg0)
    rw [← hq]
    show q0.startIndex = 0
    exact hq0
  · show List.Chain' _ ps'
    rw [List.chain'_iff_get]
    intro i hi
    have hi1 : i < chain.length := by omega
    have hi2 : i + 1 < chain.length := by omega
    have hg1 : chain.get? i = some (chain.get ⟨i, hi1⟩) := List.get?_eq_get hi1
    have hg2 : chain.get? (i + 1) = some (chain.get ⟨i + 1, hi2⟩) := List.get?_eq_get hi2
    obtain ⟨M1, S1, G1, h1⟩ := key i _ hg1
    obtain ⟨M2, S2, G2, h2⟩ := key (i + 1) _ hg2
    have hp1 : ps'.get ⟨i, by omega⟩ = ⟨(chain.get ⟨i, hi1⟩).startIndex,
        (chain.get ⟨i, hi1⟩).cap, (chain.get ⟨i, hi1⟩).cap, M1, S1, G1⟩ := by
      have he := List.get?_eq_get (show i < ps'.length by omega)
      rw [h1] at he
      exact (Option.some_inj.mp he).symm
    have hp2 : ps'.get ⟨i + 1, by omega⟩ = ⟨(chain.get ⟨i + 1, hi2⟩).startIndex,
        (chain.get ⟨i + 1, hi2⟩).cap, (chain.get ⟨i + 1, hi2⟩).cap, M2, S2, G2⟩ := by
      have he := List.get?_eq_get (show i + 1 < ps'.length by omega)
      rw [h2] at he
      exact (Option.some_inj.mp he).symm
    have hc := List.chain'_iff_get.mp hChain i (by omega)
    rw [hp1, hp2]
    show (chain.get ⟨i + 1, hi2⟩).startIndex = (chain.get ⟨i, hi1⟩).cap + 1
    exact hc
  · intro q hq
    rw [Option.mem_def, getLast?_get?_len] at hq
    have hidx : ps'.length - 1 = chain.length - 1 := by omega
    rw [hidx] at hq
    rcases hgl : chain.get? (chain.length - 1) with _ | ql
    · rw [List.get?_eq_none] at hgl
      omega
    obtain ⟨M, S, G, h⟩ := key _ ql hgl
    rw [h] at hq
    injection hq with hq
    have hql : ql.cap = (len : Int) - 1 :=
      hLast ql (by rw [Option.mem_def, getLast?_get?_len]; exact hgl)
    rw [← hq]
    show ql.cap = (len : Int) - 1
    exact hql
  · intro q hq
    obtain ⟨i, hgi⟩ := List.mem_iff_get?.mp hq
    rcases hgc : chain.get? i with _ | qi
    · rw [List.get?_eq_none] at hgc
      rw [List.get?_eq_none.mpr (by omega)] at hgi
      exact absurd hgi (by simp)
    obtain ⟨M, S, G, h⟩ := key i qi hgc
    rw [h] at hgi
    injection hgi with hgi
    obtain ⟨h0, h1, h2⟩ := hMem qi (List.get?_mem hgc)
    rw [← hgi]
    show qi.startIndex ≤ qi.cap
    exact h1

set_option maxRecDepth 10000 in
/-- **C1 (counterexample)**: the partition invariant does not hold for every
configuration: with the out-of-range manual breakpoint `100` on a three-point
series (automatic detection off), the resolved processes are
`(0,2)` and `(100,2)` — the second starts after it ends and is not contiguous
with the first, so the series is not partitioned. -/
theorem C1_counterexample :
    ∃ ps, displayChart c8data [] [100] false 99 = some ps ∧
      ¬ PartitionOk ps c8data.length := by
  have h : (displayChart c8data [] [100] false 99).map procShape =
      some [((0 : Int), (2 : Int), (99 : Int)), (100, 2, 2)] := by
    with_unfolding_all decide
  rcases hrun : displayChart c8data [] [100] false 99 with _ | ps
  · rw [hrun] at h
    simp at h
  · refine ⟨ps, rfl, ?_⟩
    rw [hrun] at h
    simp only [Option.map_some', Option.some_inj] at h
    intro hok
    obtain ⟨-, -, -, -, hmem⟩ := hok
    have h2 : (procShape ps).get? 1 = some (100, 2, 2) := by rw [h]; rfl
    unfold procShape at h2
    rw [List.get?_map] at h2
    rcases hg : ps.get? 1 with _ | q
    · rw [hg] at h2
      simp at h2
    · rw [hg] at h2
      simp only [Option.map_some', Option.some_inj, Prod.mk.injEq] at h2
      obtain ⟨hqs, hqe, -⟩ := h2
      have hq := hmem q (List.get?_mem hg)
      rw [hqs, hqe] at hq
      norm_num at hq

/-- **C1 (amended)**: the resolved processes partition the series for every
series, exclusion set and configuration in which either automatic detection
is on, no manual breakpoints are supplied, or the manual breakpoints are
strictly ascending and strictly inside the series (as the chart's click
handler maintains them): the list is non-empty, starts at index 0, is
contiguous and ordered, ends at the last series index, and every process is
non-empty, so every index belongs to exactly one process. -/
theorem C1_partition_invariant (data : List DataPoint) (excl : List Nat)
    (manual : List Int) (auto : Bool) (untl : Nat) (ps : List Process)
    (hdata : 1 ≤ data.length)
    (hok : manual.length = 0 ∨ auto = true ∨ ValidManual manual data.length)
    (hrun : displayChart data excl manual auto untl = some ps) :
    PartitionOk ps data.length := by
  by_cases hsingle : manual.length = 0 ∨ auto = true
  · have hinit : initialProcesses data.length manual auto = [newProc 0 (-1)] := by
      unfold initialProcesses
      rw [if_pos hsingle, createProcess_nil]
    unfold displayChart at hrun
    rw [hinit] at hrun
    have hnew_end : (newProc 0 (-1)).endIndex = 8 := by
      unfold newProc
      rw [if_neg (by norm_num)]
      norm_num [ruleLength]
    obtain ⟨tail, hrun', htne, hthead, htchain, htlast, htbounds⟩ :=
      calc_auto_main data excl auto untl (data.length + manual.length + 2)
        [newProc 0 (-1)] 0 (newProc 0 (-1)) rfl rfl (by simp) rfl
        (by rw [hnew_end]; norm_num)
        (by show (0 : Int) ≤ 0; norm_num)
        (by show (0 : Int) ≤ (data.length : Int) - 1; omega)
        (by show ((data.length : Int) - (0 : Int)).toNat < data.length + manual.length + 2
            omega)
    rw [hrun'] at hrun
    simp only [List.take_zero, List.nil_append, Option.some_inj] at hrun
    subst hrun
    refine ⟨htne, ?_, htchain, htlast, ?_⟩
    · intro q hq
      exact hthead q hq
    · intro q hq
      exact (htbounds q hq).2.1
  · push_neg at hsingle
    obtain ⟨hm0, hauto⟩ := hsingle
    have hauto' : auto = false := by
      revert hauto
      cases auto <;> simp
    have hvm : ValidManual manual data.length := by
      rcases hok with h | h | h
      · exact absurd h hm0
      · exact absurd h (by rw [hauto']; simp)
      · exact h
    have hmne : manual ≠ [] := by
      intro h
      rw [h] at hm0
      exact hm0 rfl
    have hinit : initialProcesses data.length manual auto =
        manualChain (data.length : Int) 0 manual := by
      unfold initialProcesses
      rw [if_neg (by
        intro hcon
        rcases hcon with h | h
        · exact hm0 h
        · rw [hauto'] at h
          exact absurd h (by simp))]
      exact buildManual_from_nil _ manual 0 hmne
    obtain ⟨hvchain, hvmem⟩ := hvm
    have hch0 : List.Chain' (· < ·) ((0 : Int) :: manual) := by
      refine List.chain'_cons'.mpr ⟨?_, hvchain⟩
      intro y hy
      have hymem : y ∈ manual := List.mem_of_mem_head? hy
      have := (hvmem y hymem).1
      omega
    obtain ⟨hHead, hChain, hLast, hMem⟩ :=
      manualChain_shape (data.length : Int) manual 0 hmne hch0 hvmem (le_refl 0)
    have hInv := manualChain_inv (data.length : Int) (by positivity) manual 0
      (fun b hb => by have := (hvmem b hb).1; omega)
    unfold displayChart at hrun
    rw [hinit, hauto'] at hrun
    obtain ⟨ps', hrun', hlen, hpre, hsuf⟩ := calc_manual_main data excl untl
      (data.length + manual.length + 2) (manualChain (data.length : Int) 0 manual) 0
      (by
        intro i p hki hgi
        exact hInv p (List.get?_mem hgi))
      (by
        rw [manualChain_length _ _ _ hmne]
        omega)
    rw [hrun'] at hrun
    have hps : ps' = ps := Option.some_inj.mp hrun
    subst hps
    refine partition_of_pointwise data.length (manualChain (data.length : Int) 0 manual)
      ps' hlen (manualChain_ne_nil _ _ _ hmne)
      (fun i p hgi => hsuf i p (Nat.zero_le i) hgi)
      hHead hChain hLast
      (fun q hq => ⟨(hMem q hq).1, (hMem q hq).2.1, (hMem q hq).2.2.1⟩)

set_option maxRecDepth 10000 in
/-- Witness for the amended C1 theorem: the valid manual breakpoint `1` on
the three-point series yields a run whose processes partition the series. -/
theorem C1_partition_invariant_witness :
    ∃ ps, displayChart c8data [] [1] false 0 = some ps ∧
      PartitionOk ps c8data.length := by
  have hs : (displayChart c8data [] [1] false 0).isSome = true := by
    with_unfolding_all rfl
  rcases hrun : displayChart c8data [] [1] false 0 with _ | ps
  · rw [hrun] at hs
    simp at hs
  · refine ⟨ps, rfl, ?_⟩
    refine C1_partition_invariant c8data [] [1] false 0 ps (by norm_num [c8data]) ?_ hrun
    refine Or.inr (Or.inr ⟨List.chain'_singleton _, ?_⟩)
    intro b hb
    simp only [List.mem_singleton] at hb
    subst hb
    constructor
    · norm_num
    · show (1 : Int) ≤ (c8data.length : Int) - 1
      norm_num [c8data]

/-! ## Entry-point process lists -/

lemma newProc_zero_end : (newProc 0 (-1)).endIndex = 8 := by
  unfold newProc
  rw [if_neg (by norm_num)]
  norm_num [ruleLength]

lemma initialProcesses_single (len : Nat) (manual : List Int) (auto : Bool)
    (h : manual.length = 0 ∨ auto = true) :
    initialProcesses len manual auto = [newProc 0 (-1)] := by
  unfold initialProcesses
  rw [if_pos h, createProcess_nil]

lemma initialProcesses_false (len : Nat) (manual : List Int) (hm : manual ≠ []) :
    initialProcesses len manual false = manualChain (len : Int) 0 manual := by
  unfold initialProcesses
  rw [if_neg (by
    intro hcon
    rcases hcon with h | h
    · exact hm (List.length_eq_zero.mp h)
    · exact absurd h (by simp))]
  exact buildManual_from_nil _ manual 0 hm

/-- The single no-cap initial process satisfies the growth-loop invariant. -/
lemma single_inv (len : Int) :
    ∀ i p, (0 : Nat) ≤ i → ([newProc 0 (-1)] : List Process).get? i = some p →
      -1 ≤ p.endIndex ∧ (p.cap = -1 ∨ (0 ≤ p.cap ∧
        (adjustProcess len p).endIndex < p.cap)) := by
  intro i p _ hgi
  cases i with
  | zero =>
    simp only [List.get?, Option.some_inj] at hgi
    subst hgi
    refine ⟨by rw [newProc_zero_end]; norm_num, Or.inl rfl⟩
  | succ i => simp [List.get?] at hgi

/-- With automatic detection off, `displayChart`'s run always completes and
keeps exactly the manually built processes (same length, same starts). -/
lemma displayChart_manual_total (data : List DataPoint) (excl : List Nat)
    (manual : List Int) (u : Nat) (hm : ∀ b ∈ manual, 0 ≤ b) :
    ∃ ps, displayChart data excl manual false u = some ps ∧
      ps.length = (initialProcesses data.length manual false).length ∧
      ps.map (fun p => p.startIndex) =
        (initialProcesses data.length manual false).map (fun p => p.startIndex) := by
  have hmain : ∀ (ps0 : List Process),
      initialProcesses data.length manual false = ps0 →
      (∀ i p, (0 : Nat) ≤ i → ps0.get? i = some p →
        -1 ≤ p.endIndex ∧ (p.cap = -1 ∨ (0 ≤ p.cap ∧
          (adjustProcess (data.length : Int) p).endIndex < p.cap))) →
      ps0.length - 0 < data.length + manual.length + 2 →
      ∃ ps, displayChart data excl manual false u = some ps ∧
        ps.length = (initialProcesses data.length manual false).length ∧
        ps.map (fun p => p.startIndex) =
          (initialProcesses data.length manual false).map (fun p => p.startIndex) := by
    intro ps0 hinit hinv hfuel
    obtain ⟨ps', hrun, hlen, -, hsuf⟩ :=
      calc_manual_main data excl u (data.length + manual.length + 2) ps0 0 hinv hfuel
    refine ⟨ps', ?_, ?_, ?_⟩
    · unfold displayChart
      rw [hinit]
      exact hrun
    · rw [hinit, hlen]
    · rw [hinit]
      apply List.ext
      intro n
      rw [List.get?_map, List.get?_map]
      rcases hg : ps0.get? n with _ | p
      · rw [List.get?_eq_none.mpr (by
          have := List.get?_eq_none.mp hg
          omega)]
      · obtain ⟨M, S, G, h⟩ := hsuf n p (Nat.zero_le n) hg
        rw [h]
        rfl
  by_cases hm0 : manual = []
  · refine hmain [newProc 0 (-1)] ?_ (single_inv (data.length : Int)) (by simp)
    rw [hm0]
    exact initialProcesses_single data.length [] false (Or.inl rfl)
  · refine hmain (manualChain (data.length : Int) 0 manual)
      (initialProcesses_false data.length manual hm0) ?_ ?_
    · intro i p _ hgi
      exact manualChain_inv (data.length : Int) (by positivity) manual 0 hm p
        (List.get?_mem hgi)
    · rw [manualChain_length _ _ _ hm0]
      omega

/-- **C2**: a run-tracker increment creates a process (an automatic break)
exactly when the rule is one of the two 8-run rules, the run just reached
length 8, automatic detection is enabled, the timestamp strictly precedes
`autoDetectUntil`, and the scanned index is not the segment's own start
(otherwise the process list is returned unchanged); consequently, with
`autoDetectProcess = false` the engine never creates any process beyond the
ones built from the manual breakpoints, regardless of the data. -/
theorem C2_break_conditions :
    (∀ (tr : Tracker) (sig : RuleId) (id : Nat) (ps : List Process) (j s : Int)
        (a : Bool) (u : Nat),
      ((incrementSignal tr sig id ps j (breakFlag j s a) u).2.2 = true ↔
        ((sig = RuleId.EIGHT_OVER_MEAN ∨ sig = RuleId.EIGHT_UNDER_MEAN) ∧
          (pushTracker tr sig id sig).length = ruleLength RuleId.EIGHT_OVER_MEAN ∧
          a = true ∧ id < u ∧ j ≠ s)) ∧
      ((incrementSignal tr sig id ps j (breakFlag j s a) u).2.2 = false →
        (incrementSignal tr sig id ps j (breakFlag j s a) u).2.1 = ps)) ∧
    (∀ (data : List DataPoint) (excl : List Nat) (manual : List Int) (u : Nat)
        (ps : List Process), (∀ b ∈ manual, 0 ≤ b) →
      displayChart data excl manual false u = some ps →
      ps.length = (initialProcesses data.length manual false).length ∧
      ps.map (fun p => p.startIndex) =
        (initialProcesses data.length manual false).map (fun p => p.startIndex)) := by
  refine ⟨?_, ?_⟩
  · intro tr sig id ps j s a u
    constructor
    · rw [incrementSignal_found_iff]
      unfold breakFlag
      by_cases hjs : j = s
      · rw [if_pos hjs]
        constructor
        · rintro ⟨-, -, hf, -⟩
          exact absurd hf (by simp)
        · rintro ⟨-, -, -, -, hne⟩
          exact absurd hjs hne
      · rw [if_neg hjs]
        constructor
        · rintro ⟨h1, h2, h3, h4⟩
          exact ⟨h1, h2, h3, h4, hjs⟩
        · rintro ⟨h1, h2, h3, h4, -⟩
          exact ⟨h1, h2, h3, h4⟩
    · exact incrementSignal_ps_false tr sig id ps j (breakFlag j s a) u
  · intro data excl manual u ps hm hrun
    obtain ⟨ps', hrun', hlen, hmap⟩ := displayChart_manual_total data excl manual u hm
    rw [hrun'] at hrun
    rw [← Option.some_inj.mp hrun]
    exact ⟨hlen, hmap⟩

/-- Witness for the C2 theorem: a full 8-over run away from the segment start
with automatic detection on does break; a manual-mode run on the three-point
series keeps exactly its two manual processes. -/
theorem C2_break_conditions_witness :
    (incrementSignal
        (fun r => if r = RuleId.EIGHT_OVER_MEAN then [10, 11, 12, 13, 14, 15, 16] else [])
        RuleId.EIGHT_OVER_MEAN 1 [] 5 (breakFlag 5 0 true) 99).2.2 = true ∧
    ∃ ps, displayChart c8data [] [1] false 0 = some ps ∧ ps.length = 2 := by
  constructor
  · exact (C2_break_conditions.1
      (fun r => if r = RuleId.EIGHT_OVER_MEAN then [10, 11, 12, 13, 14, 15, 16] else [])
      RuleId.EIGHT_OVER_MEAN 1 [] 5 0 true 99).1.mpr
      ⟨Or.inl rfl, by with_unfolding_all decide, rfl, by norm_num, by norm_num⟩
  · have hs : (displayChart c8data [] [1] false 0).isSome = true := by
      with_unfolding_all rfl
    rcases hrun : displayChart c8data [] [1] false 0 with _ | ps
    · rw [hrun] at hs
      simp at hs
    · refine ⟨ps, rfl, ?_⟩
      have h := (C2_break_conditions.2 c8data [] [1] 0 ps (by norm_num) hrun).1
      rw [h]
      with_unfolding_all rfl

/-- **C10**: `getSignals` always starts segmentation from the single process
`createProcess([], 0)` — its embedding takes no manual breakpoints at all,
mirroring the source, which ignores `properties.manualProcesses` there — so
with `autoDetectProcess = false` it always yields exactly one process
spanning the whole series; only `displayChart` honors manual breakpoints. -/
theorem C10_getSignals_single_process (data : List DataPoint) (excl : List Nat)
    (untl : Nat) (ps : List Process)
    (hrun : getSignals data excl false untl = some ps) :
    procBounds ps = [(0, (data.length : Int) - 1)] := by
  unfold getSignals at hrun
  rw [createProcess_nil] at hrun
  obtain ⟨ps', hrun', hlen, -, hsuf⟩ := calc_manual_main data excl untl
    (data.length + 2) [newProc 0 (-1)] 0 (single_inv (data.length : Int)) (by simp)
  rw [hrun'] at hrun
  have hps := Option.some_inj.mp hrun
  obtain ⟨M, S, G, h0⟩ := hsuf 0 (newProc 0 (-1)) (le_refl 0) rfl
  rw [hps] at h0 hlen
  rcases ps with _ | ⟨q, rest⟩
  · simp at hlen
  · rcases rest with _ | ⟨q2, rest2⟩
    · simp only [List.get?, Option.some_inj] at h0
      subst h0
      rfl
    · simp at hlen

/-- Witness for the C10 theorem: on the three-point series with automatic
detection off, `getSignals` yields the single process `[0, 2]`. -/
theorem C10_getSignals_single_process_witness :
    ∃ ps, getSignals c8data [] false 0 = some ps ∧ procBounds ps = [(0, 2)] := by
  have hs : (getSignals c8data [] false 0).isSome = true := by
    with_unfolding_all rfl
  rcases hrun : getSignals c8data [] false 0 with _ | ps
  · rw [hrun] at hs
    simp at hs
  · refine ⟨ps, rfl, ?_⟩
    have h := C10_getSignals_single_process c8data [] 0 ps hrun
    rw [h]
    norm_num [c8data]

/-! ## Runs in which every scanned point is excluded -/

lemma scanLoop_allexcl (data : List DataPoint) (excl : List Nat) (m s2 : Option ℚ)
    (s : Int) (a : Bool) (u : Nat) :
    ∀ (js : List Int) (sigs : List (Nat × RuleId)) (tr : Tracker) (ps : List Process),
      (∀ j ∈ js, (getPoint data j).t ∈ excl) →
      scanLoop data excl m s2 s a u js sigs tr ps = (sigs, tr, ps, false) := by
  intro js
  induction js with
  | nil => intro sigs tr ps _; rfl
  | cons j js ih =>
    intro sigs tr ps hx
    unfold scanLoop
    rw [if_pos (hx j (by simp))]
    exact ih sigs tr ps (fun j' hj' => hx j' (by simp [hj']))

lemma modifyAt_self_eq (f : Process → Process) :
    ∀ (ps : List Process) (k : Nat) (p : Process),
      ps.get? k = some p → f p = p → modifyAt f ps k = ps := by
  intro ps
  induction ps with
  | nil => intro k p hget _; simp [List.get?] at hget
  | cons q rest ih =>
    intro k p hget hfp
    cases k with
    | zero =>
      simp only [List.get?, Option.some_inj] at hget
      show f q :: rest = q :: rest
      rw [hget, hfp]
    | succ k =>
      simp only [List.get?] at hget
      show q :: modifyAt f rest k = q :: rest
      rw [ih k p hget hfp]

lemma signalStep_allexcl (data : List DataPoint) (excl : List Nat) (a : Bool) (u : Nat)
    (ps : List Process) (k : Nat) (p : Process)
    (hall : ∀ d ∈ data, d.t ∈ excl)
    (hstart : 0 ≤ p.startIndex)
    (hend : p.endIndex + 1 ≤ (data.length : Int) - 1) :
    signalStep data excl a u ps k p =
      (modifyAt (fun q => ⟨q.startIndex, p.endIndex + 1, q.cap,
        (summaryStatistics data excl p.startIndex (p.endIndex + 1)).1,
        (summaryStatistics data excl p.startIndex (p.endIndex + 1)).2, []⟩) ps k,
       emptyTracker, false) := by
  have hx : ∀ j ∈ scanIndices (p.endIndex + 1) p.startIndex,
      (getPoint data j).t ∈ excl := by
    intro j hj
    obtain ⟨hj1, hj2⟩ := scanIndices_mem _ _ _ hj
    rcases hg : data.get? j.toNat with _ | d
    · rw [List.get?_eq_none] at hg
      omega
    · have hgp : getPoint data j = d := by
        unfold getPoint
        rw [hg]
        rfl
      rw [hgp]
      exact hall d (List.get?_mem hg)
  unfold signalStep
  rw [scanLoop_allexcl data excl _ _ p.startIndex a u _ [] emptyTracker _ hx]
  dsimp only
  rw [if_neg (by simp)]
  show (setSignalsAt [] (growAt _ (p.endIndex + 1) ps k) k, emptyTracker, false) = _
  simp only [setSignalsAt, growAt, modifyAt_modifyAt]

lemma signalLoop_allexcl (data : List DataPoint) (excl : List Nat) (a : Bool) (u : Nat)
    (hall : ∀ d ∈ data, d.t ∈ excl) :
    ∀ (fuel : Nat) (ps : List Process) (k : Nat) (p : Process) (ps' : List Process)
      (tr' : Tracker) (f : Bool),
      ps.get? k = some p → 0 ≤ p.startIndex → p.signals = [] →
      signalLoop data excl a u fuel ps k emptyTracker = some (ps', tr', f) →
      ∃ E M S, ps' = modifyAt (fun q => ⟨q.startIndex, E, q.cap, M, S, []⟩) ps k ∧
        f = false ∧ tr' = emptyTracker := by
  intro fuel
  induction fuel with
  | zero => intro ps k p ps' tr' f _ _ _ h; simp [signalLoop] at h
  | succ fuel ih =>
    intro ps k p ps' tr' f hget hstart hsig h
    unfold signalLoop at h
    rw [hget] at h
    dsimp only at h
    by_cases hguard : p.endIndex < (data.length : Int) - 1 ∧
        (p.cap = -1 ∨ p.endIndex < p.cap)
    · rw [if_pos hguard] at h
      rw [signalStep_allexcl data excl a u ps k p hall hstart (by omega)] at h
      dsimp only at h
      obtain ⟨E, M, S, hform, hf, htr⟩ := ih
        (modifyAt (fun q => ⟨q.startIndex, p.endIndex + 1, q.cap,
          (summaryStatistics data excl p.startIndex (p.endIndex + 1)).1,
          (summaryStatistics data excl p.startIndex (p.endIndex + 1)).2, []⟩) ps k) k
        ⟨p.startIndex, p.endIndex + 1, p.cap,
          (summaryStatistics data excl p.startIndex (p.endIndex + 1)).1,
          (summaryStatistics data excl p.startIndex (p.endIndex + 1)).2, []⟩
        ps' tr' f
        (by rw [get?_modifyAt_self, hget]; rfl)
        hstart rfl h
      refine ⟨E, M, S, ?_, hf, htr⟩
      rw [hform, modifyAt_modifyAt]
    · rw [if_neg hguard] at h
      simp only [Option.some_inj, Prod.mk.injEq] at h
      obtain ⟨hps, htr, hf⟩ := h
      refine ⟨p.endIndex, p.mean, p.sd2, ?_, hf.symm, htr.symm⟩
      rw [← hps]
      rw [modifyAt_self_eq _ ps k p hget (by
        rcases p with ⟨s1, e1, c1, m1, s2f, g1⟩
        simp only at hsig
        rw [hsig])]

/-- The driver on a series whose every point is excluded (in particular on an
empty series): it completes, never grows the process list, and leaves every
processed process with an empty signal map. -/
lemma calc_allexcl (data : List DataPoint) (excl : List Nat) (a : Bool) (u : Nat)
    (hall : ∀ d ∈ data, d.t ∈ excl) :
    ∀ (fuel : Nat) (ps : List Process) (k : Nat),
      (∀ i p, k ≤ i → ps.get? i = some p → 0 ≤ p.startIndex ∧ -1 ≤ p.endIndex) →
      ps.length - k < fuel →
      ∃ ps', calculateSignals data excl a u fuel ps k = some ps' ∧
        ps'.length = ps.length ∧
        (∀ i, i < k → ps'.get? i = ps.get? i) ∧
        (∀ i p, k ≤ i → ps'.get? i = some p → p.signals = []) := by
  intro fuel
  induction fuel with
  | zero => intro ps k _ hf; omega
  | succ fuel ih =>
    intro ps k hinv hf
    unfold calculateSignals
    rcases hget : ps.get? k with _ | p
    · dsimp only
      refine ⟨ps, rfl, rfl, fun i _ => rfl, ?_⟩
      intro i p hki hgi
      have hnone : ps.get? i = none := by
        have hlen : ps.length ≤ k := List.get?_eq_none.mp hget
        exact List.get?_eq_none.mpr (by omega)
      rw [hgi] at hnone
      exact absurd hnone (by simp)
    · dsimp only
      obtain ⟨hstart, hend⟩ := hinv k p (le_refl k) hget
      have hget0 : (modifyAt (adjustProcess (data.length : Int)) ps k).get? k =
          some (adjustProcess (data.length : Int) p) := by
        rw [get?_modifyAt_self, hget]
        rfl
      have he0' : -2 ≤ (adjustProcess (data.length : Int) p).endIndex := by
        unfold adjustProcess
        dsimp only
        split <;> omega
      rcases hsl : signalLoop data excl a u (data.length + 2)
          (modifyAt (adjustProcess (data.length : Int)) ps k) k emptyTracker
        with _ | ⟨ps1, tr, f⟩
      · exact absurd hsl (signalLoop_total data excl a u _ _ k emptyTracker _ hget0
          (by omega))
      · obtain ⟨E, M, S, hform, hf1, htr⟩ := signalLoop_allexcl data excl a u hall
          (data.length + 2) _ k (adjustProcess (data.length : Int) p) ps1 tr f
          hget0 hstart rfl hsl
        subst hf1
        subst htr
        subst hform
        dsimp only
        rw [modifyAt_modifyAt]
        have hflush : flushAt (modifyAt (fun q =>
            (⟨(adjustProcess (data.length : Int) q).startIndex, E,
              (adjustProcess (data.length : Int) q).cap, M, S, []⟩ : Process)) ps k)
            k emptyTracker =
            modifyAt (fun q =>
              (⟨(adjustProcess (data.length : Int) q).startIndex, E,
                (adjustProcess (data.length : Int) q).cap, M, S, []⟩ : Process)) ps k := by
          unfold flushAt
          rw [modifyAt_modifyAt]
          rfl
        rw [hflush]
        by_cases hklt : k < ps.length - 1
        · rw [if_pos (Or.inr (by
            simp only [modifyAt_length]
            omega))]
          obtain ⟨ps', hrun, hlen, hpre, hsuf⟩ := ih
            (modifyAt (fun q =>
              (⟨(adjustProcess (data.length : Int) q).startIndex, E,
                (adjustProcess (data.length : Int) q).cap, M, S, []⟩ : Process)) ps k)
            (k + 1)
            (by
              intro i p' hki hgi
              rw [get?_modifyAt_ne _ _ _ _ (by omega)] at hgi
              exact hinv i p' (by omega) hgi)
            (by
              simp only [modifyAt_length]
              omega)
          refine ⟨ps', hrun, ?_, ?_, ?_⟩
          · rw [hlen]
            simp
          · intro i hik
            rw [hpre i (by omega), get?_modifyAt_ne _ _ _ _ (by omega)]
          · intro i p' hki hgi
            by_cases hik : i = k
            · rw [hik, hpre k (by omega), get?_modifyAt_self, hget] at hgi
              injection hgi with hgi
              rw [← hgi]
            · exact hsuf i p' (by omega) hgi
        · rw [if_neg (by
            simp only [modifyAt_length, Bool.false_eq_true, false_or]
            omega)]
          refine ⟨_, rfl, by simp, ?_, ?_⟩
          · intro i hik
            exact get?_modifyAt_ne _ _ _ _ (by omega)
          · intro i p' hki hgi
            have hilt : i < ps.length := by
              have hl : (modifyAt (fun q =>
                  (⟨(adjustProcess (data.length : Int) q).startIndex, E,
                    (adjustProcess (data.length : Int) q).cap, M, S, []⟩ : Process))
                  ps k).length = ps.length := by simp
              by_contra hcon
              rw [List.get?_eq_none.mpr (by omega)] at hgi
              exact absurd hgi (by simp)
            have hik : i = k := by omega
            rw [hik, get?_modifyAt_self, hget] at hgi
            injection hgi with hgi
            rw [← hgi]

/-- A contiguous run of non-empty processes inside `[lo, hi]` has at most
`hi + 1 - lo` members. -/
lemma contiguous_length_bound (hi : Int) :
    ∀ (l : List Process) (lo : Int), l ≠ [] → Contiguous l →
      (∀ q ∈ l, q.startIndex ≤ q.endIndex ∧ q.endIndex ≤ hi) →
      (∀ q ∈ l.head?, lo ≤ q.startIndex) →
      (l.length : Int) ≤ hi + 1 - lo := by
  intro l
  induction l with
  | nil => intro lo h _ _ _; exact absurd rfl h
  | cons q rest ih =>
    intro lo _ hchain hb hh
    have hq := hb q (by simp)
    have hlo : lo ≤ q.startIndex := hh q (by simp)
    cases rest with
    | nil =>
      show ((1 : Nat) : Int) ≤ hi + 1 - lo
      push_cast
      omega
    | cons r rest2 =>
      have hchain0 := hchain
      unfold Contiguous at hchain0
      have hchain' : Contiguous (r :: rest2) := (List.chain'_cons.mp hchain0).2
      have hr : r.startIndex = q.endIndex + 1 := (List.chain'_cons.mp hchain0).1
      have hrec := ih (q.endIndex + 1) (by simp) hchain'
        (fun x hx => hb x (List.mem_cons_of_mem _ hx))
        (by
          intro x hx
          simp only [List.head?_cons, Option.mem_def, Option.some_inj] at hx
          rw [← hx]
          omega)
      simp only [List.length_cons] at hrec ⊢
      push_cast at hrec ⊢
      omega

/-- **C9**: segmentation always terminates.  For every series, exclusion set
and configuration (with the caller's breakpoints nonnegative, as click
indices are), `displayChart`'s run returns a result within the supplied
fuel — the growth loop's end strictly increases up to the series end or the
cap, and every automatic break starts strictly later, so at most
series-length processes arise — and the final process count is bounded by
`series length + breakpoint count + 1`. -/
theorem C9_termination (data : List DataPoint) (excl : List Nat) (manual : List Int)
    (auto : Bool) (untl : Nat) (hm : ∀ b ∈ manual, 0 ≤ b) :
    ∃ ps, displayChart data excl manual auto untl = some ps ∧
      ps.length ≤ data.length + manual.length + 1 := by
  by_cases hsingle : manual.length = 0 ∨ auto = true
  · have hinit := initialProcesses_single data.length manual auto hsingle
    cases hL : data.length with
    | zero =>
      have hdata : data = [] := List.length_eq_zero.mp hL
      obtain ⟨ps', hrun, hlen, -, -⟩ := calc_allexcl data excl auto untl
        (by rw [hdata]; intro d hd; simp at hd)
        (data.length + manual.length + 2) [newProc 0 (-1)] 0
        (by
          intro i p _ hgi
          cases i with
          | zero =>
            simp only [List.get?, Option.some_inj] at hgi
            subst hgi
            refine ⟨by show (0 : Int) ≤ 0; norm_num, by rw [newProc_zero_end]; norm_num⟩
          | succ i => simp [List.get?] at hgi)
        (by simp)
      refine ⟨ps', by unfold displayChart; rw [hinit]; exact hrun, ?_⟩
      rw [hlen]
      simp only [List.length_singleton]
      omega
    | succ n =>
      obtain ⟨tail, hrun', htne, hthead, htchain, htlast, htbounds⟩ :=
        calc_auto_main data excl auto untl (data.length + manual.length + 2)
          [newProc 0 (-1)] 0 (newProc 0 (-1)) rfl rfl (by simp) rfl
          (by rw [newProc_zero_end]; norm_num)
          (by show (0 : Int) ≤ 0; norm_num)
          (by show (0 : Int) ≤ (data.length : Int) - 1; omega)
          (by show ((data.length : Int) - (0 : Int)).toNat < data.length + manual.length + 2
              omega)
      refine ⟨[newProc 0 (-1)].take 0 ++ tail,
        by unfold displayChart; rw [hinit]; exact hrun', ?_⟩
      simp only [List.take_zero, List.nil_append]
      have hb := contiguous_length_bound ((data.length : Int) - 1) tail 0 htne htchain
        (fun q hq => ⟨(htbounds q hq).2.1, (htbounds q hq).2.2⟩)
        (by
          intro q hq
          rw [hthead q hq]
          show (0 : Int) ≤ 0
          norm_num)
      omega
  · push_neg at hsingle
    obtain ⟨hm0, hauto⟩ := hsingle
    have hauto' : auto = false := by
      revert hauto
      cases auto <;> simp
    subst hauto'
    have hmne : manual ≠ [] := by
      intro h
      rw [h] at hm0
      exact hm0 rfl
    obtain ⟨ps, hrun, hlen, -⟩ := displayChart_manual_total data excl manual untl hm
    refine ⟨ps, hrun, ?_⟩
    rw [hlen, initialProcesses_false data.length manual hmne,
      manualChain_length _ _ _ hmne]
    omega

/-- Witness for the C9 theorem: even with the out-of-range breakpoint `100`
on a three-point series the run terminates, within the process-count bound. -/
theorem C9_termination_witness :
    ∃ ps, displayChart c8data [] [100] false 99 = some ps ∧
      ps.length ≤ c8data.length + [(100 : Int)].length + 1 :=
  C9_termination c8data [] [100] false 99 (by norm_num)

/-- **C8 (amended)**: bad breakpoint configurations never make the run fail,
but they are not clamped to a single-process default either.  When automatic
detection is enabled, manual breakpoints are ignored outright (the initial
list is the single process).  With automatic detection off, every manual
breakpoint still creates its process — out-of-range ones included, which
produce degenerate trailing processes (see the C8 counterexample) — and the
run completes with exactly the manually built process count. -/
theorem C8_amended_behavior :
    (∀ (len : Nat) (manual : List Int),
      initialProcesses len manual true = [newProc 0 (-1)]) ∧
    (∀ (data : List DataPoint) (excl : List Nat) (manual : List Int) (u : Nat),
      (∀ b ∈ manual, 0 ≤ b) →
      ∃ ps, displayChart data excl manual false u = some ps ∧
        ps.length = (initialProcesses data.length manual false).length) := by
  refine ⟨?_, ?_⟩
  · intro len manual
    exact initialProcesses_single len manual true (Or.inr rfl)
  · intro data excl manual u hm
    obtain ⟨ps, hrun, hlen, -⟩ := displayChart_manual_total data excl manual u hm
    exact ⟨ps, hrun, hlen⟩

/-- Witness for the amended C8 theorem at the counterexample's configuration:
detection on ignores the breakpoint `100`; detection off keeps both manually
built processes and completes. -/
theorem C8_amended_behavior_witness :
    initialProcesses 3 [100] true = [newProc 0 (-1)] ∧
    ∃ ps, displayChart c8data [] [100] false 99 = some ps ∧
      ps.length = (initialProcesses c8data.length [100] false).length :=
  ⟨C8_amended_behavior.1 3 [100],
   C8_amended_behavior.2 c8data [] [100] 99 (by norm_num)⟩

/-! ## Exclusion cleanliness -/

lemma mem_modifyAt (f : Process → Process) :
    ∀ (ps : List Process) (k : Nat) (q : Process), q ∈ modifyAt f ps k →
      q ∈ ps ∨ ∃ x ∈ ps, q = f x := by
  intro ps
  induction ps with
  | nil => intro k q hq; simp [modifyAt] at hq
  | cons p rest ih =>
    intro k q hq
    cases k with
    | zero =>
      simp only [modifyAt] at hq
      rcases List.mem_cons.mp hq with hq | hq
      · exact Or.inr ⟨p, by simp, hq⟩
      · exact Or.inl (List.mem_cons_of_mem _ hq)
    | succ k =>
      simp only [modifyAt] at hq
      rcases List.mem_cons.mp hq with hq | hq
      · exact Or.inl (by simp [hq])
      · rcases ih k q hq with h | ⟨x, hx, hqx⟩
        · exact Or.inl (List.mem_cons_of_mem _ h)
        · exact Or.inr ⟨x, List.mem_cons_of_mem _ hx, hqx⟩

lemma setSig_clean (excl : List Nat) :
    ∀ (sigs : List (Nat × RuleId)) (d : Nat) (r : RuleId),
      CleanSigs excl sigs → d ∉ excl → CleanSigs excl (setSig sigs d r) := by
  intro sigs
  induction sigs with
  | nil =>
    intro d r _ hd e he
    simp only [setSig, List.mem_singleton] at he
    subst he
    exact hd
  | cons pr rest ih =>
    intro d r hc hd e he
    rcases pr with ⟨t, r'⟩
    simp only [setSig] at he
    by_cases ht : t = d
    · rw [if_pos ht] at he
      rcases List.mem_cons.mp he with he | he
      · subst he
        exact hd
      · exact hc e (List.mem_cons_of_mem _ he)
    · rw [if_neg ht] at he
      rcases List.mem_cons.mp he with he | he
      · subst he
        exact hc (t, r') (by simp)
      · exact ih d r (fun x hx => hc x (List.mem_cons_of_mem _ hx)) hd e he

lemma trySetSig_clean (excl : List Nat) (sig : RuleId) (sigs : List (Nat × RuleId))
    (d : Nat) (hc : CleanSigs excl sigs) (hd : d ∉ excl) :
    CleanSigs excl (trySetSig sig sigs d) := by
  unfold trySetSig
  rcases h : lookupSig sigs d with _ | ex
  · exact setSig_clean excl sigs d sig hc hd
  · dsimp only
    split
    · exact setSig_clean excl sigs d sig hc hd
    · exact hc

lemma foldl_trySetSig_clean (excl : List Nat) (sig : RuleId) :
    ∀ (l : List Nat) (sigs : List (Nat × RuleId)),
      CleanSigs excl sigs → (∀ t ∈ l, t ∉ excl) →
      CleanSigs excl (l.foldl (trySetSig sig) sigs) := by
  intro l
  induction l with
  | nil => intro sigs hc _; exact hc
  | cons t rest ih =>
    intro sigs hc hl
    simp only [List.foldl_cons]
    exact ih _ (trySetSig_clean excl sig sigs t hc (hl t (by simp)))
      (fun x hx => hl x (by simp [hx]))

lemma addSignalToTracker_clean (excl : List Nat) (sigs : List (Nat × RuleId))
    (tr : Tracker) (sig : RuleId) (hc : CleanSigs excl sigs)
    (ht : CleanTracker excl tr) :
    CleanSigs excl (addSignalToTracker sigs tr sig) := by
  unfold addSignalToTracker
  split
  · exact foldl_trySetSig_clean excl sig (tr sig) sigs hc (fun t htm => ht sig t htm)
  · exact hc

lemma clearSignal_clean_sigs (excl : List Nat) (sigs : List (Nat × RuleId))
    (tr : Tracker) (sig : RuleId) (hc : CleanSigs excl sigs)
    (ht : CleanTracker excl tr) :
    CleanSigs excl (clearSignal sigs tr sig).1 :=
  addSignalToTracker_clean excl sigs tr sig hc ht

lemma clearSignal_clean_tr (excl : List Nat) (sigs : List (Nat × RuleId))
    (tr : Tracker) (sig : RuleId) (ht : CleanTracker excl tr) :
    CleanTracker excl (clearSignal sigs tr sig).2 := by
  intro r t htm
  unfold clearSignal at htm
  dsimp only at htm
  by_cases hr : r = sig
  · rw [if_pos hr] at htm
    simp at htm
  · rw [if_neg hr] at htm
    exact ht r t htm

lemma pushTracker_clean (excl : List Nat) (tr : Tracker) (sig : RuleId) (id : Nat)
    (ht : CleanTracker excl tr) (hid : id ∉ excl) :
    CleanTracker excl (pushTracker tr sig id) := by
  intro r t htm
  unfold pushTracker at htm
  by_cases hr : r = sig
  · rw [if_pos hr] at htm
    rcases List.mem_append.mp htm with h | h
    · exact ht sig t h
    · simp only [List.mem_singleton] at h
      subst h
      exact hid
  · rw [if_neg hr] at htm
    exact ht r t htm

lemma createProcess_clean (excl : List Nat) (ps : List Process) (idx c : Int)
    (hc : CleanProcs excl ps) : CleanProcs excl (createProcess ps idx c) := by
  intro q hq
  have hnewsig : (newProc idx c).signals = [] := rfl
  rcases hps : ps with _ | ⟨p0, rest⟩
  · rw [hps] at hq
    rw [createProcess_nil] at hq
    simp only [List.mem_singleton] at hq
    subst hq
    intro e he
    rw [hnewsig] at he
    simp at he
  · rw [createProcess_cons ps idx c (by rw [hps]; simp)] at hq
    rcases List.mem_append.mp hq with h | h
    · rcases mem_modifyAt _ ps _ q h with h2 | ⟨x, hx, hqx⟩
      · exact hc q h2
      · subst hqx
        exact hc x hx
    · simp only [List.mem_singleton] at h
      subst h
      intro e he
      rw [hnewsig] at he
      simp at he

lemma incrementSignal_clean (excl : List Nat) (tr : Tracker) (sig : RuleId) (id : Nat)
    (ps : List Process) (idx : Int) (a : Bool) (u : Nat)
    (ht : CleanTracker excl tr) (hid : id ∉ excl) (hc : CleanProcs excl ps) :
    CleanTracker excl (incrementSignal tr sig id ps idx a u).1 ∧
    CleanProcs excl (incrementSignal tr sig id ps idx a u).2.1 := by
  unfold incrementSignal
  split
  · exact ⟨pushTracker_clean excl tr sig id ht hid,
      createProcess_clean excl ps idx (-1) hc⟩
  · exact ⟨pushTracker_clean excl tr sig id ht hid, hc⟩

lemma scanRules_clean (excl : List Nat) (v : ℚ) (m s2 : Option ℚ) (t : Nat)
    (j s : Int) (a : Bool) (u : Nat) (hid : t ∉ excl) :
    ∀ (rs : List RuleId) (sigs : List (Nat × RuleId)) (tr : Tracker) (ps : List Process),
      CleanSigs excl sigs → CleanTracker excl tr → CleanProcs excl ps →
      CleanSigs excl (scanRules v m s2 t j s a u rs sigs tr ps).1 ∧
      CleanTracker excl (scanRules v m s2 t j s a u rs sigs tr ps).2.1 ∧
      CleanProcs excl (scanRules v m s2 t j s a u rs sigs tr ps).2.2.1 := by
  intro rs
  induction rs with
  | nil => intro sigs tr ps hs ht hp; exact ⟨hs, ht, hp⟩
  | cons r rest ih =>
    intro sigs tr ps hs ht hp
    unfold scanRules
    by_cases hr : ruleHolds r v m s2
    · rw [if_pos hr]
      rcases hinc : incrementSignal tr r t ps j (breakFlag j s a) u with ⟨tr1, ps1, found⟩
      have hclean := incrementSignal_clean excl tr r t ps j (breakFlag j s a) u ht hid hp
      rw [hinc] at hclean
      cases found with
      | true =>
        dsimp only
        exact ⟨hs, hclean.1, hclean.2⟩
      | false =>
        dsimp only
        exact ih sigs tr1 ps1 hs hclean.1 hclean.2
    · rw [if_neg hr]
      rcases hcl : clearSignal sigs tr r with ⟨sigs1, tr1⟩
      have h1 : CleanSigs excl sigs1 := by
        have := clearSignal_clean_sigs excl sigs tr r hs ht
        rw [hcl] at this
        exact this
      have h2 : CleanTracker excl tr1 := by
        have := clearSignal_clean_tr excl sigs tr r ht
        rw [hcl] at this
        exact this
      exact ih sigs1 tr1 ps h1 h2 hp

lemma scanLoop_clean (excl : List Nat) (data : List DataPoint) (m s2 : Option ℚ)
    (s : Int) (a : Bool) (u : Nat) :
    ∀ (js : List Int) (sigs : List (Nat × RuleId)) (tr : Tracker) (ps : List Process),
      CleanSigs excl sigs → CleanTracker excl tr → CleanProcs excl ps →
      CleanSigs excl (scanLoop data excl m s2 s a u js sigs tr ps).1 ∧
      CleanTracker excl (scanLoop data excl m s2 s a u js sigs tr ps).2.1 ∧
      CleanProcs excl (scanLoop data excl m s2 s a u js sigs tr ps).2.2.1 := by
  intro js
  induction js with
  | nil => intro sigs tr ps hs ht hp; exact ⟨hs, ht, hp⟩
  | cons j js ih =>
    intro sigs tr ps hs ht hp
    unfold scanLoop
    by_cases hx : (getPoint data j).t ∈ excl
    · rw [if_pos hx]
      exact ih sigs tr ps hs ht hp
    · rw [if_neg hx]
      rcases hsr : scanRules (getPoint data j).v m s2 (getPoint data j).t j s a u
          signalOrder sigs tr ps with ⟨sigs1, tr1, ps1, found⟩
      have hclean := scanRules_clean excl (getPoint data j).v m s2 (getPoint data j).t
        j s a u hx signalOrder sigs tr ps hs ht hp
      rw [hsr] at hclean
      cases found with
      | true =>
        dsimp only
        exact hclean
      | false =>
        dsimp only
        exact ih sigs1 tr1 ps1 hclean.1 hclean.2.1 hclean.2.2

lemma growAt_clean (excl : List Nat) (st : Option ℚ × Option ℚ) (e : Int)
    (ps : List Process) (k : Nat) (hp : CleanProcs excl ps) :
    CleanProcs excl (growAt st e ps k) := by
  intro q hq
  unfold growAt at hq
  rcases mem_modifyAt _ _ _ q hq with h | ⟨x, hx, hqx⟩
  · rcases mem_modifyAt _ _ _ q h with h2 | ⟨y, hy, hqy⟩
    · exact hp q h2
    · subst hqy
      intro e2 he2
      simp at he2
  · rcases mem_modifyAt _ _ _ x hx with h2 | ⟨y, hy, hqy⟩
    · subst hqx
      exact hp x h2
    · subst hqx
      subst hqy
      intro e2 he2
      simp at he2

lemma setSignalsAt_clean (excl : List Nat) (sigs : List (Nat × RuleId))
    (ps : List Process) (k : Nat) (hs : CleanSigs excl sigs)
    (hp : CleanProcs excl ps) : CleanProcs excl (setSignalsAt sigs ps k) := by
  intro q hq
  unfold setSignalsAt at hq
  rcases mem_modifyAt _ _ _ q hq with h | ⟨x, hx, hqx⟩
  · exact hp q h
  · subst hqx
    exact hs

lemma setStatsAt_clean (excl : List Nat) (st : Option ℚ × Option ℚ)
    (ps : List Process) (k : Nat) (hp : CleanProcs excl ps) :
    CleanProcs excl (setStatsAt st ps k) := by
  intro q hq
  unfold setStatsAt at hq
  rcases mem_modifyAt _ _ _ q hq with h | ⟨x, hx, hqx⟩
  · exact hp q h
  · subst hqx
    exact hp x hx

lemma emptyTracker_clean (excl : List Nat) : CleanTracker excl emptyTracker := by
  intro r t htm
  simp [emptyTracker] at htm

lemma signalStep_clean (excl : List Nat) (data : List DataPoint) (a : Bool) (u : Nat)
    (ps : List Process) (k : Nat) (p : Process) (hp : CleanProcs excl ps) :
    CleanProcs excl (signalStep data excl a u ps k p).1 ∧
    CleanTracker excl (signalStep data excl a u ps k p).2.1 := by
  unfold signalStep
  rcases hscan : scanLoop data excl
      (summaryStatistics data excl p.startIndex (p.endIndex + 1)).1
      (summaryStatistics data excl p.startIndex (p.endIndex + 1)).2
      p.startIndex a u (scanIndices (p.endIndex + 1) p.startIndex) [] emptyTracker
      (growAt (summaryStatistics data excl p.startIndex (p.endIndex + 1))
        (p.endIndex + 1) ps k) with ⟨sigs, tr2, ps3, found⟩
  have hclean := scanLoop_clean excl data
    (summaryStatistics data excl p.startIndex (p.endIndex + 1)).1
    (summaryStatistics data excl p.startIndex (p.endIndex + 1)).2
    p.startIndex a u (scanIndices (p.endIndex + 1) p.startIndex) [] emptyTracker
    (growAt (summaryStatistics data excl p.startIndex (p.endIndex + 1))
      (p.endIndex + 1) ps k)
    (by intro e he; simp at he)
    (emptyTracker_clean excl)
    (growAt_clean excl _ _ ps k hp)
  rw [hscan] at hclean
  obtain ⟨hs3, ht3, hp3⟩ := hclean
  cases found with
  | true =>
    dsimp only
    rw [if_pos rfl]
    exact ⟨setStatsAt_clean excl _ _ k (setSignalsAt_clean excl sigs ps3 k hs3 hp3), ht3⟩
  | false =>
    dsimp only
    rw [if_neg (by simp)]
    exact ⟨setSignalsAt_clean excl sigs ps3 k hs3 hp3, ht3⟩

lemma signalLoop_clean (excl : List Nat) (data : List DataPoint) (a : Bool) (u : Nat) :
    ∀ (fuel : Nat) (ps : List Process) (k : Nat) (tr : Tracker)
      (ps' : List Process) (tr' : Tracker) (f : Bool),
      CleanProcs excl ps → CleanTracker excl tr →
      signalLoop data excl a u fuel ps k tr = some (ps', tr', f) →
      CleanProcs excl ps' ∧ CleanTracker excl tr' := by
  intro fuel
  induction fuel with
  | zero => intro ps k tr ps' tr' f _ _ h; simp [signalLoop] at h
  | succ fuel ih =>
    intro ps k tr ps' tr' f hp ht h
    unfold signalLoop at h
    rcases hget : ps.get? k with _ | p
    · rw [hget] at h
      dsimp only at h
      simp only [Option.some_inj, Prod.mk.injEq] at h
      obtain ⟨h1, h2, -⟩ := h
      rw [← h1, ← h2]
      exact ⟨hp, ht⟩
    · rw [hget] at h
      dsimp only at h
      by_cases hguard : p.endIndex < (data.length : Int) - 1 ∧
          (p.cap = -1 ∨ p.endIndex < p.cap)
      · rw [if_pos hguard] at h
        rcases hstep : signalStep data excl a u ps k p with ⟨ps1, tr1, found⟩
        have hclean := signalStep_clean excl data a u ps k p hp
        rw [hstep] at hclean
        rw [hstep] at h
        cases found with
        | true =>
          simp only [Option.some_inj, Prod.mk.injEq] at h
          obtain ⟨h1, h2, -⟩ := h
          rw [← h1, ← h2]
          exact hclean
        | false => exact ih ps1 k tr1 ps' tr' f hclean.1 hclean.2 h
      · rw [if_neg hguard] at h
        simp only [Option.some_inj, Prod.mk.injEq] at h
        obtain ⟨h1, h2, -⟩ := h
        rw [← h1, ← h2]
        exact ⟨hp, ht⟩

lemma foldl_addSignal_clean (excl : List Nat) (tr : Tracker)
    (ht : CleanTracker excl tr) :
    ∀ (rules : List RuleId) (sigs : List (Nat × RuleId)), CleanSigs excl sigs →
      CleanSigs excl (rules.foldl (fun s r => addSignalToTracker s tr r) sigs) := by
  intro rules
  induction rules with
  | nil => intro sigs hs; exact hs
  | cons r rest ih =>
    intro sigs hs
    simp only [List.foldl_cons]
    exact ih _ (addSignalToTracker_clean excl sigs tr r hs ht)

lemma flushTracker_clean (excl : List Nat) (sigs : List (Nat × RuleId)) (tr : Tracker)
    (hs : CleanSigs excl sigs) (ht : CleanTracker excl tr) :
    CleanSigs excl (flushTracker sigs tr) :=
  foldl_addSignal_clean excl tr ht signalOrder sigs hs

lemma flushAt_clean (excl : List Nat) (ps : List Process) (k : Nat) (tr : Tracker)
    (hp : CleanProcs excl ps) (ht : CleanTracker excl tr) :
    CleanProcs excl (flushAt ps k tr) := by
  intro q hq
  unfold flushAt at hq
  rcases mem_modifyAt _ _ _ q hq with h | ⟨x, hx, hqx⟩
  · exact hp q h
  · subst hqx
    exact flushTracker_clean excl x.signals tr (hp x hx) ht

lemma calc_clean (excl : List Nat) (data : List DataPoint) (a : Bool) (u : Nat) :
    ∀ (fuel : Nat) (ps : List Process) (k : Nat) (ps' : List Process),
      CleanProcs excl ps →
      calculateSignals data excl a u fuel ps k = some ps' →
      CleanProcs excl ps' := by
  intro fuel
  induction fuel with
  | zero => intro ps k ps' _ h; simp [calculateSignals] at h
  | succ fuel ih =>
    intro ps k ps' hp h
    unfold calculateSignals at h
    rcases hget : ps.get? k with _ | p
    · rw [hget] at h
      dsimp only at h
      rw [← Option.some_inj.mp h]
      exact hp
    · rw [hget] at h
      dsimp only at h
      have hadj : CleanProcs excl (modifyAt (adjustProcess (data.length : Int)) ps k) := by
        intro q hq
        rcases mem_modifyAt _ _ _ q hq with h2 | ⟨x, hx, hqx⟩
        · exact hp q h2
        · subst hqx
          intro e he
          simp [adjustProcess] at he
      rcases hsl : signalLoop data excl a u (data.length + 2)
          (modifyAt (adjustProcess (data.length : Int)) ps k) k emptyTracker
        with _ | ⟨ps1, tr, found⟩
      · rw [hsl] at h
        simp at h
      · rw [hsl] at h
        dsimp only at h
        obtain ⟨hp1, ht1⟩ := signalLoop_clean excl data a u (data.length + 2) _ k
          emptyTracker ps1 tr found hadj (emptyTracker_clean excl) hsl
        have hflush := flushAt_clean excl ps1 k tr hp1 ht1
        by_cases hcond : found = true ∨ k < (flushAt ps1 k tr).length - 1
        · rw [if_pos hcond] at h
          exact ih _ (k + 1) ps' hflush h
        · rw [if_neg hcond] at h
          rw [← Option.some_inj.mp h]
          exact hflush

lemma manualChain_signals (len : Int) :
    ∀ (bs : List Int) (prev : Int), ∀ q ∈ manualChain len prev bs, q.signals = [] := by
  intro bs
  induction bs with
  | nil => intro prev q hq; simp [manualChain] at hq
  | cons b rest ih =>
    intro prev q hq
    cases rest with
    | nil =>
      simp only [manualChain, List.mem_cons, List.mem_singleton,
        List.not_mem_nil, or_false] at hq
      rcases hq with hq | hq
      · subst hq
        rfl
      · subst hq
        rfl
    | cons b2 r2 =>
      simp only [manualChain, List.mem_cons] at hq
      rcases hq with hq | hq
      · subst hq
        rfl
      · exact ih b q hq

/-- **C7**: exclusion safety.  For every series, configuration and run of
`displayChart`, no excluded timestamp ever appears in any final process's
signal map (excluded points are skipped by the scan, so they never enter a
run tracker, and every map entry comes from a tracker).  Moreover, on a
series whose every point is excluded — and in particular on an empty
series, where mean and deviation are undefined — `getSignals` completes
without error, creates no extra process, and classifies no point. -/
theorem C7_exclusion_safety :
    (∀ (data : List DataPoint) (excl : List Nat) (manual : List Int) (auto : Bool)
        (untl : Nat) (ps : List Process),
      displayChart data excl manual auto untl = some ps →
      ∀ p ∈ ps, ∀ e ∈ p.signals, e.1 ∉ excl) ∧
    (∀ (data : List DataPoint) (excl : List Nat) (auto : Bool) (untl : Nat),
      (∀ d ∈ data, d.t ∈ excl) →
      ∃ ps, getSignals data excl auto untl = some ps ∧ ps.length = 1 ∧
        ∀ p ∈ ps, p.signals = []) := by
  refine ⟨?_, ?_⟩
  · intro data excl manual auto untl ps hrun p hp e he
    have hinit : CleanProcs excl (initialProcesses data.length manual auto) := by
      by_cases hsingle : manual.length = 0 ∨ auto = true
      · rw [initialProcesses_single _ _ _ hsingle]
        intro q hq
        simp only [List.mem_singleton] at hq
        subst hq
        intro e2 he2
        rw [show (newProc 0 (-1)).signals = [] from rfl] at he2
        simp at he2
      · push_neg at hsingle
        obtain ⟨hm0, hauto⟩ := hsingle
        have hauto' : auto = false := by
          revert hauto
          cases auto <;> simp
        subst hauto'
        rw [initialProcesses_false data.length manual
          (by intro hnil; rw [hnil] at hm0; exact hm0 rfl)]
        intro q hq
        intro e2 he2
        rw [manualChain_signals _ manual 0 q hq] at he2
        simp at he2
    unfold displayChart at hrun
    exact calc_clean excl data auto untl (data.length + manual.length + 2) _ 0 ps
      hinit hrun p hp e he
  · intro data excl auto untl hall
    obtain ⟨ps', hrun, hlen, -, hsuf⟩ := calc_allexcl data excl auto untl hall
      (data.length + 2) [newProc 0 (-1)] 0
      (by
        intro i p _ hgi
        cases i with
        | zero =>
          simp only [List.get?, Option.some_inj] at hgi
          subst hgi
          refine ⟨by show (0 : Int) ≤ 0; norm_num, by rw [newProc_zero_end]; norm_num⟩
        | succ i => simp [List.get?] at hgi)
      (by simp)
    refine ⟨ps', by unfold getSignals; rw [createProcess_nil]; exact hrun, ?_, ?_⟩
    · rw [hlen]
      rfl
    · intro p hp
      obtain ⟨i, hgi⟩ := List.mem_iff_get?.mp hp
      exact hsuf i p (Nat.zero_le i) hgi

/-- Witness for the C7 theorem: excluding all three timestamps of the
three-point series yields a completed run with a single process and no
signal at all; the clean-signals part applies to the same run. -/
theorem C7_exclusion_safety_witness :
    ∃ ps, getSignals c8data [0, 1, 2] true 99 = some ps ∧ ps.length = 1 ∧
      ∀ p ∈ ps, p.signals = [] :=
  C7_exclusion_safety.2 c8data [0, 1, 2] true 99 (by with_unfolding_all decide)

/-! ## Affine equivariance of the engine (towards claim C4) -/

lemma decide_lt_map (c d a b : ℚ) (h : 0 < d) :
    decide (c + d * a < c + d * b) = decide (a < b) := by
  rw [decide_eq_decide]
  constructor <;> intro hh <;> nlinarith

lemma overSig_map (c d v m s2 k : ℚ) (h : 0 < d) :
    overSig (c + d * v) (c + d * m) (d ^ 2 * s2) k = overSig v m s2 k := by
  unfold overSig
  have h1 : decide (c + d * m < c + d * v) = decide (m < v) := decide_lt_map c d m v h
  have h2 : decide (k * (d ^ 2 * s2) < (c + d * v - (c + d * m)) ^ 2) =
      decide (k * s2 < (v - m) ^ 2) := by
    rw [decide_eq_decide]
    rw [show (c + d * v - (c + d * m)) ^ 2 = d ^ 2 * ((v - m) ^ 2) by ring,
      show k * (d ^ 2 * s2) = d ^ 2 * (k * s2) by ring]
    exact mul_lt_mul_left (pow_pos h 2)
  rw [h1, h2]

lemma underSig_map (c d v m s2 k : ℚ) (h : 0 < d) :
    underSig (c + d * v) (c + d * m) (d ^ 2 * s2) k = underSig v m s2 k := by
  unfold underSig
  have h1 : decide (c + d * v < c + d * m) = decide (v < m) := decide_lt_map c d v m h
  have h2 : decide (k * (d ^ 2 * s2) < (c + d * m - (c + d * v)) ^ 2) =
      decide (k * s2 < (m - v) ^ 2) := by
    rw [decide_eq_decide]
    rw [show (c + d * m - (c + d * v)) ^ 2 = d ^ 2 * ((m - v) ^ 2) by ring,
      show k * (d ^ 2 * s2) = d ^ 2 * (k * s2) by ring]
    exact mul_lt_mul_left (pow_pos h 2)
  rw [h1, h2]

lemma ruleHolds_map (c d : ℚ) (h : 0 < d) (r : RuleId) (v : ℚ) (m s2 : Option ℚ) :
    ruleHolds r (c + d * v) (Option.map (fun x => c + d * x) m)
      (Option.map (fun x => d ^ 2 * x) s2) = ruleHolds r v m s2 := by
  cases m with
  | none => cases r <;> rfl
  | some m =>
    cases s2 with
    | none =>
      cases r with
      | EIGHT_OVER_MEAN => exact decide_lt_map c d m v h
      | EIGHT_UNDER_MEAN => exact decide_lt_map c d v m h
      | TWO_OVER_TWO => rfl
      | TWO_UNDER_TWO => rfl
      | THREE_OVER_ONE_FIVE => rfl
      | THREE_UNDER_ONE_FIVE => rfl
      | ONE_OVER_THREE => rfl
      | ONE_UNDER_THREE => rfl
    | some s2 =>
      cases r with
      | EIGHT_OVER_MEAN => exact decide_lt_map c d m v h
      | EIGHT_UNDER_MEAN => exact decide_lt_map c d v m h
      | TWO_OVER_TWO => exact overSig_map c d v m s2 4 h
      | TWO_UNDER_TWO => exact underSig_map c d v m s2 4 h
      | THREE_OVER_ONE_FIVE => exact overSig_map c d v m s2 (9 / 4) h
      | THREE_UNDER_ONE_FIVE => exact underSig_map c d v m s2 (9 / 4) h
      | ONE_OVER_THREE => exact overSig_map c d v m s2 9 h
      | ONE_UNDER_THREE => exact underSig_map c d v m s2 9 h

lemma mapData_length (c d : ℚ) (data : List DataPoint) :
    (mapData c d data).length = data.length := by
  simp [mapData]

lemma getPoint_mapData (c d : ℚ) (data : List DataPoint) (j : Int)
    (h : j.toNat < data.length) :
    getPoint (mapData c d data) j =
      ⟨(getPoint data j).t, c + d * (getPoint data j).v⟩ := by
  unfold getPoint mapData
  rw [List.get?_map]
  rcases hg : data.get? j.toNat with _ | p
  · rw [List.get?_eq_none] at hg
    omega
  · rfl

lemma jsSlice_mapData (c d : ℚ) (data : List DataPoint) (s e : Int) :
    jsSlice (mapData c d data) s e =
      (jsSlice data s e).map (fun p => ⟨p.t, c + d * p.v⟩) := by
  unfold jsSlice
  simp [mapData, List.map_take, List.map_drop]

lemma map_v_affine (c d : ℚ) (l : List DataPoint) :
    ((l.map (fun p => (⟨p.t, c + d * p.v⟩ : DataPoint))).map (·.v)) =
      (l.map (·.v)).map (fun x => c + d * x) := by
  simp [List.map_map]

lemma sum_map_affine (c d : ℚ) (l : List ℚ) :
    (l.map (fun x => c + d * x)).sum = l.length * c + d * l.sum := by
  induction l with
  | nil => simp
  | cons x rest ih =>
    simp only [List.map_cons, List.sum_cons, ih, List.length_cons]
    push_cast
    ring

lemma sum_map_mul_left (a : ℚ) (l : List ℚ) :
    (l.map (fun x => a * x)).sum = a * l.sum := by
  induction l with
  | nil => simp
  | cons x rest ih =>
    simp only [List.map_cons, List.sum_cons, ih]
    ring

lemma d3mean_map (c d : ℚ) (l : List ℚ) :
    d3mean (l.map (fun x => c + d * x)) = (d3mean l).map (fun x => c + d * x) := by
  cases l with
  | nil => rfl
  | cons x rest =>
    unfold d3mean
    rw [if_neg (by simp), if_neg (by simp)]
    simp only [Option.map_some']
    rw [sum_map_affine, List.length_map]
    congr 1
    have hlen : (0 : ℚ) < (((x :: rest).length : Nat) : ℚ) := by
      exact_mod_cast Nat.succ_pos rest.length
    field_simp
    ring

lemma d3variance_map (c d : ℚ) (l : List ℚ) :
    d3variance (l.map (fun x => c + d * x)) = (d3variance l).map (fun x => d ^ 2 * x) := by
  by_cases hl : l.length < 2
  · unfold d3variance
    rw [List.length_map, if_pos hl, if_pos hl]
    rfl
  · unfold d3variance
    rw [List.length_map, if_neg hl, if_neg hl]
    simp only [Option.map_some']
    congr 1
    have h2 : 2 ≤ l.length := not_lt.mp hl
    have hlen0 : ((l.length : Nat) : ℚ) ≠ 0 := by
      intro h0
      have : l.length = 0 := by exact_mod_cast h0
      omega
    have hmap : ((l.map (fun x => c + d * x)).map
        (fun x => (x - (l.map (fun y => c + d * y)).sum /
          ((l.length : Nat) : ℚ)) ^ 2)) =
        (l.map (fun x => (x - l.sum / ((l.length : Nat) : ℚ)) ^ 2)).map
          (fun x => d ^ 2 * x) := by
      rw [List.map_map, List.map_map, sum_map_affine]
      apply List.map_congr_left
      intro x hx
      show (c + d * x - ((l.length : ℚ) * c + d * l.sum) / (l.length : ℚ)) ^ 2 =
        d ^ 2 * ((x - l.sum / (l.length : ℚ)) ^ 2)
      field_simp
      ring
    rw [hmap, sum_map_mul_left, mul_div_assoc]

lemma summaryStatistics_map (c d : ℚ) (data : List DataPoint) (s e : Int) :
    summaryStatistics (mapData c d data) [] s e =
      mapStats c d (summaryStatistics data [] s e) := by
  unfold summaryStatistics
  rw [if_pos (show ([] : List Nat).isEmpty = true from rfl),
    if_pos (show ([] : List Nat).isEmpty = true from rfl)]
  rw [jsSlice_mapData, map_v_affine, d3mean_map, d3variance_map]
  rfl

lemma mapProc_newProc (c d : ℚ) (i cp : Int) :
    mapProc c d (newProc i cp) = newProc i cp := rfl

lemma modifyAt_map (F g g' : Process → Process)
    (hc : ∀ q, g (F q) = F (g' q)) :
    ∀ (ps : List Process) (k : Nat),
      modifyAt g (ps.map F) k = (modifyAt g' ps k).map F := by
  intro ps
  induction ps with
  | nil => intro k; rfl
  | cons p rest ih =>
    intro k
    cases k with
    | zero =>
      show g (F p) :: rest.map F = F (g' p) :: rest.map F
      rw [hc p]
    | succ k =>
      show F p :: modifyAt g (rest.map F) k = F p :: (modifyAt g' rest k).map F
      rw [ih k]

lemma createProcess_map (c d : ℚ) (ps : List Process) (i cp : Int) :
    createProcess (ps.map (mapProc c d)) i cp =
      (createProcess ps i cp).map (mapProc c d) := by
  by_cases hps : ps = []
  · subst hps
    simp only [List.map_nil]
    rw [createProcess_nil]
    simp [mapProc_newProc]
  · have hne2 : ps.map (mapProc c d) ≠ [] := by
      intro hcon
      exact hps (List.map_eq_nil.mp hcon)
    rw [createProcess_cons _ i cp hne2, createProcess_cons ps i cp hps,
      List.length_map,
      modifyAt_map (mapProc c d)
        (fun q => { q with endIndex := i - 1 })
        (fun q => { q with endIndex := i - 1 })
        (fun q => rfl)]
    simp [mapProc_newProc]

lemma incrementSignal_map (c d : ℚ) (tr : Tracker) (sig : RuleId) (id : Nat)
    (ps : List Process) (idx : Int) (a : Bool) (u : Nat) :
    incrementSignal tr sig id (ps.map (mapProc c d)) idx a u =
      ((incrementSignal tr sig id ps idx a u).1,
       (incrementSignal tr sig id ps idx a u).2.1.map (mapProc c d),
       (incrementSignal tr sig id ps idx a u).2.2) := by
  unfold incrementSignal
  by_cases hcond : (sig = RuleId.EIGHT_OVER_MEAN ∨ sig = RuleId.EIGHT_UNDER_MEAN) ∧
      (pushTracker tr sig id sig).length = ruleLength RuleId.EIGHT_OVER_MEAN ∧
      a = true ∧ id < u
  · rw [if_pos hcond, if_pos hcond]
    dsimp only
    rw [createProcess_map]
  · rw [if_neg hcond, if_neg hcond]

lemma scanRules_map (c d : ℚ) (h : 0 < d) (v : ℚ) (m s2 : Option ℚ) (t : Nat)
    (j s : Int) (a : Bool) (u : Nat) :
    ∀ (rs : List RuleId) (sigs : List (Nat × RuleId)) (tr : Tracker) (ps : List Process),
      scanRules (c + d * v) (m.map (fun x => c + d * x)) (s2.map (fun x => d ^ 2 * x))
          t j s a u rs sigs tr (ps.map (mapProc c d)) =
        ((scanRules v m s2 t j s a u rs sigs tr ps).1,
         (scanRules v m s2 t j s a u rs sigs tr ps).2.1,
         (scanRules v m s2 t j s a u rs sigs tr ps).2.2.1.map (mapProc c d),
         (scanRules v m s2 t j s a u rs sigs tr ps).2.2.2) := by
  intro rs
  induction rs with
  | nil => intro sigs tr ps; rfl
  | cons r rest ih =>
    intro sigs tr ps
    unfold scanRules
    rw [ruleHolds_map c d h r v m s2]
    by_cases hr : ruleHolds r v m s2
    · rw [if_pos hr, if_pos hr]
      rw [incrementSignal_map c d tr r t ps j (breakFlag j s a) u]
      rcases hinc : incrementSignal tr r t ps j (breakFlag j s a) u with ⟨tr1, ps1, found⟩
      dsimp only
      cases found with
      | true => rfl
      | false => exact ih sigs tr1 ps1
    · rw [if_neg hr, if_neg hr]
      rcases hcl : clearSignal sigs tr r with ⟨sigs1, tr1⟩
      dsimp only
      exact ih sigs1 tr1 ps

lemma scanLoop_map (c d : ℚ) (h : 0 < d) (data : List DataPoint) (m s2 : Option ℚ)
    (s : Int) (a : Bool) (u : Nat) :
    ∀ (js : List Int) (sigs : List (Nat × RuleId)) (tr : Tracker) (ps : List Process),
      (∀ j ∈ js, 0 ≤ j ∧ j.toNat < data.length) →
      scanLoop (mapData c d data) [] (m.map (fun x => c + d * x))
          (s2.map (fun x => d ^ 2 * x)) s a u js sigs tr (ps.map (mapProc c d)) =
        ((scanLoop data [] m s2 s a u js sigs tr ps).1,
         (scanLoop data [] m s2 s a u js sigs tr ps).2.1,
         (scanLoop data [] m s2 s a u js sigs tr ps).2.2.1.map (mapProc c d),
         (scanLoop data [] m s2 s a u js sigs tr ps).2.2.2) := by
  intro js
  induction js with
  | nil => intro sigs tr ps _; rfl
  | cons j js ih =>
    intro sigs tr ps hrange
    unfold scanLoop
    have hj := hrange j (by simp)
    rw [getPoint_mapData c d data j hj.2]
    dsimp only
    rw [if_neg (show ¬((getPoint data j).t ∈ ([] : List Nat)) by simp),
      if_neg (show ¬((getPoint data j).t ∈ ([] : List Nat)) by simp)]
    rw [scanRules_map c d h (getPoint data j).v m s2 (getPoint data j).t j s a u
      signalOrder sigs tr ps]
    rcases hsr : scanRules (getPoint data j).v m s2 (getPoint data j).t j s a u
        signalOrder sigs tr ps with ⟨sigs1, tr1, ps1, found⟩
    dsimp only
    cases found with
    | true => rfl
    | false => exact ih sigs1 tr1 ps1 (fun x hx => hrange x (by simp [hx]))

lemma growAt_map (c d : ℚ) (st : Option ℚ × Option ℚ) (e : Int)
    (ps : List Process) (k : Nat) :
    growAt (mapStats c d st) e (ps.map (mapProc c d)) k =
      (growAt st e ps k).map (mapProc c d) := by
  unfold growAt
  rw [modifyAt_map (mapProc c d) (fun q => { q with endIndex := e, signals := [] })
    (fun q => { q with endIndex := e, signals := [] }) (fun q => rfl)]
  rw [modifyAt_map (mapProc c d)
    (fun q => { q with mean := (mapStats c d st).1, sd2 := (mapStats c d st).2 })
    (fun q => { q with mean := st.1, sd2 := st.2 }) (fun q => rfl)]

lemma setSignalsAt_map (c d : ℚ) (sigs : List (Nat × RuleId)) (ps : List Process)
    (k : Nat) :
    setSignalsAt sigs (ps.map (mapProc c d)) k =
      (setSignalsAt sigs ps k).map (mapProc c d) := by
  unfold setSignalsAt
  rw [modifyAt_map (mapProc c d) (fun q => { q with signals := sigs })
    (fun q => { q with signals := sigs }) (fun q => rfl)]

lemma setStatsAt_map (c d : ℚ) (st : Option ℚ × Option ℚ) (ps : List Process)
    (k : Nat) :
    setStatsAt (mapStats c d st) (ps.map (mapProc c d)) k =
      (setStatsAt st ps k).map (mapProc c d) := by
  unfold setStatsAt
  rw [modifyAt_map (mapProc c d)
    (fun q => { q with mean := (mapStats c d st).1, sd2 := (mapStats c d st).2 })
    (fun q => { q with mean := st.1, sd2 := st.2 }) (fun q => rfl)]

lemma flushAt_map (c d : ℚ) (ps : List Process) (k : Nat) (tr : Tracker) :
    flushAt (ps.map (mapProc c d)) k tr = (flushAt ps k tr).map (mapProc c d) := by
  unfold flushAt
  rw [modifyAt_map (mapProc c d)
    (fun q => { q with signals := flushTracker q.signals tr })
    (fun q => { q with signals := flushTracker q.signals tr }) (fun q => rfl)]

lemma procStart_map (c d : ℚ) (ps : List Process) (k : Nat) :
    procStart (ps.map (mapProc c d)) k = procStart ps k := by
  unfold procStart
  rw [List.get?_map]
  rcases hg : ps.get? k with _ | q <;> rfl

lemma procEnd_map (c d : ℚ) (ps : List Process) (k : Nat) :
    procEnd (ps.map (mapProc c d)) k = procEnd ps k := by
  unfold procEnd
  rw [List.get?_map]
  rcases hg : ps.get? k with _ | q <;> rfl

lemma signalStep_map (c d : ℚ) (h : 0 < d) (data : List DataPoint) (a : Bool) (u : Nat)
    (ps : List Process) (k : Nat) (p : Process)
    (hstart : 0 ≤ p.startIndex)
    (hend : p.endIndex + 1 ≤ (data.length : Int) - 1) :
    signalStep (mapData c d data) [] a u (ps.map (mapProc c d)) k (mapProc c d p) =
      ((signalStep data [] a u ps k p).1.map (mapProc c d),
       (signalStep data [] a u ps k p).2.1,
       (signalStep data [] a u ps k p).2.2) := by
  have hrange : ∀ j ∈ scanIndices (p.endIndex + 1) p.startIndex,
      0 ≤ j ∧ j.toNat < data.length := by
    intro j hj
    obtain ⟨h1, h2⟩ := scanIndices_mem _ _ _ hj
    exact ⟨by omega, by omega⟩
  unfold signalStep
  rw [show (mapProc c d p).startIndex = p.startIndex from rfl,
    show (mapProc c d p).endIndex = p.endIndex from rfl,
    summaryStatistics_map c d data p.startIndex (p.endIndex + 1)]
  rw [show (mapStats c d (summaryStatistics data [] p.startIndex (p.endIndex + 1))).1 =
      (summaryStatistics data [] p.startIndex (p.endIndex + 1)).1.map
        (fun x => c + d * x) from rfl,
    show (mapStats c d (summaryStatistics data [] p.startIndex (p.endIndex + 1))).2 =
      (summaryStatistics data [] p.startIndex (p.endIndex + 1)).2.map
        (fun x => d ^ 2 * x) from rfl]
  rw [growAt_map c d _ (p.endIndex + 1) ps k]
  rw [scanLoop_map c d h data
    (summaryStatistics data [] p.startIndex (p.endIndex + 1)).1
    (summaryStatistics data [] p.startIndex (p.endIndex + 1)).2
    p.startIndex a u (scanIndices (p.endIndex + 1) p.startIndex) [] emptyTracker
    (growAt (summaryStatistics data [] p.startIndex (p.endIndex + 1))
      (p.endIndex + 1) ps k) hrange]
  rcases hscan : scanLoop data []
      (summaryStatistics data [] p.startIndex (p.endIndex + 1)).1
      (summaryStatistics data [] p.startIndex (p.endIndex + 1)).2
      p.startIndex a u (scanIndices (p.endIndex + 1) p.startIndex) [] emptyTracker
      (growAt (summaryStatistics data [] p.startIndex (p.endIndex + 1))
        (p.endIndex + 1) ps k) with ⟨sigs, tr2, ps3, found⟩
  dsimp only
  cases found with
  | true =>
    rw [if_pos rfl, if_pos rfl]
    rw [setSignalsAt_map, procStart_map, procEnd_map,
      summaryStatistics_map c d data _ _, setStatsAt_map]
  | false =>
    rw [if_neg (by simp), if_neg (by simp)]
    rw [setSignalsAt_map]

lemma createProcess_start (ps : List Process) (i cp : Int) (hi : 0 ≤ i)
    (hp : ∀ q ∈ ps, 0 ≤ q.startIndex) :
    ∀ q ∈ createProcess ps i cp, 0 ≤ q.startIndex := by
  intro q hq
  by_cases hps : ps = []
  · subst hps
    rw [createProcess_nil] at hq
    simp only [List.mem_singleton] at hq
    subst hq
    exact hi
  · rw [createProcess_cons ps i cp hps] at hq
    rcases List.mem_append.mp hq with h | h
    · rcases mem_modifyAt _ ps _ q h with h2 | ⟨x, hx, hqx⟩
      · exact hp q h2
      · subst hqx
        exact hp x hx
    · simp only [List.mem_singleton] at h
      subst h
      exact hi

lemma scanRules_start (v : ℚ) (m s2 : Option ℚ) (t : Nat) (j s : Int) (a : Bool)
    (u : Nat) (hj : 0 ≤ j) :
    ∀ (rs : List RuleId) (sigs : List (Nat × RuleId)) (tr : Tracker) (ps : List Process),
      (∀ q ∈ ps, 0 ≤ q.startIndex) →
      ∀ q ∈ (scanRules v m s2 t j s a u rs sigs tr ps).2.2.1, 0 ≤ q.startIndex := by
  intro rs
  induction rs with
  | nil => intro sigs tr ps hp; exact hp
  | cons r rest ih =>
    intro sigs tr ps hp
    unfold scanRules
    by_cases hr : ruleHolds r v m s2
    · rw [if_pos hr]
      rcases hinc : incrementSignal tr r t ps j (breakFlag j s a) u with ⟨tr1, ps1, found⟩
      have hps1 : ∀ q ∈ ps1, 0 ≤ q.startIndex := by
        have : ps1 = (incrementSignal tr r t ps j (breakFlag j s a) u).2.1 := by
          rw [hinc]
        rw [this]
        unfold incrementSignal
        split
        · exact createProcess_start ps j (-1) hj hp
        · exact hp
      cases found with
      | true =>
        dsimp only
        exact hps1
      | false =>
        dsimp only
        exact ih sigs tr1 ps1 hps1
    · rw [if_neg hr]
      rcases hcl : clearSignal sigs tr r with ⟨sigs1, tr1⟩
      dsimp only
      exact ih sigs1 tr1 ps hp

lemma scanLoop_start (data : List DataPoint) (excl : List Nat) (m s2 : Option ℚ)
    (s : Int) (a : Bool) (u : Nat) :
    ∀ (js : List Int) (sigs : List (Nat × RuleId)) (tr : Tracker) (ps : List Process),
      (∀ j ∈ js, 0 ≤ j) → (∀ q ∈ ps, 0 ≤ q.startIndex) →
      ∀ q ∈ (scanLoop data excl m s2 s a u js sigs tr ps).2.2.1, 0 ≤ q.startIndex := by
  intro js
  induction js with
  | nil => intro sigs tr ps _ hp; exact hp
  | cons j js ih =>
    intro sigs tr ps hjs hp
    unfold scanLoop
    by_cases hx : (getPoint data j).t ∈ excl
    · rw [if_pos hx]
      exact ih sigs tr ps (fun x hx2 => hjs x (by simp [hx2])) hp
    · rw [if_neg hx]
      rcases hsr : scanRules (getPoint data j).v m s2 (getPoint data j).t j s a u
          signalOrder sigs tr ps with ⟨sigs1, tr1, ps1, found⟩
      have hps1 : ∀ q ∈ ps1, 0 ≤ q.startIndex := by
        have := scanRules_start (getPoint data j).v m s2 (getPoint data j).t j s a u
          (hjs j (by simp)) signalOrder sigs tr ps hp
        rw [hsr] at this
        exact this
      cases found with
      | true =>
        dsimp only
        exact hps1
      | false =>
        dsimp only
        exact ih sigs1 tr1 ps1 (fun x hx2 => hjs x (by simp [hx2])) hps1

lemma signalStep_start (data : List DataPoint) (excl : List Nat) (a : Bool) (u : Nat)
    (ps : List Process) (k : Nat) (p : Process)
    (hstart : 0 ≤ p.startIndex) (hp : ∀ q ∈ ps, 0 ≤ q.startIndex) :
    ∀ q ∈ (signalStep data excl a u ps k p).1, 0 ≤ q.startIndex := by
  unfold signalStep
  rcases hscan : scanLoop data excl
      (summaryStatistics data excl p.startIndex (p.endIndex + 1)).1
      (summaryStatistics data excl p.startIndex (p.endIndex + 1)).2
      p.startIndex a u (scanIndices (p.endIndex + 1) p.startIndex) [] emptyTracker
      (growAt (summaryStatistics data excl p.startIndex (p.endIndex + 1))
        (p.endIndex + 1) ps k) with ⟨sigs, tr2, ps3, found⟩
  have hgrow : ∀ q ∈ growAt (summaryStatistics data excl p.startIndex (p.endIndex + 1))
      (p.endIndex + 1) ps k, 0 ≤ q.startIndex := by
    intro q hq
    unfold growAt at hq
    rcases mem_modifyAt _ _ _ q hq with h2 | ⟨x, hx, hqx⟩
    · rcases mem_modifyAt _ _ _ q h2 with h3 | ⟨y, hy, hqy⟩
      · exact hp q h3
      · subst hqy
        exact hp y hy
    · rcases mem_modifyAt _ _ _ x hx with h3 | ⟨y, hy, hqy⟩
      · subst hqx
        exact hp x h3
      · subst hqx
        subst hqy
        exact hp y hy
  have hps3 : ∀ q ∈ ps3, 0 ≤ q.startIndex := by
    have := scanLoop_start data excl
      (summaryStatistics data excl p.startIndex (p.endIndex + 1)).1
      (summaryStatistics data excl p.startIndex (p.endIndex + 1)).2
      p.startIndex a u (scanIndices (p.endIndex + 1) p.startIndex) [] emptyTracker
      (growAt (summaryStatistics data excl p.startIndex (p.endIndex + 1))
        (p.endIndex + 1) ps k)
      (fun j hj => by have := scanIndices_mem _ _ _ hj; omega) hgrow
    rw [hscan] at this
    exact this
  have hsets : ∀ q ∈ setSignalsAt sigs ps3 k, 0 ≤ q.startIndex := by
    intro q hq
    unfold setSignalsAt at hq
    rcases mem_modifyAt _ _ _ q hq with h2 | ⟨x, hx, hqx⟩
    · exact hps3 q h2
    · subst hqx
      exact hps3 x hx
  cases found with
  | true =>
    dsimp only
    rw [if_pos rfl]
    intro q hq
    unfold setStatsAt at hq
    rcases mem_modifyAt _ _ _ q hq with h2 | ⟨x, hx, hqx⟩
    · exact hsets q h2
    · subst hqx
      exact hsets x hx
  | false =>
    dsimp only
    rw [if_neg (by simp)]
    exact hsets

lemma signalLoop_start (data : List DataPoint) (excl : List Nat) (a : Bool) (u : Nat) :
    ∀ (fuel : Nat) (ps : List Process) (k : Nat) (tr : Tracker)
      (ps' : List Process) (tr' : Tracker) (f : Bool),
      (∀ q ∈ ps, 0 ≤ q.startIndex) →
      signalLoop data excl a u fuel ps k tr = some (ps', tr', f) →
      ∀ q ∈ ps', 0 ≤ q.startIndex := by
  intro fuel
  induction fuel with
  | zero => intro ps k tr ps' tr' f _ h; simp [signalLoop] at h
  | succ fuel ih =>
    intro ps k tr ps' tr' f hp h
    unfold signalLoop at h
    rcases hget : ps.get? k with _ | p
    · rw [hget] at h
      dsimp only at h
      simp only [Option.some_inj, Prod.mk.injEq] at h
      rw [← h.1]
      exact hp
    · rw [hget] at h
      dsimp only at h
      by_cases hguard : p.endIndex < (data.length : Int) - 1 ∧
          (p.cap = -1 ∨ p.endIndex < p.cap)
      · rw [if_pos hguard] at h
        rcases hstep : signalStep data excl a u ps k p with ⟨ps1, tr1, found⟩
        have hps1 : ∀ q ∈ ps1, 0 ≤ q.startIndex := by
          have := signalStep_start data excl a u ps k p
            (hp p (List.get?_mem hget)) hp
          rw [hstep] at this
          exact this
        rw [hstep] at h
        cases found with
        | true =>
          simp only [Option.some_inj, Prod.mk.injEq] at h
          rw [← h.1]
          exact hps1
        | false => exact ih ps1 k tr1 ps' tr' f hps1 h
      · rw [if_neg hguard] at h
        simp only [Option.some_inj, Prod.mk.injEq] at h
        rw [← h.1]
        exact hp

lemma signalLoop_map (c d : ℚ) (h : 0 < d) (data : List DataPoint) (a : Bool) (u : Nat) :
    ∀ (fuel : Nat) (ps : List Process) (k : Nat) (tr : Tracker),
      (∀ q ∈ ps, 0 ≤ q.startIndex) →
      signalLoop (mapData c d data) [] a u fuel (ps.map (mapProc c d)) k tr =
        (signalLoop data [] a u fuel ps k tr).map
          (fun r => (r.1.map (mapProc c d), r.2.1, r.2.2)) := by
  intro fuel
  induction fuel with
  | zero => intro ps k tr _; rfl
  | succ fuel ih =>
    intro ps k tr hp
    unfold signalLoop
    rw [List.get?_map]
    rcases hget : ps.get? k with _ | p
    · simp only [Option.map_none']
      rfl
    · simp only [Option.map_some']
      rw [mapData_length]
      rw [show (mapProc c d p).endIndex = p.endIndex from rfl,
        show (mapProc c d p).cap = p.cap from rfl]
      by_cases hguard : p.endIndex < (data.length : Int) - 1 ∧
          (p.cap = -1 ∨ p.endIndex < p.cap)
      · rw [if_pos hguard, if_pos hguard]
        rw [signalStep_map c d h data a u ps k p (hp p (List.get?_mem hget)) (by omega)]
        rcases hstep : signalStep data [] a u ps k p with ⟨ps1, tr1, found⟩
        dsimp only
        cases found with
        | true => rfl
        | false =>
          exact ih ps1 k tr1 (by
            have := signalStep_start data [] a u ps k p (hp p (List.get?_mem hget)) hp
            rw [hstep] at this
            exact this)
      · rw [if_neg hguard, if_neg hguard]
        rfl

lemma calculateSignals_map (c d : ℚ) (h : 0 < d) (data : List DataPoint) (a : Bool)
    (u : Nat) :
    ∀ (fuel : Nat) (ps : List Process) (k : Nat),
      (∀ q ∈ ps, 0 ≤ q.startIndex) →
      calculateSignals (mapData c d data) [] a u fuel (ps.map (mapProc c d)) k =
        (calculateSignals data [] a u fuel ps k).map (List.map (mapProc c d)) := by
  intro fuel
  induction fuel with
  | zero => intro ps k _; rfl
  | succ fuel ih =>
    intro ps k hp
    unfold calculateSignals
    rw [List.get?_map]
    rcases hget : ps.get? k with _ | p
    · simp only [Option.map_none']
      rfl
    · simp only [Option.map_some']
      rw [mapData_length]
      rw [modifyAt_map (mapProc c d) (adjustProcess (data.length : Int))
        (adjustProcess (data.length : Int)) (fun q => rfl)]
      have hpadj : ∀ q ∈ modifyAt (adjustProcess (data.length : Int)) ps k,
          0 ≤ q.startIndex := by
        intro q hq
        rcases mem_modifyAt _ _ _ q hq with h2 | ⟨x, hx, hqx⟩
        · exact hp q h2
        · subst hqx
          exact hp x hx
      rw [signalLoop_map c d h data a u (data.length + 2)
        (modifyAt (adjustProcess (data.length : Int)) ps k) k emptyTracker hpadj]
      rcases hsl : signalLoop data [] a u (data.length + 2)
          (modifyAt (adjustProcess (data.length : Int)) ps k) k emptyTracker
        with _ | ⟨ps1, tr, found⟩
      · simp only [Option.map_none']
      · simp only [Option.map_some']
        rw [flushAt_map, List.length_map]
        have hps1 : ∀ q ∈ ps1, 0 ≤ q.startIndex :=
          signalLoop_start data [] a u (data.length + 2) _ k emptyTracker ps1 tr found
            hpadj hsl
        have hflush : ∀ q ∈ flushAt ps1 k tr, 0 ≤ q.startIndex := by
          intro q hq
          unfold flushAt at hq
          rcases mem_modifyAt _ _ _ q hq with h2 | ⟨x, hx, hqx⟩
          · exact hps1 q h2
          · subst hqx
            exact hps1 x hx
        by_cases hcond : found = true ∨ k < (flushAt ps1 k tr).length - 1
        · rw [if_pos hcond, if_pos hcond]
          exact ih (flushAt ps1 k tr) (k + 1) hflush
        · rw [if_neg hcond, if_neg hcond]
          rfl

lemma getSignals_map (c d : ℚ) (h : 0 < d) (data : List DataPoint) (a : Bool) (u : Nat) :
    getSignals (mapData c d data) [] a u =
      (getSignals data [] a u).map (List.map (mapProc c d)) := by
  have hmain := calculateSignals_map c d h data a u (data.length + 2) [newProc 0 (-1)] 0
    (by
      intro q hq
      simp only [List.mem_singleton] at hq
      subst hq
      show (0 : Int) ≤ 0
      norm_num)
  rw [show ([newProc 0 (-1)] : List Process).map (mapProc c d) = [newProc 0 (-1)] from
    by simp [mapProc_newProc]] at hmain
  unfold getSignals
  rw [mapData_length, createProcess_nil]
  exact hmain

lemma c4data_eq_map (c d : ℚ) : c4data c d = mapData c d (c4data 0 1) := by
  unfold c4data mapData
  simp only [List.map_cons, List.map_nil]
  norm_num

set_option maxRecDepth 10000 in
lemma c4_concrete :
    (getSignals (c4data 0 1) [] true 15).map procBounds =
      some [((0 : Int), (7 : Int)), (8, 15)] := by
  with_unfolding_all decide

/-- **C4 (amended)**: the 16-point scenario produces the claimed two-process
split whenever the elevated points 9–16 share one common value strictly above
the constant of points 1–8 (the claim's arbitrary strictly-above elevations
do not suffice — see the C4 counterexample): for every base `c` and uniform
elevation `d > 0`, with automatic detection on, `autoDetectUntil` the last
timestamp and no exclusions, segmentation yields exactly the processes
`[0, 7]` and `[8, 15]`. -/
theorem C4_amended_scenario (c d : ℚ) (hd : 0 < d) :
    (getSignals (c4data c d) [] true 15).map procBounds =
      some [((0 : Int), (7 : Int)), (8, 15)] := by
  rw [c4data_eq_map c d, getSignals_map c d hd (c4data 0 1) true 15]
  rcases hrun : getSignals (c4data 0 1) [] true 15 with _ | P
  · have hc := c4_concrete
    rw [hrun] at hc
    simp at hc
  · have hc := c4_concrete
    rw [hrun] at hc
    simp only [Option.map_some', Option.some_inj] at hc
    simp only [Option.map_some', Option.some_inj]
    rw [← hc]
    unfold procBounds
    rw [List.map_map]
    apply List.map_congr_left
    intro q hq
    rfl

/-- Witness for the amended C4 theorem at base 3 and elevation 2. -/
theorem C4_amended_scenario_witness :
    (getSignals (c4data 3 2) [] true 15).map procBounds =
      some [((0 : Int), (7 : Int)), (8, 15)] :=
  C4_amended_scenario 3 2 (by norm_num)
